import Mathlib

/-!
# SimpleVector: a verification development

Shallow embedding of `simple_vector.h` and `array_ptr.h`.

* The free store is explicit state (`Heap`): a block is a list of cells, a raw
  pointer is a block address with an offset, and every load and store is
  bounds-checked.  An operation returns `none` when the C++ code would have
  undefined behaviour (out-of-bounds access, null dereference, failed
  `assert`, double `delete[]`).
* `size_t` values are natural numbers.  Every index the code computes is
  bounded by the length of a live block or by twice the capacity, and a live
  block has at most `PTRDIFF_MAX` cells, so no `size_t` computation of the
  code wraps on a state that can exist.  Allocation always succeeds, except in
  the `_alloc` variants of the growth operations, where the allocation of the
  new buffer is a step that may fail with `std::bad_alloc`.
* The element type is abstract (`ElemType`): its default value `Type()`, the
  value `std::move` leaves in a moved-from object, and the indeterminate
  contents of a default-initialised array cell.
* The reference parameter of `Insert` is a `Ref`: an object outside the free
  store or a cell of a block, read where the code assigns from it, so that a
  call whose argument is an element of the vector itself can be stated.
-/

namespace SV

/-! ## Definitions -/

/-- The operations of the template parameter `Type` that the container uses. -/
class ElemType (α : Type) where
  /-- The value-initialised element `Type()` / `Type{}`. -/
  dflt : α
  /-- The value left in an object after it has been moved from. -/
  moved : α → α
  /-- The contents of cell `i` of a default-initialised array `new Type[n]`
  (`Type()` for class types, indeterminate for scalars). -/
  indet : Nat → α

/-- A raw pointer `Type*`: the block it points into (`none` for `nullptr`)
and the offset inside the block. -/
structure Ptr where
  block : Option Nat
  off : Nat
deriving DecidableEq

/-- The null pointer. -/
def Ptr.null : Ptr := ⟨none, 0⟩

/-- Pointer arithmetic `p + n`. -/
def Ptr.add (p : Ptr) (n : Nat) : Ptr := ⟨p.block, p.off + n⟩

/-- Pointer difference `last - first` (also `std::distance(first, last)`):
defined for two pointers into the same block with `first` not after `last`. -/
def Ptr.distance (first last : Ptr) : Option Nat :=
  if first.block = last.block ∧ first.off ≤ last.off then some (last.off - first.off) else none

/-- The free store: the live array blocks, and the address the next `new[]` returns. -/
structure Heap (α : Type) where
  blocks : Nat → Option (List α)
  next : Nat

/-- The heap with no block. -/
def Heap.empty {α : Type} : Heap α := ⟨fun _ => none, 0⟩

/-- Replace the cells of block `b`. -/
def Heap.setBlock {α : Type} (h : Heap α) (b : Nat) (cells : Option (List α)) : Heap α :=
  ⟨Function.update h.blocks b cells, h.next⟩

/-- Read through a pointer: `*p` as an rvalue. -/
def Heap.load {α : Type} (h : Heap α) (p : Ptr) : Option α :=
  match p.block with
  | none => none
  | some b =>
    match h.blocks b with
    | none => none
    | some cells => cells[p.off]?

/-- Write through a pointer: `*p = x`. -/
def Heap.store {α : Type} (h : Heap α) (p : Ptr) (x : α) : Option (Heap α) :=
  match p.block with
  | none => none
  | some b =>
    match h.blocks b with
    | none => none
    | some cells =>
      if p.off < cells.length then some (h.setBlock b (some (cells.set p.off x))) else none

/-- Allocation `new Type[n]` with the given initial cells (`n` is their number);
a zero-length array still gets a block of its own and a non-null address. -/
def Heap.new_array {α : Type} (h : Heap α) (cells : List α) : Heap α × Ptr :=
  (⟨Function.update h.blocks h.next (some cells), h.next + 1⟩, ⟨some h.next, 0⟩)

/-- Deallocation `delete[] p`: nothing for `nullptr`, otherwise `p` must be the
address of a live block. -/
def Heap.delete_array {α : Type} (h : Heap α) (p : Ptr) : Option (Heap α) :=
  match p.block with
  | none => some h
  | some b =>
    match h.blocks b with
    | none => none
    | some _ => if p.off = 0 then some (h.setBlock b none) else none

/-- Cells of `new Type[n]` (default-initialisation). -/
def default_init (α : Type) [ElemType α] (n : Nat) : List α :=
  (List.range n).map ElemType.indet

/-- Cells of `new Type[n]{}` (value-initialisation). -/
def value_init (α : Type) [ElemType α] (n : Nat) : List α :=
  List.replicate n ElemType.dflt

/-! ### `array_ptr.h` -/

/-- The class `ArrayPtr<Type>`: its only member is `raw_ptr_`. -/
structure ArrayPtr where
  raw_ptr_ : Ptr
deriving DecidableEq

namespace ArrayPtr

/-- `ArrayPtr() = default`. -/
def ctor_default : ArrayPtr := ⟨Ptr.null⟩

/-- `explicit ArrayPtr(size_t size)`. -/
def ctor_size {α : Type} [ElemType α] (h : Heap α) (size : Nat) : Heap α × ArrayPtr :=
  if size ≠ 0 then
    ((h.new_array (default_init α size)).1, ⟨(h.new_array (default_init α size)).2⟩)
  else
    (h, ⟨Ptr.null⟩)

/-- `explicit ArrayPtr(Type* raw_ptr)`. -/
def ctor_raw (raw_ptr : Ptr) : ArrayPtr := ⟨raw_ptr⟩

/-- `~ArrayPtr()`: `delete[] raw_ptr_`. -/
def dtor {α : Type} (h : Heap α) (a : ArrayPtr) : Option (Heap α) :=
  h.delete_array a.raw_ptr_

/-- `Type* Get() const`. -/
def Get (a : ArrayPtr) : Ptr := a.raw_ptr_

/-- `operator[]`: the reference `*(raw_ptr_ + index)`. -/
def index (a : ArrayPtr) (i : Nat) : Ptr := a.raw_ptr_.add i

/-- `void swap(ArrayPtr& other)`: returns the new `*this` and the new `other`. -/
def swap (a other : ArrayPtr) : ArrayPtr × ArrayPtr :=
  (⟨other.Get⟩, ⟨a.raw_ptr_⟩)

end ArrayPtr

/-! ### The `<algorithm>` calls on raw pointers -/

/-- One element assignment `*d = *s` (`mv = false`) or `*d = std::move(*s)`
(`mv = true`, which leaves the moved-from value in `*s`). -/
def assign_elem {α : Type} [ElemType α] (mv : Bool) (h : Heap α) (d s : Ptr) : Option (Heap α) :=
  match h.load s with
  | none => none
  | some x =>
    match h.store d x with
    | none => none
    | some h1 => if mv then h1.store s (ElemType.moved x) else some h1

/-- The object a reference parameter (`const Type&`, `Type&&`) is bound to:
an object outside the free store (a local variable, a temporary), given by
the value it holds, or a cell of a block of the free store, such as an
element of a vector. -/
inductive Ref (α : Type) where
  | obj : α → Ref α
  | cell : Ptr → Ref α

/-- The assignment `*d = value` (`mv = false`) or `*d = std::move(value)`
(`mv = true`) from a reference parameter: the object referred to is read when
the assignment executes.  The state of an object outside the free store is
not part of the heap, so what a move leaves in it is not recorded. -/
def assign_from {α : Type} [ElemType α] (mv : Bool) (h : Heap α) (d : Ptr) :
    Ref α → Option (Heap α)
  | Ref.obj x => h.store d x
  | Ref.cell s => assign_elem mv h d s

/-- The loop of `std::copy` / `std::move`: `n` times `*d_first++ = *first++`. -/
def copy_loop {α : Type} [ElemType α] (mv : Bool) : Nat → Heap α → Ptr → Ptr → Option (Heap α)
  | 0, h, _, _ => some h
  | n + 1, h, first, d_first =>
    match assign_elem mv h d_first first with
    | none => none
    | some h1 => copy_loop mv n h1 (first.add 1) (d_first.add 1)

/-- The loop of `std::copy_backward` / `std::move_backward`:
`n` times `*(--d_last) = *(--last)`. -/
def copy_backward_loop {α : Type} [ElemType α] (mv : Bool) :
    Nat → Heap α → Ptr → Ptr → Option (Heap α)
  | 0, h, _, _ => some h
  | n + 1, h, last, d_last =>
    if last.off = 0 ∨ d_last.off = 0 then none
    else
      match assign_elem mv h ⟨d_last.block, d_last.off - 1⟩ ⟨last.block, last.off - 1⟩ with
      | none => none
      | some h1 =>
        copy_backward_loop mv n h1 ⟨last.block, last.off - 1⟩ ⟨d_last.block, d_last.off - 1⟩

/-- `std::copy(first, last, d_first)`; with `mv` the iterators are
`std::move_iterator`s or the call is `std::move(first, last, d_first)`. -/
def std_copy {α : Type} [ElemType α] (mv : Bool) (h : Heap α) (first last d_first : Ptr) :
    Option (Heap α) :=
  match first.distance last with
  | none => none
  | some n => copy_loop mv n h first d_first

/-- `std::copy_backward(first, last, d_last)`; with `mv` it is `std::move_backward`. -/
def std_copy_backward {α : Type} [ElemType α] (mv : Bool) (h : Heap α) (first last d_last : Ptr) :
    Option (Heap α) :=
  match first.distance last with
  | none => none
  | some n => copy_backward_loop mv n h last d_last

/-- The loop `while (first < last) { *first = value; first++; }`, which is also
the loop of `std::fill`, run `n` times. -/
def fill_loop {α : Type} : Nat → Heap α → Ptr → α → Option (Heap α)
  | 0, h, _, _ => some h
  | n + 1, h, first, value =>
    match h.store first value with
    | none => none
    | some h1 => fill_loop n h1 (first.add 1) value

/-- `std::fill(first, last, value)`. -/
def std_fill {α : Type} (h : Heap α) (first last : Ptr) (value : α) : Option (Heap α) :=
  match first.distance last with
  | none => none
  | some n => fill_loop n h first value

/-- The loop of `std::equal(first1, last1, first2)` over `n` elements. -/
def equal_loop {α : Type} [DecidableEq α] : Nat → Heap α → Ptr → Ptr → Option Bool
  | 0, _, _, _ => some true
  | n + 1, h, first1, first2 =>
    match h.load first1, h.load first2 with
    | some x, some y => if x = y then equal_loop n h (first1.add 1) (first2.add 1) else some false
    | _, _ => none

/-- `std::equal(first1, last1, first2)`. -/
def std_equal {α : Type} [DecidableEq α] (h : Heap α) (first1 last1 first2 : Ptr) : Option Bool :=
  match first1.distance last1 with
  | none => none
  | some n => equal_loop n h first1 first2

/-! ### `simple_vector.h` -/

/-- The class `SimpleVector<Type>`: its members `array_`, `size_`, `capacity_`. -/
structure SimpleVector where
  array_ : ArrayPtr
  size_ : Nat
  capacity_ : Nat
deriving DecidableEq

/-- Result of a call that may throw `std::out_of_range`. -/
inductive Outcome (β : Type) where
  | ok : β → Outcome β
  | out_of_range : Outcome β
deriving DecidableEq

namespace SimpleVector

/-- `SimpleVector() noexcept = default`: the default member initialisers. -/
def ctor_default : SimpleVector := ⟨ArrayPtr.ctor_default, 0, 0⟩

/-- `size_t GetSize() const`. -/
def GetSize (v : SimpleVector) : Nat := v.size_

/-- `size_t GetCapacity() const`. -/
def GetCapacity (v : SimpleVector) : Nat := v.capacity_

/-- `bool IsEmpty() const`. -/
def IsEmpty (v : SimpleVector) : Bool := 0 == v.size_

/-- `Iterator begin()`. -/
def begin_ (v : SimpleVector) : Ptr := v.array_.Get

/-- `Iterator end()`. -/
def end_ (v : SimpleVector) : Ptr := v.array_.Get.add v.size_

/-- `SimpleVector(size_t size, const Type& value)`. -/
def ctor_fill {α : Type} [ElemType α] (h : Heap α) (size : Nat) (value : α) :
    Option (Heap α × SimpleVector) :=
  let this_ : SimpleVector := ⟨(ArrayPtr.ctor_size h size).2, size, size⟩
  match std_fill (ArrayPtr.ctor_size h size).1 this_.begin_ this_.end_ value with
  | none => none
  | some h1 => some (h1, this_)

/-- `SimpleVector(size_t size, Type&& value)`. -/
def ctor_fill_rvalue {α : Type} [ElemType α] (h : Heap α) (size : Nat) (value : α) :
    Option (Heap α × SimpleVector) :=
  let array_ := ArrayPtr.ctor_raw (h.new_array (value_init α size)).2
  match (h.new_array (value_init α size)).1.store (array_.index 0) value with
  | none => none
  | some h1 => some (h1, ⟨array_, size, size⟩)

/-- `explicit SimpleVector(size_t size)`: delegates to `SimpleVector(size, Type())`;
the argument is a prvalue, so the `Type&&` overload is selected. -/
def ctor_size {α : Type} [ElemType α] (h : Heap α) (size : Nat) :
    Option (Heap α × SimpleVector) :=
  ctor_fill_rvalue h size (ElemType.dflt : α)

/-- `Type& At(size_t index)`: the state is passed through, the result is the
reference `array_[index]` or the exception. -/
def At {α : Type} (h : Heap α) (v : SimpleVector) (index : Nat) :
    (Heap α × SimpleVector) × Outcome Ptr :=
  if index ≥ v.size_ then ((h, v), Outcome.out_of_range)
  else ((h, v), Outcome.ok (v.array_.index index))

/-- `void Clear() noexcept`. -/
def Clear (v : SimpleVector) : SimpleVector := { v with size_ := 0 }

/-- `void swap(SimpleVector& other) noexcept`: the new `*this` and the new `other`. -/
def swap (v other : SimpleVector) : SimpleVector × SimpleVector :=
  (⟨(other.array_.swap v.array_).2, other.size_, other.capacity_⟩,
   ⟨(other.array_.swap v.array_).1, v.size_, v.capacity_⟩)

/-- `void Reserve(size_t new_capacity)`; `tmp_array` is destroyed at the end of the block. -/
def Reserve {α : Type} [ElemType α] (h : Heap α) (v : SimpleVector) (new_capacity : Nat) :
    Option (Heap α × SimpleVector) :=
  if new_capacity > v.capacity_ then
    let tmp_array := (ArrayPtr.ctor_size h new_capacity).2
    match std_copy true (ArrayPtr.ctor_size h new_capacity).1 v.array_.Get
        (v.array_.Get.add v.size_) tmp_array.Get with
    | none => none
    | some h1 =>
      match ArrayPtr.dtor h1 (v.array_.swap tmp_array).2 with
      | none => none
      | some h2 => some (h2, ⟨(v.array_.swap tmp_array).1, v.size_, new_capacity⟩)
  else some (h, v)

/-- `void Resize(size_t new_size)`. -/
def Resize {α : Type} [ElemType α] (h : Heap α) (v : SimpleVector) (new_size : Nat) :
    Option (Heap α × SimpleVector) :=
  if v.size_ < new_size then
    if new_size ≤ v.capacity_ then
      let first := v.array_.Get.add v.size_
      let last := v.array_.Get.add new_size
      if first.off < last.off then
        match fill_loop (last.off - first.off) h first (ElemType.dflt : α) with
        | none => none
        | some h1 => some (h1, { v with size_ := new_size })
      else none
    else
      let new_capacity := max new_size (v.capacity_ * 2)
      let tmp_array := (ArrayPtr.ctor_size h new_capacity).2
      match std_copy true (ArrayPtr.ctor_size h new_capacity).1 v.begin_ v.end_ tmp_array.Get with
      | none => none
      | some h1 =>
        match (tmp_array.Get.add v.size_).distance (tmp_array.Get.add new_size) with
        | none => none
        | some n =>
          match fill_loop n h1 (tmp_array.Get.add v.size_) (ElemType.dflt : α) with
          | none => none
          | some h2 =>
            match ArrayPtr.dtor h2 (v.array_.swap tmp_array).2 with
            | none => none
            | some h3 => some (h3, ⟨(v.array_.swap tmp_array).1, new_size, new_capacity⟩)
  else some (h, { v with size_ := new_size })

/-- The two overloads of `PushBack` differ only in how elements are
transferred: `mv = false` is `PushBack(const Type&)` (`std::copy`),
`mv = true` is `PushBack(Type&&)` (`std::move` over move iterators).
`item` is the value the argument holds at the call: `PushBack(const Type&)`
assigns from it before any cell it could refer to is written (the copy leaves
its source as it is); for `PushBack(Type&&)` the argument is taken to be an
object of its own, not an element of the vector being moved from. -/
def PushBack_impl {α : Type} [ElemType α] (mv : Bool) (h : Heap α) (v : SimpleVector) (item : α) :
    Option (Heap α × SimpleVector) :=
  if v.size_ = v.capacity_ then
    let new_capacity := max 1 (v.capacity_ * 2)
    let tmp_array := (ArrayPtr.ctor_size h new_capacity).2
    match std_copy mv (ArrayPtr.ctor_size h new_capacity).1 v.begin_ v.end_ tmp_array.Get with
    | none => none
    | some h1 =>
      match h1.store (tmp_array.index v.size_) item with
      | none => none
      | some h2 =>
        match ArrayPtr.dtor h2 (v.array_.swap tmp_array).2 with
        | none => none
        | some h3 => some (h3, ⟨(v.array_.swap tmp_array).1, v.size_ + 1, new_capacity⟩)
  else
    match h.store (v.array_.index v.size_) item with
    | none => none
    | some h1 => some (h1, { v with size_ := v.size_ + 1 })

/-- `void PushBack(const Type& item)`. -/
def PushBack {α : Type} [ElemType α] (h : Heap α) (v : SimpleVector) (item : α) :
    Option (Heap α × SimpleVector) :=
  PushBack_impl false h v item

/-- `void PushBack(Type&& item)`. -/
def PushBack_rvalue {α : Type} [ElemType α] (h : Heap α) (v : SimpleVector) (item : α) :
    Option (Heap α × SimpleVector) :=
  PushBack_impl true h v item

/-- `void PopBack() noexcept`: `assert(size_ != 0); --size_;`. -/
def PopBack (v : SimpleVector) : Option SimpleVector :=
  if v.size_ ≠ 0 then some { v with size_ := v.size_ - 1 } else none

/-- `Iterator Insert(ConstIterator pos, const Type& value)`: the new heap, the
new vector and the returned iterator `&array_[pos_size_t]`.  `value` is a
reference: it is read where the code assigns from it, after the elements
have been copied or shifted.  In the two reallocating branches `buff` is
destroyed at the end of its block. -/
def Insert {α : Type} [ElemType α] (h : Heap α) (v : SimpleVector) (pos : Ptr) (value : Ref α) :
    Option (Heap α × SimpleVector × Ptr) :=
  match v.begin_.distance pos, v.begin_.distance v.end_ with
  | some pos_size_t, some pos_size_t_end =>
    if pos_size_t ≤ v.size_ then
      if v.size_ = v.capacity_ then
        if v.size_ = 0 then
          let capacity_ := pos_size_t + 1
          let buff := (ArrayPtr.ctor_size h capacity_).2
          match std_fill (ArrayPtr.ctor_size h capacity_).1 buff.Get (buff.Get.add capacity_)
              (ElemType.dflt : α) with
          | none => none
          | some h1 =>
            match assign_from false h1 (buff.index pos_size_t) value with
            | none => none
            | some h2 =>
              match ArrayPtr.dtor h2 (v.array_.swap buff).2 with
              | none => none
              | some h3 =>
                some (h3, ⟨(v.array_.swap buff).1, v.size_ + 1, capacity_⟩,
                  (v.array_.swap buff).1.index pos_size_t)
        else
          let capacity_ := max pos_size_t (v.capacity_ * 2)
          let buff := (ArrayPtr.ctor_size h capacity_).2
          match std_copy false (ArrayPtr.ctor_size h capacity_).1 v.begin_ pos buff.Get with
          | none => none
          | some h1 =>
            match assign_from false h1 (buff.index pos_size_t) value with
            | none => none
            | some h2 =>
              match std_copy_backward false h2 pos v.end_
                  ((buff.Get.add pos_size_t_end).add 1) with
              | none => none
              | some h3 =>
                match ArrayPtr.dtor h3 (v.array_.swap buff).2 with
                | none => none
                | some h4 =>
                  some (h4, ⟨(v.array_.swap buff).1, v.size_ + 1, capacity_⟩,
                    (v.array_.swap buff).1.index pos_size_t)
      else
        match std_copy_backward false h pos v.end_ (v.end_.add 1) with
        | none => none
        | some h1 =>
          match assign_from false h1 (v.array_.index pos_size_t) value with
          | none => none
          | some h2 => some (h2, { v with size_ := v.size_ + 1 }, v.array_.index pos_size_t)
    else none
  | _, _ => none

/-- `Iterator Insert(ConstIterator pos, Type&& value)`: as the other overload,
with the elements and `value` moved from instead of copied. -/
def Insert_rvalue {α : Type} [ElemType α] (h : Heap α) (v : SimpleVector) (pos : Ptr)
    (value : Ref α) : Option (Heap α × SimpleVector × Ptr) :=
  match v.begin_.distance pos, v.begin_.distance v.end_ with
  | some pos_size_t, some pos_size_t_end =>
    if pos_size_t ≤ v.size_ then
      if v.size_ = v.capacity_ then
        if v.size_ = 0 then
          let capacity_ := pos_size_t + 1
          let buff := (ArrayPtr.ctor_size h capacity_).2
          let first := buff.Get.add v.size_
          let last := buff.Get.add capacity_
          if first.off < last.off then
            match fill_loop (last.off - first.off) (ArrayPtr.ctor_size h capacity_).1 first
                (ElemType.dflt : α) with
            | none => none
            | some h1 =>
              match assign_from true h1 (buff.index pos_size_t) value with
              | none => none
              | some h2 =>
                match ArrayPtr.dtor h2 (v.array_.swap buff).2 with
                | none => none
                | some h3 =>
                  some (h3, ⟨(v.array_.swap buff).1, v.size_ + 1, capacity_⟩,
                    (v.array_.swap buff).1.index pos_size_t)
          else none
        else
          let capacity_ := max pos_size_t (v.capacity_ * 2)
          let buff := (ArrayPtr.ctor_size h capacity_).2
          match std_copy true (ArrayPtr.ctor_size h capacity_).1 v.begin_ pos buff.Get with
          | none => none
          | some h1 =>
            match assign_from true h1 (buff.index pos_size_t) value with
            | none => none
            | some h2 =>
              match std_copy_backward true h2 pos v.end_
                  ((buff.Get.add pos_size_t_end).add 1) with
              | none => none
              | some h3 =>
                match ArrayPtr.dtor h3 (v.array_.swap buff).2 with
                | none => none
                | some h4 =>
                  some (h4, ⟨(v.array_.swap buff).1, v.size_ + 1, capacity_⟩,
                    (v.array_.swap buff).1.index pos_size_t)
      else
        match std_copy_backward true h pos v.end_ (v.end_.add 1) with
        | none => none
        | some h1 =>
          match assign_from true h1 (v.array_.index pos_size_t) value with
          | none => none
          | some h2 => some (h2, { v with size_ := v.size_ + 1 }, v.array_.index pos_size_t)
    else none
  | _, _ => none

/-- The loop of `Erase`:
`for (; (pos_size_t + 1) != end; ++pos_size_t) array_[pos_size_t] = std::move(array_[pos_size_t + 1]);`
with a bound `fuel` on the number of iterations; `none` when the bound is
reached or an access is out of bounds. -/
def Erase_loop {α : Type} [ElemType α] (array_ : ArrayPtr) (end_ : Nat) :
    Nat → Heap α → Nat → Option (Heap α)
  | fuel, h, pos_size_t =>
    if pos_size_t + 1 ≠ end_ then
      match fuel with
      | 0 => none
      | fuel + 1 =>
        match assign_elem true h (array_.index pos_size_t) (array_.index (pos_size_t + 1)) with
        | none => none
        | some h1 => Erase_loop array_ end_ fuel h1 (pos_size_t + 1)
    else some h

/-- `Iterator Erase(ConstIterator pos)`: the new heap, the new vector and the
returned iterator.  The loop is given `size_` iterations; `--size_` on an
empty vector is a fault. -/
def Erase {α : Type} [ElemType α] (h : Heap α) (v : SimpleVector) (pos : Ptr) :
    Option (Heap α × SimpleVector × Ptr) :=
  match v.begin_.distance pos, v.begin_.distance v.end_ with
  | some pos_size_t, some end_ =>
    if pos_size_t ≤ v.size_ then
      match Erase_loop v.array_ end_ v.size_ h pos_size_t with
      | none => none
      | some h1 =>
        if v.size_ ≠ 0 then
          some (h1, { v with size_ := v.size_ - 1 }, v.array_.index pos_size_t)
        else none
    else none
  | _, _ => none

/-- `SimpleVector(const SimpleVector& other)`; the local `tmp` is destroyed at the end. -/
def ctor_copy {α : Type} [ElemType α] (h : Heap α) (other : SimpleVector) :
    Option (Heap α × SimpleVector) :=
  match ctor_size h other.GetSize with
  | none => none
  | some (h1, tmp) =>
    match std_copy false h1 other.begin_ other.end_ tmp.begin_ with
    | none => none
    | some h2 =>
      match ArrayPtr.dtor h2 (ctor_default.swap tmp).2.array_ with
      | none => none
      | some h3 => some (h3, (ctor_default.swap tmp).1)

/-- The loop `while (other.GetSize() != 0) other.PopBack();` with a bound
`fuel` on the number of iterations. -/
def drain_loop : Nat → SimpleVector → Option SimpleVector
  | fuel, other =>
    if other.GetSize ≠ 0 then
      match fuel with
      | 0 => none
      | fuel + 1 =>
        match other.PopBack with
        | none => none
        | some other1 => drain_loop fuel other1
    else some other

/-- `SimpleVector(SimpleVector&& other)`: the new heap, the constructed vector
and the state of `other`.  The drain loop is given `other.GetSize()` iterations. -/
def ctor_move {α : Type} [ElemType α] (h : Heap α) (other : SimpleVector) :
    Option (Heap α × SimpleVector × SimpleVector) :=
  match Reserve h ctor_default other.GetSize with
  | none => none
  | some (h1, this1) =>
    let this2 : SimpleVector := { this1 with size_ := other.GetSize }
    match std_copy_backward true h1 other.begin_ other.end_ this2.end_ with
    | none => none
    | some h2 =>
      match drain_loop other.GetSize other with
      | none => none
      | some other1 => some (h2, this2, other1)

/-- `SimpleVector& operator=(const SimpleVector& rhs)`: the new heap, the new
`*this`, and `rhs` as the call leaves it (it is taken by const reference, so
its members are not written).  `this_is_rhs` is the outcome of the address
test `this == &rhs`; the local `rhs_copy` is destroyed at the end of the block.
The class declares no other assignment operator, so `b = std::move(a)` is this
function with `rhs` bound to `a`. -/
def operator_assign {α : Type} [ElemType α] (h : Heap α) (this_ rhs : SimpleVector)
    (this_is_rhs : Bool) : Option (Heap α × SimpleVector × SimpleVector) :=
  if this_is_rhs = false then
    match ctor_copy h rhs with
    | none => none
    | some (h1, rhs_copy) =>
      match ArrayPtr.dtor h1 (this_.swap rhs_copy).2.array_ with
      | none => none
      | some h2 => some (h2, (this_.swap rhs_copy).1, rhs)
  else some (h, this_, rhs)

/-- `bool operator==(const SimpleVector& lhs, const SimpleVector& rhs)`. -/
def operator_eq {α : Type} [DecidableEq α] (h : Heap α) (lhs rhs : SimpleVector) : Option Bool :=
  if lhs.GetSize = rhs.GetSize then std_equal h lhs.begin_ lhs.end_ rhs.begin_
  else some false

/-- `bool operator!=(const SimpleVector& lhs, const SimpleVector& rhs)`. -/
def operator_ne {α : Type} [DecidableEq α] (h : Heap α) (lhs rhs : SimpleVector) : Option Bool :=
  (operator_eq h lhs rhs).map not

end SimpleVector

/-! ### Abstraction -/

/-- The cells of the block `array_` points to (none if it is null or dangling). -/
def SimpleVector.cells {α : Type} (h : Heap α) (v : SimpleVector) : Option (List α) :=
  match v.array_.raw_ptr_.block with
  | none => none
  | some b => h.blocks b

/-- The logical sequence: the elements at indices `[0, size_)`. -/
def SimpleVector.toList {α : Type} (h : Heap α) (v : SimpleVector) : List α :=
  match v.cells h with
  | none => []
  | some cells => cells.take v.size_

/-- The representation invariant: `size_ <= capacity_`, and `array_` is either
null with capacity 0 or the address of a live block of exactly `capacity_` cells. -/
def Valid {α : Type} (h : Heap α) (v : SimpleVector) : Prop :=
  v.size_ ≤ v.capacity_ ∧ v.array_.raw_ptr_.off = 0 ∧
    match v.array_.raw_ptr_.block with
    | none => v.capacity_ = 0
    | some b => b < h.next ∧ (h.blocks b).map List.length = some v.capacity_

instance {α : Type} (h : Heap α) (v : SimpleVector) : Decidable (Valid h v) := by
  unfold Valid
  cases v.array_.raw_ptr_.block <;> exact inferInstance

/-- Two vectors own different blocks. -/
def Disjoint (a b : SimpleVector) : Prop :=
  a.array_.raw_ptr_.block = none ∨ a.array_.raw_ptr_.block ≠ b.array_.raw_ptr_.block

/-- The element type `int`: `int()` is 0, moving an `int` copies it, and a
default-initialised cell holds an arbitrary value (here `100 + i`). -/
instance : ElemType Int := ⟨0, id, fun i => 100 + i⟩

end SV
namespace SV

/-- The source block of a transfer after cell `i` was read: with `mv` the cell
holds the moved-from value. -/
def leave {α : Type} [ElemType α] (mv : Bool) (A : List α) (i : Nat) : List α :=
  if mv then
    match A[i]? with
    | some x => A.set i (ElemType.moved x)
    | none => A
  else A

/-- The source block after the cells `i, i+1, .., i+n-1` were read in turn. -/
def leave_fwd {α : Type} [ElemType α] (mv : Bool) : Nat → List α → Nat → List α
  | 0, A, _ => A
  | n + 1, A, i => leave_fwd mv n (leave mv A i) (i + 1)

/-- The source block after the cells `i-1, i-2, .., i-n` were read in turn. -/
def leave_bwd {α : Type} [ElemType α] (mv : Bool) : Nat → List α → Nat → List α
  | 0, A, _ => A
  | n + 1, A, i => leave_bwd mv n (leave mv A (i - 1)) (i - 1)

end SV
namespace SV

/-- The block `B` with the cells from `j` on overwritten by `xs`. -/
def splice {α : Type} (B : List α) (j : Nat) (xs : List α) : List α :=
  B.take j ++ xs ++ B.drop (j + xs.length)

end SV
namespace SV

/-- The heap `h1` extends `h` and differs from it on old blocks only at the
block of `v`. -/
def Frame {α : Type} (h h1 : Heap α) (v : SimpleVector) : Prop :=
  h.next ≤ h1.next ∧
    ∀ c, c < h.next → v.array_.raw_ptr_.block ≠ some c → h1.blocks c = h.blocks c

/-- The block of `v1` is the block of `v` or one allocated after `h`. -/
def Rehomed {α : Type} (h : Heap α) (v v1 : SimpleVector) : Prop :=
  v1.array_.raw_ptr_.block = v.array_.raw_ptr_.block ∨
    ∃ c, h.next ≤ c ∧ v1.array_.raw_ptr_.block = some c

end SV
namespace SV

/-- The heap after one more address has been handed out. -/
def Heap.bump {α : Type} (h : Heap α) : Heap α := ⟨h.blocks, h.next + 1⟩

end SV
namespace SV

/-- A finite sequence of `PushBack` calls; each call names its overload
(`true` for `PushBack(Type&&)`) and its argument. -/
def push_all {α : Type} [ElemType α] (h : Heap α) (v : SimpleVector) :
    List (Bool × α) → Option (Heap α × SimpleVector)
  | [] => some (h, v)
  | (rvalue, item) :: calls =>
    match (if rvalue then SimpleVector.PushBack_rvalue h v item
           else SimpleVector.PushBack h v item) with
    | none => none
    | some (h1, v1) => push_all h1 v1 calls

/-- A heap with one block, at address 0. -/
def heap_one (cells : List Int) : Heap Int :=
  ⟨fun b => if b = 0 then some cells else none, 1⟩

/-- A vector owning block 0. -/
def vec_zero (size capacity : Nat) : SimpleVector := ⟨⟨⟨some 0, 0⟩⟩, size, capacity⟩

end SV
namespace SV

/-- The block after the non-reallocating branch of `Insert`. -/
def room_block {α : Type} (A : List α) (p n : Nat) (value : α) : List α :=
  A.take p ++ value :: ((A.drop p).take n ++ A.drop (p + n + 1))

end SV
namespace SV

/-- The growth rule in the words of the specification: from capacity `c`, with
`required` cells needed, the new capacity is `max(required, 2 * c)`, except
that the first growth from capacity 0 gives `max(1, required)`. -/
def spec_growth (c required : Nat) : Nat :=
  if c > 0 then max required (2 * c) else max 1 required

end SV
namespace SV

/-- The empty heap, for elements of type `int`. -/
def heap_empty : Heap Int := Heap.empty

end SV
namespace SV

/-- The class `ReserveProxyObj`: its member `capacity_`. -/
structure ReserveProxyObj where
  capacity_ : Nat

/-- The free function `ReserveProxyObj Reserve(size_t capacity_to_reserve)`
(named apart from the member function `SimpleVector::Reserve`). -/
def Reserve_proxy (capacity_to_reserve : Nat) : ReserveProxyObj := ⟨capacity_to_reserve⟩

/-- `SimpleVector(ReserveProxyObj objc)`: `Reserve(objc.capacity_)` on the
default member initialisers. -/
def SimpleVector.ctor_reserve {α : Type} [ElemType α] (h : Heap α) (objc : ReserveProxyObj) :
    Option (Heap α × SimpleVector) :=
  SimpleVector.Reserve h SimpleVector.ctor_default objc.capacity_

end SV
namespace SV

/-- `Type& operator[](size_t index)`: `assert(index < size_); return array_[index];`. -/
def SimpleVector.operator_index (v : SimpleVector) (index : Nat) : Option Ptr :=
  if index < v.size_ then some (v.array_.index index) else none

/-- The value read through `v[index]`. -/
def SimpleVector.elem {α : Type} (h : Heap α) (v : SimpleVector) (index : Nat) : Option α :=
  match v.operator_index index with
  | none => none
  | some p => h.load p

/-- The loop of `std::lexicographical_compare` with `n1` and `n2` elements left
in the two ranges:
`for (; first1 != last1 && first2 != last2; ++first1, ++first2)`
`{ if (*first1 < *first2) return true; if (*first2 < *first1) return false; }`
`return first1 == last1 && first2 != last2;`. -/
def lexicographical_compare_loop {α : Type} [LT α] [∀ x y : α, Decidable (x < y)] :
    Nat → Nat → Heap α → Ptr → Ptr → Option Bool
  | 0, 0, _, _, _ => some false
  | 0, _ + 1, _, _, _ => some true
  | _ + 1, 0, _, _, _ => some false
  | n1 + 1, n2 + 1, h, first1, first2 =>
    match h.load first1, h.load first2 with
    | some x, some y =>
      if x < y then some true
      else if y < x then some false
      else lexicographical_compare_loop n1 n2 h (first1.add 1) (first2.add 1)
    | _, _ => none

/-- `std::lexicographical_compare(first1, last1, first2, last2)`. -/
def std_lexicographical_compare {α : Type} [LT α] [∀ x y : α, Decidable (x < y)] (h : Heap α)
    (first1 last1 first2 last2 : Ptr) : Option Bool :=
  match first1.distance last1, first2.distance last2 with
  | some n1, some n2 => lexicographical_compare_loop n1 n2 h first1 first2
  | _, _ => none

/-- `bool operator<(const SimpleVector& lhs, const SimpleVector& rhs)`. -/
def SimpleVector.operator_lt {α : Type} [LT α] [∀ x y : α, Decidable (x < y)] (h : Heap α)
    (lhs rhs : SimpleVector) : Option Bool :=
  std_lexicographical_compare h lhs.begin_ lhs.end_ rhs.begin_ rhs.end_

/-- `bool operator<=(const SimpleVector& lhs, const SimpleVector& rhs)`. -/
def SimpleVector.operator_le {α : Type} [LT α] [∀ x y : α, Decidable (x < y)] (h : Heap α)
    (lhs rhs : SimpleVector) : Option Bool :=
  (std_lexicographical_compare h rhs.begin_ rhs.end_ lhs.begin_ lhs.end_).map not

/-- `bool operator>(const SimpleVector& lhs, const SimpleVector& rhs)`. -/
def SimpleVector.operator_gt {α : Type} [LT α] [∀ x y : α, Decidable (x < y)] (h : Heap α)
    (lhs rhs : SimpleVector) : Option Bool :=
  std_lexicographical_compare h rhs.begin_ rhs.end_ lhs.begin_ lhs.end_

/-- `bool operator>=(const SimpleVector& lhs, const SimpleVector& rhs)`. -/
def SimpleVector.operator_ge {α : Type} [LT α] [∀ x y : α, Decidable (x < y)] (h : Heap α)
    (lhs rhs : SimpleVector) : Option Bool :=
  (std_lexicographical_compare h lhs.begin_ lhs.end_ rhs.begin_ rhs.end_).map not

/-- Lexicographic comparison of two sequences in the words of the
specification: the first position where the sequences differ decides, and a
sequence that is a proper beginning of the other compares less. -/
def lex_less {α : Type} [LT α] [∀ x y : α, Decidable (x < y)] : List α → List α → Bool
  | [], [] => false
  | [], _ :: _ => true
  | _ :: _, [] => false
  | x :: xs, y :: ys => if x < y then true else if y < x then false else lex_less xs ys

/-- A heap with two blocks, at the addresses 0 and 1. -/
def heap_two (cells0 cells1 : List Int) : Heap Int :=
  ⟨fun b => if b = 0 then some cells0 else if b = 1 then some cells1 else none, 2⟩

/-- A vector owning block 1. -/
def vec_one (size capacity : Nat) : SimpleVector := ⟨⟨⟨some 1, 0⟩⟩, size, capacity⟩

end SV
namespace SV

/-! ### `array_ptr.h`: transfer of ownership -/

namespace ArrayPtr

/-- `ArrayPtr(ArrayPtr&& other)`: `raw_ptr_ = move(other.Get());`.  The result
is the constructed object and `other` as the call leaves it: `Get()` returns
the pointer by value and moving a pointer copies it, so `other.raw_ptr_` is
not written. -/
def ctor_move (other : ArrayPtr) : ArrayPtr × ArrayPtr :=
  (⟨other.Get⟩, other)

/-- The only statement of `ArrayPtr& operator=(ArrayPtr&& other)`:
`raw_ptr_ = move(other.Get());`.  The result is `*this` and `other` after it;
the block `*this` held before is neither deleted nor handed over.  (The
function then reaches its end without a `return`.) -/
def operator_assign_move (_a other : ArrayPtr) : ArrayPtr × ArrayPtr :=
  (⟨other.Get⟩, other)

/-- `Type* Release() noexcept`: the returned pointer and the object afterwards. -/
def Release (a : ArrayPtr) : Ptr × ArrayPtr :=
  (a.raw_ptr_, ⟨Ptr.null⟩)

/-- `explicit operator bool() const`: `raw_ptr_ == nullptr ? false : true`. -/
def operator_bool (a : ArrayPtr) : Bool :=
  if a.raw_ptr_.block = none then false else true

end ArrayPtr

/-! ### Allocation as a step that may fail -/

/-- How a call ends when `new Type[n]` may throw: it returns a result, or
`std::bad_alloc` leaves the function with the state reached so far, or the
behaviour is undefined. -/
inductive Ending (σ β : Type) where
  | returned : β → Ending σ β
  | bad_alloc : σ → Ending σ β
  | fault : Ending σ β

/-- The ending of a call that ran to its end without a failed allocation. -/
def Ending.of_run {σ β : Type} : Option β → Ending σ β
  | some r => Ending.returned r
  | none => Ending.fault

namespace SimpleVector

/-- `PushBack` (`mv = false` for `const Type&`, `true` for `Type&&`) when the
allocation `ArrayPtr<Type> tmp_array{new_capacity}` succeeds (`alloc_ok`) or
throws: before it only the local `new_capacity` is computed. -/
def PushBack_alloc {α : Type} [ElemType α] (alloc_ok mv : Bool) (h : Heap α) (v : SimpleVector)
    (item : α) : Ending (Heap α × SimpleVector) (Heap α × SimpleVector) :=
  if v.size_ = v.capacity_ then
    if alloc_ok then Ending.of_run (PushBack_impl mv h v item)
    else Ending.bad_alloc (h, v)
  else Ending.of_run (PushBack_impl mv h v item)

/-- `Resize` when the allocation `ArrayPtr<Type> tmp_array{new_capacity}`
succeeds or throws: before it only the local `new_capacity` is computed; the
other branches do not allocate. -/
def Resize_alloc {α : Type} [ElemType α] (alloc_ok : Bool) (h : Heap α) (v : SimpleVector)
    (new_size : Nat) : Ending (Heap α × SimpleVector) (Heap α × SimpleVector) :=
  if v.size_ < new_size then
    if new_size ≤ v.capacity_ then Ending.of_run (Resize h v new_size)
    else
      if alloc_ok then Ending.of_run (Resize h v new_size)
      else Ending.bad_alloc (h, v)
  else Ending.of_run (Resize h v new_size)

/-- `Reserve` when the allocation `ArrayPtr<Type> tmp_array{new_capacity}`
succeeds or throws: nothing is written before it. -/
def Reserve_alloc {α : Type} [ElemType α] (alloc_ok : Bool) (h : Heap α) (v : SimpleVector)
    (new_capacity : Nat) : Ending (Heap α × SimpleVector) (Heap α × SimpleVector) :=
  if new_capacity > v.capacity_ then
    if alloc_ok then Ending.of_run (Reserve h v new_capacity)
    else Ending.bad_alloc (h, v)
  else Ending.of_run (Reserve h v new_capacity)

/-- `Insert` (`mv = false` for `const Type&`, `true` for `Type&&`) when the
allocation `ArrayPtr<Type> buff(capacity_)` succeeds or throws.  In both
reallocating branches the member `capacity_` is assigned before `buff` is
constructed (`capacity_ = pos_size_t + 1;` and
`capacity_ = std::max(pos_size_t, capacity_ * 2);`), so the exception leaves
the vector with the new `capacity_`. -/
def Insert_alloc {α : Type} [ElemType α] (alloc_ok mv : Bool) (h : Heap α) (v : SimpleVector)
    (pos : Ptr) (value : Ref α) :
    Ending (Heap α × SimpleVector) (Heap α × SimpleVector × Ptr) :=
  match v.begin_.distance pos, v.begin_.distance v.end_ with
  | some pos_size_t, some _ =>
    if pos_size_t ≤ v.size_ then
      if v.size_ = v.capacity_ then
        if v.size_ = 0 then
          if alloc_ok then
            Ending.of_run (if mv then Insert_rvalue h v pos value else Insert h v pos value)
          else Ending.bad_alloc (h, { v with capacity_ := pos_size_t + 1 })
        else
          if alloc_ok then
            Ending.of_run (if mv then Insert_rvalue h v pos value else Insert h v pos value)
          else Ending.bad_alloc (h, { v with capacity_ := max pos_size_t (v.capacity_ * 2) })
      else Ending.of_run (if mv then Insert_rvalue h v pos value else Insert h v pos value)
    else Ending.fault
  | _, _ => Ending.fault

/-- Copy assignment when the allocation in the copy constructor (the
`new Type[size]{}` of the count constructor building `tmp`) succeeds or
throws: the exception leaves `operator=` before `swap(rhs_copy)`. -/
def operator_assign_alloc {α : Type} [ElemType α] (alloc_ok : Bool) (h : Heap α)
    (this_ rhs : SimpleVector) (this_is_rhs : Bool) :
    Ending (Heap α × SimpleVector × SimpleVector) (Heap α × SimpleVector × SimpleVector) :=
  if this_is_rhs = false then
    if alloc_ok then Ending.of_run (operator_assign h this_ rhs this_is_rhs)
    else Ending.bad_alloc (h, this_, rhs)
  else Ending.of_run (operator_assign h this_ rhs this_is_rhs)

end SimpleVector

/-! ### The initializer-list constructor -/

/-- The loop of `std::copy(init.begin(), init.end(), d_first)`: the source is
the initializer list, which is not on the modelled heap. -/
def copy_from_list {α : Type} : List α → Heap α → Ptr → Option (Heap α)
  | [], h, _ => some h
  | x :: xs, h, d_first =>
    match h.store d_first x with
    | none => none
    | some h1 => copy_from_list xs h1 (d_first.add 1)

/-- `SimpleVector(std::initializer_list<Type> init)`: delegates to
`SimpleVector(init.size())`, then copies the list to `begin()`. -/
def SimpleVector.ctor_init_list {α : Type} [ElemType α] (h : Heap α) (init : List α) :
    Option (Heap α × SimpleVector) :=
  match SimpleVector.ctor_size h init.length with
  | none => none
  | some (h1, v) =>
    match copy_from_list init h1 v.begin_ with
    | none => none
    | some h2 => some (h2, v)

end SV

namespace SV

/-! ### States of a vector a program can reach -/

/-- The vectors that calls of the class can produce from the vectors in
`start`: the result of each constructor, and every vector a mutator leaves
behind (the object it was called on and, for `swap`, the move constructor and
copy assignment, its argument) when it is applied to vectors already produced.
A call counts when it returns, which excludes the calls whose `assert` fails
(`Insert` and `Erase` off the range, `PopBack` on an empty vector); the heaps
are arbitrary.  With `start` empty these are the states reachable from
constructed vectors. -/
inductive Reachable (α : Type) [ElemType α] (start : SimpleVector → Prop) :
    SimpleVector → Prop where
  | start {v : SimpleVector} : start v → Reachable α start v
  | ctor_default : Reachable α start SimpleVector.ctor_default
  | ctor_size {h h1 : Heap α} {v : SimpleVector} (size : Nat) :
      SimpleVector.ctor_size h size = some (h1, v) → Reachable α start v
  | ctor_fill {h h1 : Heap α} {v : SimpleVector} (size : Nat) (value : α) :
      SimpleVector.ctor_fill h size value = some (h1, v) → Reachable α start v
  | ctor_fill_rvalue {h h1 : Heap α} {v : SimpleVector} (size : Nat) (value : α) :
      SimpleVector.ctor_fill_rvalue h size value = some (h1, v) → Reachable α start v
  | ctor_init_list {h h1 : Heap α} {v : SimpleVector} (init : List α) :
      SimpleVector.ctor_init_list h init = some (h1, v) → Reachable α start v
  | ctor_reserve {h h1 : Heap α} {v : SimpleVector} (objc : ReserveProxyObj) :
      SimpleVector.ctor_reserve h objc = some (h1, v) → Reachable α start v
  | ctor_copy {h h1 : Heap α} {other v : SimpleVector} :
      Reachable α start other → SimpleVector.ctor_copy h other = some (h1, v) →
      Reachable α start v
  | ctor_move {h h1 : Heap α} {other v other1 : SimpleVector} :
      Reachable α start other → SimpleVector.ctor_move h other = some (h1, v, other1) →
      Reachable α start v
  | moved_from {h h1 : Heap α} {other v other1 : SimpleVector} :
      Reachable α start other → SimpleVector.ctor_move h other = some (h1, v, other1) →
      Reachable α start other1
  | Clear {v : SimpleVector} : Reachable α start v → Reachable α start v.Clear
  | Resize {h h1 : Heap α} {v v1 : SimpleVector} (new_size : Nat) :
      Reachable α start v → SimpleVector.Resize h v new_size = some (h1, v1) →
      Reachable α start v1
  | PushBack {h h1 : Heap α} {v v1 : SimpleVector} (item : α) :
      Reachable α start v → SimpleVector.PushBack h v item = some (h1, v1) →
      Reachable α start v1
  | PushBack_rvalue {h h1 : Heap α} {v v1 : SimpleVector} (item : α) :
      Reachable α start v → SimpleVector.PushBack_rvalue h v item = some (h1, v1) →
      Reachable α start v1
  | Insert {h h1 : Heap α} {v v1 : SimpleVector} (pos : Ptr) (value : Ref α) {r : Ptr} :
      Reachable α start v → SimpleVector.Insert h v pos value = some (h1, v1, r) →
      Reachable α start v1
  | Insert_rvalue {h h1 : Heap α} {v v1 : SimpleVector} (pos : Ptr) (value : Ref α) {r : Ptr} :
      Reachable α start v → SimpleVector.Insert_rvalue h v pos value = some (h1, v1, r) →
      Reachable α start v1
  | PopBack {v v1 : SimpleVector} :
      Reachable α start v → v.PopBack = some v1 → Reachable α start v1
  | Erase {h h1 : Heap α} {v v1 : SimpleVector} (pos : Ptr) {r : Ptr} :
      Reachable α start v → SimpleVector.Erase h v pos = some (h1, v1, r) →
      Reachable α start v1
  | Reserve {h h1 : Heap α} {v v1 : SimpleVector} (new_capacity : Nat) :
      Reachable α start v → SimpleVector.Reserve h v new_capacity = some (h1, v1) →
      Reachable α start v1
  | swap_this {v other : SimpleVector} :
      Reachable α start v → Reachable α start other → Reachable α start (v.swap other).1
  | swap_other {v other : SimpleVector} :
      Reachable α start v → Reachable α start other → Reachable α start (v.swap other).2
  | assign {h h1 : Heap α} {this_ rhs this1 rhs1 : SimpleVector} (this_is_rhs : Bool) :
      Reachable α start this_ → Reachable α start rhs →
      SimpleVector.operator_assign h this_ rhs this_is_rhs = some (h1, this1, rhs1) →
      Reachable α start this1
  | assigned_from {h h1 : Heap α} {this_ rhs this1 rhs1 : SimpleVector} (this_is_rhs : Bool) :
      Reachable α start this_ → Reachable α start rhs →
      SimpleVector.operator_assign h this_ rhs this_is_rhs = some (h1, this1, rhs1) →
      Reachable α start rhs1

end SV

/-! ## Theorems -/

namespace SV
variable {α : Type}

theorem Heap.ext_iff' (h1 h2 : Heap α) (hb : h1.blocks = h2.blocks) (hn : h1.next = h2.next) :
    h1 = h2 := by
  cases h1; cases h2; simp_all

theorem Heap.ext_blocks {h1 h2 : Heap α} (hb : ∀ c, h1.blocks c = h2.blocks c)
    (hn : h1.next = h2.next) : h1 = h2 :=
  Heap.ext_iff' h1 h2 (funext hb) hn

@[simp] theorem Heap.setBlock_next (h : Heap α) (b : Nat) (c : Option (List α)) :
    (h.setBlock b c).next = h.next := rfl

@[simp] theorem Heap.setBlock_blocks_same (h : Heap α) (b : Nat) (c : Option (List α)) :
    (h.setBlock b c).blocks b = c := by
  simp [Heap.setBlock]

theorem Heap.setBlock_blocks_ne (h : Heap α) (b b' : Nat) (c : Option (List α)) (hne : b' ≠ b) :
    (h.setBlock b c).blocks b' = h.blocks b' := by
  simp [Heap.setBlock, Function.update_noteq hne]

@[simp] theorem Heap.setBlock_setBlock (h : Heap α) (b : Nat) (c c' : Option (List α)) :
    (h.setBlock b c).setBlock b c' = h.setBlock b c' := by
  simp [Heap.setBlock]

theorem Heap.setBlock_self (h : Heap α) (b : Nat) (c : Option (List α)) (hc : h.blocks b = c) :
    h.setBlock b c = h := by
  apply Heap.ext_iff'
  · subst hc; simp [Heap.setBlock]
  · rfl

theorem Heap.setBlock_comm (h : Heap α) (a b : Nat) (x y : Option (List α)) (hne : a ≠ b) :
    (h.setBlock a x).setBlock b y = (h.setBlock b y).setBlock a x := by
  apply Heap.ext_iff'
  · simp only [Heap.setBlock]
    exact Function.update_comm hne x y h.blocks
  · rfl

theorem Heap.load_eq (h : Heap α) (b i : Nat) (cells : List α) (hb : h.blocks b = some cells) :
    h.load ⟨some b, i⟩ = cells[i]? := by
  simp [Heap.load, hb]

theorem Heap.store_eq (h : Heap α) (b i : Nat) (x : α) (cells : List α)
    (hb : h.blocks b = some cells) (hi : i < cells.length) :
    h.store ⟨some b, i⟩ x = some (h.setBlock b (some (cells.set i x))) := by
  simp [Heap.store, hb, hi]

theorem leave_length [ElemType α] (mv : Bool) (A : List α) (i : Nat) :
    (leave mv A i).length = A.length := by
  unfold leave
  cases mv
  · simp
  · cases h : A[i]? <;> simp [h]

theorem leave_fwd_length [ElemType α] (mv : Bool) (n : Nat) (A : List α) (i : Nat) :
    (leave_fwd mv n A i).length = A.length := by
  induction n generalizing A i with
  | zero => rfl
  | succ n ih => simp [leave_fwd, ih, leave_length]

theorem leave_bwd_length [ElemType α] (mv : Bool) (n : Nat) (A : List α) (i : Nat) :
    (leave_bwd mv n A i).length = A.length := by
  induction n generalizing A i with
  | zero => rfl
  | succ n ih => simp [leave_bwd, ih, leave_length]

/-- One assignment between two different blocks. -/
theorem assign_elem_cross [ElemType α] (mv : Bool) (h : Heap α) (a b i j : Nat) (A B : List α)
    (hab : a ≠ b) (ha : h.blocks a = some A) (hb : h.blocks b = some B)
    (hi : i < A.length) (hj : j < B.length) :
    assign_elem mv h ⟨some b, j⟩ ⟨some a, i⟩ =
      some ((h.setBlock b (some (B.set j A[i]))).setBlock a (some (leave mv A i))) := by
  have hl : h.load ⟨some a, i⟩ = some A[i] := by
    rw [Heap.load_eq h a i A ha]; exact List.getElem?_eq_getElem hi
  have ha1 : (h.setBlock b (some (B.set j A[i]))).blocks a = some A := by
    rw [Heap.setBlock_blocks_ne _ _ _ _ hab]; exact ha
  unfold assign_elem
  rw [hl]
  simp only [Heap.store_eq h b j A[i] B hb hj]
  cases mv
  · simp only [leave, Bool.false_eq_true, if_false]
    rw [Heap.setBlock_self _ _ _ ha1]
  · simp only [leave, if_true, List.getElem?_eq_getElem hi]
    rw [Heap.store_eq _ a i _ A ha1 hi]

end SV

namespace SV
variable {α : Type}

theorem take_set_le (B : List α) (m n : Nat) (x : α) (h : m ≤ n) :
    (B.set n x).take m = B.take m := by
  rcases Nat.lt_or_ge m n with h1 | h1
  · exact List.take_set_of_lt x B h1
  · have : m = n := Nat.le_antisymm h h1
    subst this
    apply List.ext_getElem?
    intro k
    simp only [List.getElem?_take, List.getElem?_set]
    by_cases hk : k < m
    · simp [hk, Nat.ne_of_gt hk]
    · simp [hk]

theorem drop_set_same (B : List α) (n : Nat) (x : α) (h : n < B.length) :
    (B.set n x).drop n = x :: B.drop (n + 1) := by
  have h1 : n < (B.set n x).length := by simpa using h
  rw [List.drop_eq_getElem_cons h1, List.drop_set_of_lt x B (Nat.lt_succ_self n)]
  simp

theorem take_set_succ (B : List α) (j : Nat) (x : α) (hj : j < B.length) :
    (B.set j x).take (j + 1) = B.take j ++ [x] := by
  have h1 : j < (B.set j x).length := by simpa using hj
  rw [List.take_succ, take_set_le B j j x (Nat.le_refl j), List.getElem?_eq_getElem h1]
  simp

theorem slice_succ (A : List α) (i n : Nat) (h : i + n < A.length) :
    (A.drop i).take (n + 1) = (A.drop i).take n ++ [A[i + n]] := by
  have h1 : n < (A.drop i).length := by simp; omega
  rw [List.take_succ, List.getElem?_eq_getElem h1]
  simp

theorem slice_cons (A : List α) (i n : Nat) (h : i < A.length) :
    (A.drop i).take (n + 1) = A[i] :: (A.drop (i + 1)).take n := by
  have e := List.drop_eq_getElem_cons h
  rw [e, List.take_succ_cons]

theorem slice_length (A : List α) (i n : Nat) (h : i + n ≤ A.length) :
    ((A.drop i).take n).length = n := by
  simp; omega

theorem splice_length (B : List α) (j : Nat) (xs : List α) (h : j + xs.length ≤ B.length) :
    (splice B j xs).length = B.length := by
  simp [splice]; omega

theorem splice_nil (B : List α) (j : Nat) : splice B j [] = B := by
  simp [splice]

theorem splice_cons (B : List α) (j : Nat) (x : α) (xs : List α) (hj : j < B.length) :
    splice (B.set j x) (j + 1) xs = splice B j (x :: xs) := by
  unfold splice
  rw [take_set_succ B j x hj, List.drop_set_of_lt x B (by omega)]
  simp [Nat.add_assoc, Nat.add_comm 1]

theorem splice_snoc (B : List α) (j : Nat) (x : α) (xs : List α) (hj : j + xs.length < B.length) :
    splice (B.set (j + xs.length) x) j xs = splice B j (xs ++ [x]) := by
  unfold splice
  rw [take_set_le B j _ x (by omega), drop_set_same B _ x hj]
  simp [Nat.add_assoc]

theorem leave_take [ElemType α] (mv : Bool) (A : List α) (i k : Nat) (h : k ≤ i) :
    (leave mv A i).take k = A.take k := by
  unfold leave
  cases mv
  · simp
  · cases hx : A[i]? <;> simp [take_set_le _ _ _ _ h]

theorem leave_drop [ElemType α] (mv : Bool) (A : List α) (i k : Nat) (h : i < k) :
    (leave mv A i).drop k = A.drop k := by
  unfold leave
  cases mv
  · simp
  · cases hx : A[i]? <;> simp [List.drop_set_of_lt _ _ h]

theorem leave_slice [ElemType α] (mv : Bool) (A : List α) (i p n : Nat) (h : p + n ≤ i) :
    ((leave mv A i).drop p).take n = (A.drop p).take n := by
  rw [List.take_drop, List.take_drop, leave_take mv A i (p + n) h]

theorem set_slice (A : List α) (i p n : Nat) (x : α) (h : p + n ≤ i) :
    ((A.set i x).drop p).take n = (A.drop p).take n := by
  rw [List.take_drop, List.take_drop, take_set_le A (p + n) i x h]

/-- Forward transfer of `n` cells between two different blocks. -/
theorem copy_loop_cross [ElemType α] (mv : Bool) (n : Nat) (h : Heap α) (a b i j : Nat)
    (A B : List α) (hab : a ≠ b) (ha : h.blocks a = some A) (hb : h.blocks b = some B)
    (hi : i + n ≤ A.length) (hj : j + n ≤ B.length) :
    copy_loop mv n h ⟨some a, i⟩ ⟨some b, j⟩ =
      some ((h.setBlock b (some (splice B j ((A.drop i).take n)))).setBlock a
        (some (leave_fwd mv n A i))) := by
  induction n generalizing h A B i j with
  | zero =>
    simp only [copy_loop, List.take_zero, splice_nil, leave_fwd]
    rw [Heap.setBlock_self h b _ hb, Heap.setBlock_self h a _ ha]
  | succ n ih =>
    have hi1 : i < A.length := by omega
    have hj1 : j < B.length := by omega
    simp only [copy_loop, assign_elem_cross mv h a b i j A B hab ha hb hi1 hj1, Ptr.add]
    rw [ih _ (i + 1) (j + 1) (leave mv A i) (B.set j A[i])]
    · rw [Heap.setBlock_comm _ a b _ _ hab, Heap.setBlock_setBlock, Heap.setBlock_setBlock,
        leave_drop mv A i (i + 1) (Nat.lt_succ_self i), splice_cons B j _ _ hj1,
        ← slice_cons A i n hi1]
      rfl
    · simp
    · rw [Heap.setBlock_blocks_ne _ _ _ _ (Ne.symm hab)]; simp
    · rw [leave_length]; omega
    · simp; omega

/-- Backward transfer of `n` cells between two different blocks. -/
theorem copy_backward_loop_cross [ElemType α] (mv : Bool) (n : Nat) (h : Heap α) (a b i j : Nat)
    (A B : List α) (hab : a ≠ b) (ha : h.blocks a = some A) (hb : h.blocks b = some B)
    (hi : i + n ≤ A.length) (hj : j + n ≤ B.length) :
    copy_backward_loop mv n h ⟨some a, i + n⟩ ⟨some b, j + n⟩ =
      some ((h.setBlock b (some (splice B j ((A.drop i).take n)))).setBlock a
        (some (leave_bwd mv n A (i + n)))) := by
  induction n generalizing h A B with
  | zero =>
    simp only [copy_backward_loop, List.take_zero, splice_nil, leave_bwd]
    rw [Heap.setBlock_self h b _ hb, Heap.setBlock_self h a _ ha]
  | succ n ih =>
    have hi1 : i + n < A.length := by omega
    have hj1 : j + n < B.length := by omega
    have e1 : i + (n + 1) - 1 = i + n := by omega
    have e2 : j + (n + 1) - 1 = j + n := by omega
    have e3 : ¬ (i + (n + 1) = 0 ∨ j + (n + 1) = 0) := by omega
    simp only [copy_backward_loop, e1, e2, e3, if_false,
      assign_elem_cross mv h a b (i + n) (j + n) A B hab ha hb hi1 hj1]
    rw [ih _ (leave mv A (i + n)) (B.set (j + n) A[i + n])]
    · rw [Heap.setBlock_comm _ a b _ _ hab, Heap.setBlock_setBlock, Heap.setBlock_setBlock,
        leave_slice mv A (i + n) i n (Nat.le_refl _)]
      have hl : ((A.drop i).take n).length = n := slice_length A i n (by omega)
      have hs := splice_snoc B j A[i + n] ((A.drop i).take n) (by rw [hl]; exact hj1)
      rw [hl] at hs
      rw [hs, ← slice_succ A i n hi1]
      simp only [leave_bwd, e1]
    · simp
    · rw [Heap.setBlock_blocks_ne _ _ _ _ (Ne.symm hab)]; simp
    · rw [leave_length]; omega
    · simp; omega

end SV

namespace SV
variable {α : Type}
open SimpleVector

theorem fill_loop_eq (n : Nat) (h : Heap α) (b j : Nat) (x : α) (B : List α)
    (hb : h.blocks b = some B) (hj : j + n ≤ B.length) :
    fill_loop n h ⟨some b, j⟩ x = some (h.setBlock b (some (splice B j (List.replicate n x)))) := by
  induction n generalizing h B j with
  | zero =>
    simp only [fill_loop, List.replicate_zero, splice_nil]
    rw [Heap.setBlock_self h b _ hb]
  | succ n ih =>
    have hj1 : j < B.length := by omega
    simp only [fill_loop, Heap.store_eq h b j x B hb hj1, Ptr.add]
    rw [ih _ (j + 1) (B.set j x) (by simp) (by simp; omega), Heap.setBlock_setBlock,
      splice_cons B j x _ hj1]
    rfl

theorem Heap.delete_array_eq (h : Heap α) (b : Nat) (B : List α) (hb : h.blocks b = some B) :
    h.delete_array ⟨some b, 0⟩ = some (h.setBlock b none) := by
  simp [Heap.delete_array, hb]

theorem Heap.delete_array_null (h : Heap α) (o : Nat) : h.delete_array ⟨none, o⟩ = some h := rfl

/-- A valid vector is either null with no capacity, or owns a live block. -/
theorem Valid.cases {h : Heap α} {v : SimpleVector} (hv : Valid h v) :
    (v.array_ = ⟨⟨none, 0⟩⟩ ∧ v.capacity_ = 0 ∧ v.size_ = 0) ∨
    ∃ a A, v.array_ = ⟨⟨some a, 0⟩⟩ ∧ a < h.next ∧ h.blocks a = some A ∧
      A.length = v.capacity_ ∧ v.size_ ≤ v.capacity_ := by
  obtain ⟨⟨⟨blk, off⟩⟩, size, cap⟩ := v
  obtain ⟨h1, h2, h3⟩ := hv
  simp only at h1 h2 h3
  subst h2
  cases blk with
  | none => left; simp only at h3; subst h3; simp at h1; simp [h1]
  | some a =>
    right
    simp only at h3
    obtain ⟨h4, h5⟩ := h3
    cases hA : h.blocks a with
    | none => simp [hA] at h5
    | some A => 
      simp [hA] at h5
      exact ⟨a, A, rfl, h4, hA, h5, h1⟩

end SV
namespace SV
variable {α : Type}
open SimpleVector

theorem default_init_length [ElemType α] (n : Nat) : (default_init α n).length = n := by
  simp [default_init]

theorem Heap.new_array_fst (h : Heap α) (cells : List α) :
    (h.new_array cells).1 = (h.setBlock h.next (some cells)).bump := rfl

theorem Heap.new_array_snd (h : Heap α) (cells : List α) :
    (h.new_array cells).2 = ⟨some h.next, 0⟩ := rfl

@[simp] theorem Heap.bump_next (h : Heap α) : h.bump.next = h.next + 1 := rfl

@[simp] theorem Heap.bump_blocks (h : Heap α) : h.bump.blocks = h.blocks := rfl

theorem Heap.bump_setBlock_blocks_same (h : Heap α) (b : Nat) (c : Option (List α)) :
    (h.setBlock b c).bump.blocks b = c := by
  simp

theorem Heap.setBlock_bump (h : Heap α) (b : Nat) (c : Option (List α)) :
    h.bump.setBlock b c = (h.setBlock b c).bump := rfl

theorem Heap.setBlock_blocks (h : Heap α) (b b' : Nat) (c : Option (List α)) :
    (h.setBlock b c).blocks b' = if b' = b then c else h.blocks b' := by
  by_cases hb : b' = b
  · subst hb; simp
  · simp [hb, Heap.setBlock_blocks_ne h b b' c hb]

theorem Heap.blocks_fresh_after_free (h : Heap α) (a nb : Nat) (X : List α) (hne : a ≠ nb) :
    ((h.setBlock nb (some X)).setBlock a none).bump.blocks nb = some X := by
  simp [Heap.setBlock_blocks, Ne.symm hne]

theorem ArrayPtr.ctor_size_pos [ElemType α] (h : Heap α) (n : Nat) (hn : n ≠ 0) :
    ArrayPtr.ctor_size h n =
      ((h.setBlock h.next (some (default_init α n))).bump, ⟨⟨some h.next, 0⟩⟩) := by
  simp [ArrayPtr.ctor_size, hn, Heap.new_array_fst, Heap.new_array_snd]

theorem PushBack_impl_full [ElemType α] (mv : Bool) (h : Heap α) (a cap : Nat) (A : List α)
    (item : α) (ha : a < h.next) (hA : h.blocks a = some A) (hlen : A.length = cap) :
    PushBack_impl mv h ⟨⟨⟨some a, 0⟩⟩, cap, cap⟩ item =
      some (((h.setBlock h.next (some ((splice (default_init α (max 1 (cap * 2))) 0 A).set
        cap item))).setBlock a none).bump, ⟨⟨⟨some h.next, 0⟩⟩, cap + 1, max 1 (cap * 2)⟩) := by
  have hne : a ≠ h.next := Nat.ne_of_lt ha
  have hcap : max 1 (cap * 2) ≠ 0 := by omega
  have hA1 : ((h.setBlock h.next (some (default_init α (max 1 (cap * 2))))).bump).blocks a
      = some A := by
    simp [Heap.setBlock_blocks, hne, hA]
  have hB1 : ((h.setBlock h.next (some (default_init α (max 1 (cap * 2))))).bump).blocks h.next
      = some (default_init α (max 1 (cap * 2))) := by
    simp
  have hc := copy_loop_cross mv cap _ a h.next 0 0 A _ hne hA1 hB1 (by omega)
    (by rw [default_init_length]; omega)
  have hAA : (A.drop 0).take cap = A := by simp [← hlen]
  rw [hAA] at hc
  simp only [PushBack_impl, if_true, ArrayPtr.ctor_size_pos h _ hcap, std_copy, begin_, end_,
    ArrayPtr.Get, Ptr.add, Ptr.distance, ArrayPtr.index, ArrayPtr.swap, ArrayPtr.dtor,
    Nat.zero_add, Nat.sub_zero, and_self, Nat.zero_le, hc]
  rw [Heap.store_eq _ h.next cap item (splice (default_init α (max 1 (cap * 2))) 0 A)]
  · simp only []
    rw [Heap.delete_array_eq _ a (leave_fwd mv cap A 0)]
    · simp only [Heap.setBlock_setBlock, Heap.setBlock_bump]
      congr 2
      refine Heap.ext_blocks (fun c => ?_) rfl
      simp only [Heap.setBlock_blocks, Heap.bump_blocks]
      split_ifs <;> first | rfl | omega
    · simp [Heap.setBlock_blocks, hne]
  · simp [Heap.setBlock_blocks, Ne.symm hne]
  · rw [splice_length _ _ _ (by rw [default_init_length]; simp; omega), default_init_length]
    omega

end SV
namespace SV
variable {α : Type}
open SimpleVector

theorem PushBack_impl_null [ElemType α] (mv : Bool) (h : Heap α) (item : α) :
    PushBack_impl mv h ⟨⟨⟨none, 0⟩⟩, 0, 0⟩ item =
      some ((h.setBlock h.next (some ((default_init α 1).set 0 item))).bump,
        ⟨⟨⟨some h.next, 0⟩⟩, 1, 1⟩) := by
  have hcap : max 1 (0 * 2) ≠ 0 := by decide
  simp only [PushBack_impl, if_true, ArrayPtr.ctor_size_pos h _ hcap, std_copy, begin_, end_,
    ArrayPtr.Get, Ptr.add, Ptr.distance, ArrayPtr.index, ArrayPtr.swap, ArrayPtr.dtor,
    Nat.zero_add, Nat.sub_zero, and_self, Nat.zero_le, copy_loop, Nat.le_refl]
  rw [Heap.store_eq _ h.next 0 item (default_init α (max 1 (0 * 2))) (by simp)
    (by rw [default_init_length]; decide)]
  simp only [Heap.delete_array_null, Heap.setBlock_bump, Heap.setBlock_setBlock]
  rfl

theorem PushBack_impl_room [ElemType α] (mv : Bool) (h : Heap α) (a size cap : Nat)
    (A : List α) (item : α) (hA : h.blocks a = some A) (hlen : A.length = cap)
    (hlt : size < cap) :
    PushBack_impl mv h ⟨⟨⟨some a, 0⟩⟩, size, cap⟩ item =
      some (h.setBlock a (some (A.set size item)), ⟨⟨⟨some a, 0⟩⟩, size + 1, cap⟩) := by
  have hne : size ≠ cap := Nat.ne_of_lt hlt
  simp only [PushBack_impl, hne, if_false, ArrayPtr.index, Ptr.add, Nat.zero_add]
  rw [Heap.store_eq h a size item A hA (by omega)]

theorem toList_eq (h : Heap α) (a size cap : Nat) (A : List α) (hA : h.blocks a = some A) :
    SimpleVector.toList h ⟨⟨⟨some a, 0⟩⟩, size, cap⟩ = A.take size := by
  simp [SimpleVector.toList, SimpleVector.cells, hA]

theorem toList_null (h : Heap α) (o size cap : Nat) :
    SimpleVector.toList h ⟨⟨⟨none, o⟩⟩, size, cap⟩ = [] := rfl

theorem Valid_of_block (h : Heap α) (a size cap : Nat) (A : List α) (ha : a < h.next)
    (hA : h.blocks a = some A) (hlen : A.length = cap) (hle : size ≤ cap) :
    Valid h ⟨⟨⟨some a, 0⟩⟩, size, cap⟩ := by
  simp [Valid, hle, ha, hA, hlen]

theorem splice_zero_take (B xs : List α) (h : xs.length ≤ B.length) :
    (splice B 0 xs).take xs.length = xs := by
  simp [splice]

theorem PushBack_impl_spec [ElemType α] (mv : Bool) (h : Heap α) (v : SimpleVector) (item : α)
    (hv : Valid h v) :
    ∃ h1 v1, PushBack_impl mv h v item = some (h1, v1) ∧ Valid h1 v1 ∧
      v1.size_ = v.size_ + 1 ∧ v1.toList h1 = v.toList h ++ [item] ∧
      v1.capacity_ = (if v.size_ = v.capacity_ then max 1 (v.capacity_ * 2) else v.capacity_) ∧
      Frame h h1 v ∧ Rehomed h v v1 := by
  obtain ⟨array_, size, cap⟩ := v
  rcases hv.cases with ⟨e1, e2, e3⟩ | ⟨a, A, e1, ha, hA, hlen, hle⟩
  · simp only at e1 e2 e3
    subst e1 e2 e3
    refine ⟨_, _, PushBack_impl_null mv h item, ?_, rfl, ?_, rfl, ?_, ?_⟩
    · exact Valid_of_block _ _ _ _ _ (by simp) (Heap.bump_setBlock_blocks_same _ _ _)
        (by simp [default_init_length]) (by simp)
    · rw [toList_eq _ _ _ _ _ (Heap.bump_setBlock_blocks_same _ _ _), toList_null]
      simp [default_init, List.range_succ]
    · refine ⟨by simp, fun c hc _ => ?_⟩
      simp [Heap.setBlock_blocks, Nat.ne_of_lt hc]
    · right; exact ⟨h.next, Nat.le_refl _, rfl⟩
  · simp only at e1 hlen hle
    subst e1
    have hne : a ≠ h.next := Nat.ne_of_lt ha
    rcases Nat.lt_or_ge size cap with hlt | hge
    · refine ⟨_, _, PushBack_impl_room mv h a size cap A item hA hlen hlt, ?_, rfl, ?_, ?_, ?_, ?_⟩
      · exact Valid_of_block _ _ _ _ _ (by simpa using ha) (Heap.setBlock_blocks_same _ _ _)
          (by simp [hlen]) hlt
      · rw [toList_eq _ _ _ _ _ (Heap.setBlock_blocks_same _ _ _), toList_eq _ _ _ _ _ hA]
        exact take_set_succ A size item (by omega)
      · simp [Nat.ne_of_lt hlt]
      · refine ⟨by simp, fun c _ hca => ?_⟩
        have : c ≠ a := fun e => hca (by rw [e])
        simp [Heap.setBlock_blocks, this]
      · left; rfl
    · have hsc : size = cap := Nat.le_antisymm hle hge
      subst hsc
      have hB : (splice (default_init α (max 1 (size * 2))) 0 A).length = max 1 (size * 2) := by
        rw [splice_length _ _ _ (by rw [default_init_length]; simp; omega), default_init_length]
      refine ⟨_, _, PushBack_impl_full mv h a size A item ha hA hlen, ?_, rfl, ?_, ?_, ?_, ?_⟩
      · refine Valid_of_block _ _ _ _ _ (by simp) (Heap.blocks_fresh_after_free _ _ _ _ hne) ?_
          (by omega)
        rw [List.length_set, hB]
      · rw [toList_eq _ _ _ _ _ (Heap.blocks_fresh_after_free _ _ _ _ hne),
          toList_eq _ _ _ _ _ hA, take_set_succ _ _ _ (by rw [hB]; omega)]
        congr 1
        conv_lhs => rw [← hlen]
        rw [splice_zero_take _ _ (by rw [default_init_length]; omega)]
        simp [← hlen]
      · simp
      · refine ⟨by simp, fun c hc hca => ?_⟩
        have h1 : c ≠ a := fun e => hca (by rw [e])
        simp [Heap.setBlock_blocks, h1, Nat.ne_of_lt hc]
      · right; exact ⟨h.next, Nat.le_refl _, rfl⟩

end SV

namespace SV
variable {α : Type}
open SimpleVector

theorem push_all_spec [ElemType α] (calls : List (Bool × α)) (h : Heap α) (v : SimpleVector)
    (hv : Valid h v) :
    ∃ h1 v1, push_all h v calls = some (h1, v1) ∧ Valid h1 v1 ∧
      v1.size_ = v.size_ + calls.length ∧ v1.toList h1 = v.toList h ++ calls.map Prod.snd := by
  induction calls generalizing h v with
  | nil => exact ⟨h, v, rfl, hv, rfl, by simp⟩
  | cons c calls ih =>
    obtain ⟨rvalue, item⟩ := c
    obtain ⟨h1, v1, e1, hv1, hs1, hl1, -, -, -⟩ := PushBack_impl_spec rvalue h v item hv
    obtain ⟨h2, v2, e2, hv2, hs2, hl2⟩ := ih h1 v1 hv1
    refine ⟨h2, v2, ?_, hv2, ?_, ?_⟩
    · cases rvalue <;> simp [push_all, PushBack, PushBack_rvalue, e1, e2]
    · rw [hs2, hs1]; simp; omega
    · rw [hl2, hl1]; simp

theorem Valid_ctor_default (h : Heap α) : Valid h ctor_default := by
  simp [Valid, ctor_default, ArrayPtr.ctor_default, Ptr.null]

theorem toList_ctor_default (h : Heap α) : ctor_default.toList h = [] := rfl

/-- C1: on a vector satisfying the representation invariant (in particular
`size_ <= capacity_`), both overloads of `PushBack` return, increase `GetSize()`
by exactly 1 and make the logical sequence the old one followed by the pushed
value; hence after each call of any finite sequence of `PushBack` calls on a
default-constructed (empty) vector the elements `[0, size)` are the values
pushed so far, in order. -/
theorem C1_PushBack_appends [ElemType α] (h : Heap α) (v : SimpleVector) (item : α)
    (hv : Valid h v) :
    (∃ h1 v1, PushBack h v item = some (h1, v1) ∧ v1.GetSize = v.GetSize + 1 ∧
        v1.toList h1 = v.toList h ++ [item] ∧ Valid h1 v1) ∧
    (∃ h1 v1, PushBack_rvalue h v item = some (h1, v1) ∧ v1.GetSize = v.GetSize + 1 ∧
        v1.toList h1 = v.toList h ++ [item] ∧ Valid h1 v1) ∧
    (∀ (calls : List (Bool × α)) (k : Nat), k ≤ calls.length →
      ∃ h1 v1, push_all h ctor_default (calls.take k) = some (h1, v1) ∧ v1.GetSize = k ∧
        v1.toList h1 = (calls.take k).map Prod.snd) := by
  refine ⟨?_, ?_, ?_⟩
  · obtain ⟨h1, v1, e1, hv1, hs1, hl1, -⟩ := PushBack_impl_spec false h v item hv
    exact ⟨h1, v1, e1, hs1, hl1, hv1⟩
  · obtain ⟨h1, v1, e1, hv1, hs1, hl1, -⟩ := PushBack_impl_spec true h v item hv
    exact ⟨h1, v1, e1, hs1, hl1, hv1⟩
  · intro calls k hk
    obtain ⟨h1, v1, e1, -, hs1, hl1⟩ := push_all_spec (calls.take k) h ctor_default
      (Valid_ctor_default h)
    refine ⟨h1, v1, e1, ?_, ?_⟩
    · simp only [GetSize, hs1, ctor_default, List.length_take]; omega
    · rw [hl1, toList_ctor_default]; simp

/-- Witness for C1: the vector `[1, 2, 3]` with capacity 3 (a full vector). -/
theorem C1_PushBack_appends_witness :
    Valid (heap_one [1, 2, 3]) (vec_zero 3 3) ∧
    ∃ h1 v1, PushBack (heap_one [1, 2, 3]) (vec_zero 3 3) 4 = some (h1, v1) ∧
      v1.GetSize = (vec_zero 3 3).GetSize + 1 ∧
      v1.toList h1 = (vec_zero 3 3).toList (heap_one [1, 2, 3]) ++ [4] ∧ Valid h1 v1 :=
  ⟨by decide, (C1_PushBack_appends (heap_one [1, 2, 3]) (vec_zero 3 3) 4 (by decide)).1⟩

end SV

namespace SV
variable {α : Type}
open SimpleVector

/-- One assignment between two different cells of one block. -/
theorem assign_elem_same [ElemType α] (mv : Bool) (h : Heap α) (a i j : Nat) (A : List α)
    (hij : i ≠ j) (ha : h.blocks a = some A) (hi : i < A.length) (hj : j < A.length) :
    assign_elem mv h ⟨some a, j⟩ ⟨some a, i⟩ =
      some (h.setBlock a (some (leave mv (A.set j A[i]) i))) := by
  have hl : h.load ⟨some a, i⟩ = some A[i] := by
    rw [Heap.load_eq h a i A ha]; exact List.getElem?_eq_getElem hi
  have hi2 : i < (A.set j A[i]).length := by simpa using hi
  have hg : (A.set j A[i])[i]? = some A[i] := by
    rw [List.getElem?_set]; simp [Ne.symm hij, hi]
  unfold assign_elem
  rw [hl]
  simp only [Heap.store_eq h a j A[i] A ha hj]
  cases mv
  · simp [leave]
  · simp only [leave, if_true, hg]
    rw [Heap.store_eq _ a i _ (A.set j A[i]) (Heap.setBlock_blocks_same _ _ _) hi2,
      Heap.setBlock_setBlock]

theorem leave_fwd_drop [ElemType α] (mv : Bool) (n : Nat) (A : List α) (i : Nat) :
    (leave_fwd mv n A i).drop (i + n) = A.drop (i + n) := by
  induction n generalizing A i with
  | zero => rfl
  | succ n ih =>
    simp only [leave_fwd]
    have e : i + (n + 1) = i + 1 + n := by omega
    rw [e, ih, leave_drop mv A i (i + 1 + n) (by omega)]

/-- The loop of `std::copy_backward(pos, end, end + 1)` inside one block:
the cells `[p, p+n)` move one place up; cell `p` itself is left unspecified. -/
theorem copy_backward_loop_shift [ElemType α] (mv : Bool) (n : Nat) (h : Heap α) (a p : Nat)
    (A : List α) (ha : h.blocks a = some A) (hp : p + n < A.length) :
    ∃ R, copy_backward_loop mv n h ⟨some a, p + n⟩ ⟨some a, p + n + 1⟩ =
        some (h.setBlock a (some R)) ∧
      R.length = A.length ∧ R.take p = A.take p ∧
      R.drop (p + 1) = (A.drop p).take n ++ A.drop (p + n + 1) := by
  induction n generalizing h A with
  | zero =>
    refine ⟨A, ?_, rfl, rfl, by simp⟩
    simp only [copy_backward_loop]
    rw [Heap.setBlock_self h a _ ha]
  | succ n ih =>
    have e1 : p + (n + 1) - 1 = p + n := by omega
    have e2 : p + (n + 1) + 1 - 1 = p + n + 1 := by omega
    have e3 : ¬ (p + (n + 1) = 0 ∨ p + (n + 1) + 1 = 0) := by omega
    have hs := assign_elem_same mv h a (p + n) (p + n + 1) A (by omega) ha (by omega) (by omega)
    obtain ⟨R, hR, hlen, htake, hdrop⟩ := ih (h.setBlock a
      (some (leave mv (A.set (p + n + 1) A[p + n]) (p + n)))) _
      (Heap.setBlock_blocks_same _ _ _) (by rw [leave_length, List.length_set]; omega)
    refine ⟨R, ?_, ?_, ?_, ?_⟩
    · simp only [copy_backward_loop, e1, e2, e3, if_false, hs, hR, Heap.setBlock_setBlock]
    · rw [hlen, leave_length, List.length_set]
    · rw [htake, leave_take mv _ _ _ (by omega), take_set_le _ _ _ _ (by omega)]
    · rw [hdrop, leave_slice mv _ _ _ _ (Nat.le_refl _), set_slice _ _ _ _ _ (by omega),
        leave_drop mv _ _ _ (by omega), drop_set_same _ _ _ (by omega),
        slice_succ A p n (by omega)]
      simp [Nat.add_assoc]

end SV

namespace SV
variable {α : Type}
open SimpleVector

theorem set_shifted_eq (A R : List α) (p n : Nat) (value : α) (hp : p + n < A.length)
    (hlen : R.length = A.length) (htake : R.take p = A.take p)
    (hdrop : R.drop (p + 1) = (A.drop p).take n ++ A.drop (p + n + 1)) :
    R.set p value = room_block A p n value := by
  rw [List.set_eq_take_append_cons_drop, if_pos (by omega), htake, hdrop]
  rfl

theorem Insert_room [ElemType α] (h : Heap α) (a p n cap : Nat) (A : List α) (value : α)
    (hA : h.blocks a = some A) (hlen : A.length = cap) (hlt : p + n < cap) :
    SimpleVector.Insert h ⟨⟨⟨some a, 0⟩⟩, p + n, cap⟩ ⟨some a, p⟩ (Ref.obj value) =
        some (h.setBlock a (some (room_block A p n value)), ⟨⟨⟨some a, 0⟩⟩, p + n + 1, cap⟩,
          ⟨some a, p⟩) := by
  obtain ⟨R, hR, hRlen, htake, hdrop⟩ :=
    copy_backward_loop_shift false n h a p A hA (by omega)
  have hne : p + n ≠ cap := Nat.ne_of_lt hlt
  simp only [SimpleVector.Insert, assign_from, begin_, end_, ArrayPtr.Get, Ptr.add, Ptr.distance,
    Nat.zero_add,
    Nat.zero_le, and_self, if_true, Nat.sub_zero, Nat.le_add_right, hne, if_false,
    std_copy_backward, Nat.add_sub_cancel_left, hR, ArrayPtr.index]
  rw [Heap.store_eq _ a p value R (Heap.setBlock_blocks_same _ _ _) (by omega),
    Heap.setBlock_setBlock, set_shifted_eq A R p n value (by omega) hRlen htake hdrop]

theorem Insert_rvalue_room [ElemType α] (h : Heap α) (a p n cap : Nat) (A : List α) (value : α)
    (hA : h.blocks a = some A) (hlen : A.length = cap) (hlt : p + n < cap) :
    Insert_rvalue h ⟨⟨⟨some a, 0⟩⟩, p + n, cap⟩ ⟨some a, p⟩ (Ref.obj value) =
        some (h.setBlock a (some (room_block A p n value)), ⟨⟨⟨some a, 0⟩⟩, p + n + 1, cap⟩,
          ⟨some a, p⟩) := by
  obtain ⟨R, hR, hRlen, htake, hdrop⟩ :=
    copy_backward_loop_shift true n h a p A hA (by omega)
  have hne : p + n ≠ cap := Nat.ne_of_lt hlt
  simp only [Insert_rvalue, assign_from, begin_, end_, ArrayPtr.Get, Ptr.add, Ptr.distance,
    Nat.zero_add,
    Nat.zero_le, and_self, if_true, Nat.sub_zero, Nat.le_add_right, hne, if_false,
    std_copy_backward, Nat.add_sub_cancel_left, hR, ArrayPtr.index]
  rw [Heap.store_eq _ a p value R (Heap.setBlock_blocks_same _ _ _) (by omega),
    Heap.setBlock_setBlock, set_shifted_eq A R p n value (by omega) hRlen htake hdrop]

end SV

namespace SV
variable {α : Type}
open SimpleVector

/-- The heap after the reallocating branch of `Insert`, as a chain of loop
results; `B0` is the freshly allocated block. -/
theorem Insert_full_steps [ElemType α] (mv : Bool) (h : Heap α) (a p n : Nat) (A B0 : List α)
    (value : α) (ha : a < h.next) (hA : h.blocks a = some A) (hlen : A.length = p + n)
    (hB0 : p + n + 1 ≤ B0.length) :
    ∃ h1 h2 h3,
      copy_loop mv p (h.setBlock h.next (some B0)).bump ⟨some a, 0⟩ ⟨some h.next, 0⟩ = some h1 ∧
      h1.store ⟨some h.next, p⟩ value = some h2 ∧
      copy_backward_loop mv n h2 ⟨some a, p + n⟩ ⟨some h.next, p + n + 1⟩ = some h3 ∧
      h3.delete_array ⟨some a, 0⟩ = some
        (((h.setBlock h.next (some (splice ((splice B0 0 (A.take p)).set p value) (p + 1)
          ((A.drop p).take n)))).setBlock a none).bump) := by
  have hne : a ≠ h.next := Nat.ne_of_lt ha
  have hc1 := copy_loop_cross mv p (h.setBlock h.next (some B0)).bump a h.next 0 0 A B0 hne
    (by simp [Heap.setBlock_blocks, hne, hA]) (by simp) (by omega) (by omega)
  have hAp : (A.drop 0).take p = A.take p := by simp
  rw [hAp] at hc1
  have hB1 : (splice B0 0 (A.take p)).length = B0.length := by
    rw [splice_length _ _ _ (by rw [List.length_take]; omega)]
  have hs := Heap.store_eq
    (((h.setBlock h.next (some B0)).bump.setBlock h.next
      (some (splice B0 0 (A.take p)))).setBlock a (some (leave_fwd mv p A 0)))
    h.next p value (splice B0 0 (A.take p))
    (by simp [Heap.setBlock_blocks, Ne.symm hne]) (by rw [hB1]; omega)
  have hc2 := copy_backward_loop_cross mv n
    ((((h.setBlock h.next (some B0)).bump.setBlock h.next
      (some (splice B0 0 (A.take p)))).setBlock a (some (leave_fwd mv p A 0))).setBlock h.next
        (some ((splice B0 0 (A.take p)).set p value)))
    a h.next p (p + 1) (leave_fwd mv p A 0) ((splice B0 0 (A.take p)).set p value) hne
    (by simp [Heap.setBlock_blocks, hne]) (by simp)
    (by rw [leave_fwd_length]; omega) (by rw [List.length_set, hB1]; omega)
  have hd : (leave_fwd mv p A 0).drop p = A.drop p := by
    have := leave_fwd_drop mv p A 0
    simpa using this
  rw [hd] at hc2
  have e : p + 1 + n = p + n + 1 := by omega
  rw [e] at hc2
  refine ⟨_, _, _, hc1, hs, hc2, ?_⟩
  rw [Heap.delete_array_eq _ a (leave_bwd mv n (leave_fwd mv p A 0) (p + n))
    (Heap.setBlock_blocks_same _ _ _)]
  congr 1
  refine Heap.ext_blocks (fun c => ?_) rfl
  simp only [Heap.setBlock_blocks, Heap.bump_blocks]
  split_ifs <;> first | rfl | omega

end SV
namespace SV
variable {α : Type}
open SimpleVector

theorem Insert_full [ElemType α] (h : Heap α) (a p n : Nat) (A : List α) (value : α)
    (ha : a < h.next) (hA : h.blocks a = some A) (hlen : A.length = p + n) (hpos : p + n ≠ 0) :
    SimpleVector.Insert h ⟨⟨⟨some a, 0⟩⟩, p + n, p + n⟩ ⟨some a, p⟩ (Ref.obj value) =
      some (((h.setBlock h.next (some (splice ((splice (default_init α (max p ((p + n) * 2))) 0
          (A.take p)).set p value) (p + 1) ((A.drop p).take n)))).setBlock a none).bump,
        ⟨⟨⟨some h.next, 0⟩⟩, p + n + 1, max p ((p + n) * 2)⟩, ⟨some h.next, p⟩) := by
  have hcap : max p ((p + n) * 2) ≠ 0 := by omega
  obtain ⟨h1, h2, h3, e1, e2, e3, e4⟩ := Insert_full_steps false h a p n A
    (default_init α (max p ((p + n) * 2))) value ha hA hlen
    (by rw [default_init_length]; omega)
  simp only [SimpleVector.Insert, assign_from, begin_, end_, ArrayPtr.Get, Ptr.add, Ptr.distance,
    Nat.zero_add, Nat.zero_le, and_self, if_true, Nat.sub_zero, Nat.le_add_right, hpos, if_false,
    std_copy, std_copy_backward, Nat.add_sub_cancel_left, ArrayPtr.index,
    ArrayPtr.ctor_size_pos h _ hcap, ArrayPtr.swap, ArrayPtr.dtor, e1, e2, e3, e4]

theorem Insert_rvalue_full [ElemType α] (h : Heap α) (a p n : Nat) (A : List α) (value : α)
    (ha : a < h.next) (hA : h.blocks a = some A) (hlen : A.length = p + n) (hpos : p + n ≠ 0) :
    Insert_rvalue h ⟨⟨⟨some a, 0⟩⟩, p + n, p + n⟩ ⟨some a, p⟩ (Ref.obj value) =
      some (((h.setBlock h.next (some (splice ((splice (default_init α (max p ((p + n) * 2))) 0
          (A.take p)).set p value) (p + 1) ((A.drop p).take n)))).setBlock a none).bump,
        ⟨⟨⟨some h.next, 0⟩⟩, p + n + 1, max p ((p + n) * 2)⟩, ⟨some h.next, p⟩) := by
  have hcap : max p ((p + n) * 2) ≠ 0 := by omega
  obtain ⟨h1, h2, h3, e1, e2, e3, e4⟩ := Insert_full_steps true h a p n A
    (default_init α (max p ((p + n) * 2))) value ha hA hlen
    (by rw [default_init_length]; omega)
  simp only [Insert_rvalue, assign_from, begin_, end_, ArrayPtr.Get, Ptr.add, Ptr.distance,
    Nat.zero_add, Nat.zero_le, and_self, if_true, Nat.sub_zero, Nat.le_add_right, hpos, if_false,
    std_copy, std_copy_backward, Nat.add_sub_cancel_left, ArrayPtr.index,
    ArrayPtr.ctor_size_pos h _ hcap, ArrayPtr.swap, ArrayPtr.dtor, e1, e2, e3, e4]

/-- The branch of `Insert` for an empty vector without capacity: the old
pointer `old` is null or the address of a live zero-length block. -/
theorem Insert_zero_steps [ElemType α] (h : Heap α) (value : α) :
    fill_loop 1 (h.setBlock h.next (some (default_init α 1))).bump ⟨some h.next, 0⟩
        (ElemType.dflt : α) = some (h.setBlock h.next (some [ElemType.dflt])).bump ∧
    (h.setBlock h.next (some [(ElemType.dflt : α)])).bump.store ⟨some h.next, 0⟩ value =
      some (h.setBlock h.next (some [value])).bump := by
  constructor
  · rw [fill_loop_eq 1 _ h.next 0 _ (default_init α 1) (by simp)
      (by rw [default_init_length])]
    simp [splice, default_init, List.range_succ, Heap.setBlock_bump]
  · rw [Heap.store_eq _ h.next 0 value [ElemType.dflt] (by simp) (by simp)]
    simp [Heap.setBlock_bump]

theorem Insert_zero_null [ElemType α] (h : Heap α) (value : α) :
    SimpleVector.Insert h ⟨⟨⟨none, 0⟩⟩, 0, 0⟩ ⟨none, 0⟩ (Ref.obj value) =
      some ((h.setBlock h.next (some [value])).bump, ⟨⟨⟨some h.next, 0⟩⟩, 1, 1⟩,
        ⟨some h.next, 0⟩) ∧
    Insert_rvalue h ⟨⟨⟨none, 0⟩⟩, 0, 0⟩ ⟨none, 0⟩ (Ref.obj value) =
      some ((h.setBlock h.next (some [value])).bump, ⟨⟨⟨some h.next, 0⟩⟩, 1, 1⟩,
        ⟨some h.next, 0⟩) := by
  obtain ⟨e1, e2⟩ := Insert_zero_steps h value
  have hcap : 0 + 1 ≠ 0 := by decide
  constructor
  · simp only [SimpleVector.Insert, assign_from, begin_, end_, ArrayPtr.Get, Ptr.add, Ptr.distance,
      Nat.zero_add, Nat.zero_le, and_self, if_true, Nat.sub_zero, Nat.le_refl,
      std_fill, ArrayPtr.index, ArrayPtr.ctor_size_pos h _ hcap, ArrayPtr.swap, ArrayPtr.dtor,
      e1, e2, Heap.delete_array_null]
  · simp only [Insert_rvalue, assign_from, begin_, end_, ArrayPtr.Get, Ptr.add, Ptr.distance,
      Nat.zero_add, Nat.zero_le, and_self, if_true, Nat.sub_zero, Nat.le_refl, Nat.lt_one_iff,
      ArrayPtr.index, ArrayPtr.ctor_size_pos h _ hcap, ArrayPtr.swap, ArrayPtr.dtor,
      e1, e2, Heap.delete_array_null]

theorem Insert_zero_block [ElemType α] (h : Heap α) (a : Nat) (A : List α) (value : α)
    (ha : a < h.next) (hA : h.blocks a = some A) :
    SimpleVector.Insert h ⟨⟨⟨some a, 0⟩⟩, 0, 0⟩ ⟨some a, 0⟩ (Ref.obj value) =
      some (((h.setBlock h.next (some [value])).setBlock a none).bump,
        ⟨⟨⟨some h.next, 0⟩⟩, 1, 1⟩, ⟨some h.next, 0⟩) ∧
    Insert_rvalue h ⟨⟨⟨some a, 0⟩⟩, 0, 0⟩ ⟨some a, 0⟩ (Ref.obj value) =
      some (((h.setBlock h.next (some [value])).setBlock a none).bump,
        ⟨⟨⟨some h.next, 0⟩⟩, 1, 1⟩, ⟨some h.next, 0⟩) := by
  obtain ⟨e1, e2⟩ := Insert_zero_steps h value
  have hne : a ≠ h.next := Nat.ne_of_lt ha
  have hcap : 0 + 1 ≠ 0 := by decide
  have e3 := Heap.delete_array_eq (h.setBlock h.next (some [value])).bump a A
    (by simp [Heap.setBlock_blocks, hne, hA])
  constructor
  · simp only [SimpleVector.Insert, assign_from, begin_, end_, ArrayPtr.Get, Ptr.add, Ptr.distance,
      Nat.zero_add, Nat.zero_le, and_self, if_true, Nat.sub_zero, Nat.le_refl,
      std_fill, ArrayPtr.index, ArrayPtr.ctor_size_pos h _ hcap, ArrayPtr.swap, ArrayPtr.dtor,
      e1, e2, e3, Heap.setBlock_bump]
  · simp only [Insert_rvalue, assign_from, begin_, end_, ArrayPtr.Get, Ptr.add, Ptr.distance,
      Nat.zero_add, Nat.zero_le, and_self, if_true, Nat.sub_zero, Nat.le_refl, Nat.lt_one_iff,
      ArrayPtr.index, ArrayPtr.ctor_size_pos h _ hcap, ArrayPtr.swap, ArrayPtr.dtor,
      e1, e2, e3, Heap.setBlock_bump]

end SV

namespace SV
variable {α : Type}
open SimpleVector

theorem room_block_length (A : List α) (p n : Nat) (value : α) (hp : p + n < A.length) :
    (room_block A p n value).length = A.length := by
  simp [room_block]; omega

theorem room_block_take (A : List α) (p n : Nat) (value : α) (hp : p + n < A.length) :
    (room_block A p n value).take (p + n + 1) =
      (A.take (p + n)).take p ++ [value] ++ (A.take (p + n)).drop p := by
  have e : room_block A p n value = (A.take p ++ [value] ++ (A.drop p).take n)
      ++ A.drop (p + n + 1) := by simp [room_block]
  rw [e, List.take_left' (by simp; omega), List.take_take, Nat.min_eq_left (Nat.le_add_right p n),
    List.drop_take]
  simp

theorem room_block_get (A : List α) (p n : Nat) (value : α) (hp : p + n < A.length) :
    (room_block A p n value)[p]? = some value := by
  have hl : (A.take p).length = p := by simp; omega
  unfold room_block
  rw [List.getElem?_append_right (by omega), hl]
  simp

theorem full_block_length (A B0 : List α) (p n : Nat) (value : α) (hlen : A.length = p + n)
    (hB0 : p + n + 1 ≤ B0.length) :
    (splice ((splice B0 0 (A.take p)).set p value) (p + 1) ((A.drop p).take n)).length
      = B0.length := by
  have h1 : (splice B0 0 (A.take p)).length = B0.length :=
    splice_length _ _ _ (by rw [List.length_take]; omega)
  rw [splice_length _ _ _ (by rw [List.length_set, h1, slice_length A p n (by omega)]; omega),
    List.length_set, h1]

theorem full_block_take (A B0 : List α) (p n : Nat) (value : α) (hlen : A.length = p + n)
    (hB0 : p + n + 1 ≤ B0.length) :
    (splice ((splice B0 0 (A.take p)).set p value) (p + 1) ((A.drop p).take n)).take (p + n + 1)
      = (A.take (p + n)).take p ++ [value] ++ (A.take (p + n)).drop p := by
  have hp : (A.take p).length = p := by rw [List.length_take]; omega
  have h1 : (splice B0 0 (A.take p)).length = B0.length :=
    splice_length _ _ _ (by rw [hp]; omega)
  have h2 : ((splice B0 0 (A.take p)).set p value).take (p + 1) = A.take p ++ [value] := by
    rw [take_set_succ _ _ _ (by rw [h1]; omega)]
    congr 1
    have := splice_zero_take B0 (A.take p) (by rw [hp]; omega)
    rw [hp] at this
    exact this
  unfold splice at h2 ⊢
  rw [List.take_left' (by rw [List.length_append, slice_length A p n (by omega)]; simp; omega),
    h2, List.take_take, Nat.min_eq_left (Nat.le_add_right p n), List.drop_take]
  simp

theorem splice_getElem?_lt (B xs : List α) (j k : Nat) (hk : k < j) (hj : j ≤ B.length) :
    (splice B j xs)[k]? = B[k]? := by
  unfold splice
  rw [List.append_assoc, List.getElem?_append_left (by rw [List.length_take]; omega),
    List.getElem?_take]
  simp [hk]

theorem full_block_get (A B0 : List α) (p n : Nat) (value : α) (hlen : A.length = p + n)
    (hB0 : p + n + 1 ≤ B0.length) :
    (splice ((splice B0 0 (A.take p)).set p value) (p + 1) ((A.drop p).take n))[p]?
      = some value := by
  have hp : (A.take p).length = p := by rw [List.length_take]; omega
  have h1 : (splice B0 0 (A.take p)).length = B0.length :=
    splice_length _ _ _ (by rw [hp]; omega)
  rw [splice_getElem?_lt _ _ _ _ (Nat.lt_succ_self p) (by rw [List.length_set, h1]; omega),
    List.getElem?_set]
  simp [h1]
  omega

end SV

namespace SV
variable {α : Type}
open SimpleVector

theorem Heap.load_block (h : Heap α) (b i : Nat) (cells : List α) (x : α)
    (hb : h.blocks b = some cells) (hx : cells[i]? = some x) : h.load ⟨some b, i⟩ = some x := by
  rw [Heap.load_eq h b i cells hb, hx]

theorem Frame_fresh (h : Heap α) (v : SimpleVector) (a : Nat) (X : List α)
    (hv : v.array_.raw_ptr_.block = some a) :
    Frame h ((h.setBlock h.next (some X)).setBlock a none).bump v := by
  refine ⟨by simp, fun c hc hca => ?_⟩
  have h1 : c ≠ a := fun e => hca (by rw [hv, e])
  simp [Heap.setBlock_blocks, h1, Nat.ne_of_lt hc]

theorem Frame_fresh_null (h : Heap α) (v : SimpleVector) (X : List α) :
    Frame h (h.setBlock h.next (some X)).bump v := by
  refine ⟨by simp, fun c hc _ => ?_⟩
  simp [Heap.setBlock_blocks, Nat.ne_of_lt hc]

theorem Frame_same (h : Heap α) (v : SimpleVector) (a : Nat) (X : Option (List α))
    (hv : v.array_.raw_ptr_.block = some a) :
    Frame h (h.setBlock a X) v := by
  refine ⟨by simp, fun c _ hca => ?_⟩
  have h1 : c ≠ a := fun e => hca (by rw [hv, e])
  simp [Heap.setBlock_blocks, h1]

theorem begin_add (blk : Option Nat) (size cap p : Nat) :
    (⟨⟨⟨blk, 0⟩⟩, size, cap⟩ : SimpleVector).begin_.add p = ⟨blk, p⟩ := by
  simp [begin_, ArrayPtr.Get, Ptr.add]

theorem Insert_spec [ElemType α] (h : Heap α) (v : SimpleVector) (p : Nat) (value : α)
    (hv : Valid h v) (hp : p ≤ v.size_) :
    ∃ h1 v1 r, SimpleVector.Insert h v (v.begin_.add p) (Ref.obj value) = some (h1, v1, r) ∧
      Insert_rvalue h v (v.begin_.add p) (Ref.obj value) = some (h1, v1, r) ∧
      Valid h1 v1 ∧ v1.size_ = v.size_ + 1 ∧
      v1.toList h1 = (v.toList h).take p ++ [value] ++ (v.toList h).drop p ∧
      r = v1.begin_.add p ∧ h1.load r = some value ∧
      v1.capacity_ = (if v.size_ = v.capacity_ then
        (if v.capacity_ = 0 then 1 else v.capacity_ * 2) else v.capacity_) ∧
      Frame h h1 v ∧ Rehomed h v v1 := by
  obtain ⟨array_, size, cap⟩ := v
  rcases hv.cases with ⟨e1, e2, e3⟩ | ⟨a, A, e1, ha, hA, hlen, hle⟩
  · simp only at e1 e2 e3 hp
    subst e1 e2 e3
    have hp0 : p = 0 := by omega
    subst hp0
    obtain ⟨i1, i2⟩ := Insert_zero_null h value
    rw [begin_add]
    refine ⟨_, _, _, i1, i2, ?_, rfl, ?_, (begin_add _ _ _ _).symm, ?_, rfl,
      Frame_fresh_null _ _ _, ?_⟩
    · exact Valid_of_block _ _ _ _ _ (by simp) (Heap.bump_setBlock_blocks_same _ _ _)
        (by simp) (by simp)
    · rw [toList_eq _ _ _ _ _ (Heap.bump_setBlock_blocks_same _ _ _), toList_null]
      simp
    · exact Heap.load_block _ _ _ _ _ (Heap.bump_setBlock_blocks_same _ _ _) (by simp)
    · right; exact ⟨h.next, Nat.le_refl _, rfl⟩
  · simp only at e1 hlen hle hp
    subst e1
    have hne : a ≠ h.next := Nat.ne_of_lt ha
    obtain ⟨n, hn⟩ := Nat.exists_eq_add_of_le hp
    subst hn
    rw [begin_add]
    rcases Nat.lt_or_ge (p + n) cap with hlt | hge
    · have i1 := Insert_room h a p n cap A value hA hlen hlt
      have i2 := Insert_rvalue_room h a p n cap A value hA hlen hlt
      refine ⟨_, _, _, i1, i2, ?_, rfl, ?_, (begin_add _ _ _ _).symm, ?_, ?_,
        Frame_same _ _ _ _ rfl, Or.inl rfl⟩
      · exact Valid_of_block _ _ _ _ _ (by simpa using ha) (Heap.setBlock_blocks_same _ _ _)
          (by rw [room_block_length _ _ _ _ (by omega)]; exact hlen) (by omega)
      · rw [toList_eq _ _ _ _ _ (Heap.setBlock_blocks_same _ _ _), toList_eq _ _ _ _ _ hA]
        exact room_block_take A p n value (by omega)
      · exact Heap.load_block _ _ _ _ _ (Heap.setBlock_blocks_same _ _ _)
          (room_block_get A p n value (by omega))
      · simp [Nat.ne_of_lt hlt]
    · have hsc : p + n = cap := Nat.le_antisymm hle hge
      subst hsc
      by_cases hz : p + n = 0
      · have hp0 : p = 0 := by omega
        have hn0 : n = 0 := by omega
        subst hp0 hn0
        obtain ⟨i1, i2⟩ := Insert_zero_block h a A value ha hA
        have hA0 : A = [] := List.eq_nil_of_length_eq_zero hlen
        subst hA0
        refine ⟨_, _, _, i1, i2, ?_, rfl, ?_, (begin_add _ _ _ _).symm, ?_, rfl,
          Frame_fresh _ _ _ _ rfl, ?_⟩
        · exact Valid_of_block _ _ _ _ _ (by simp) (Heap.blocks_fresh_after_free _ _ _ _ hne)
            (by simp) (by simp)
        · rw [toList_eq _ _ _ _ _ (Heap.blocks_fresh_after_free _ _ _ _ hne),
            toList_eq _ _ _ _ _ hA]
          simp
        · exact Heap.load_block _ _ _ _ _ (Heap.blocks_fresh_after_free _ _ _ _ hne) (by simp)
        · right; exact ⟨h.next, Nat.le_refl _, rfl⟩
      · have i1 := Insert_full h a p n A value ha hA hlen hz
        have i2 := Insert_rvalue_full h a p n A value ha hA hlen hz
        have hB0 : p + n + 1 ≤ (default_init α (max p ((p + n) * 2))).length := by
          rw [default_init_length]; omega
        refine ⟨_, _, _, i1, i2, ?_, rfl, ?_, (begin_add _ _ _ _).symm, ?_, ?_,
          Frame_fresh _ _ _ _ rfl, ?_⟩
        · exact Valid_of_block _ _ _ _ _ (by simp) (Heap.blocks_fresh_after_free _ _ _ _ hne)
            (by rw [full_block_length A _ p n value hlen hB0, default_init_length]) (by omega)
        · rw [toList_eq _ _ _ _ _ (Heap.blocks_fresh_after_free _ _ _ _ hne),
            toList_eq _ _ _ _ _ hA]
          exact full_block_take A _ p n value hlen hB0
        · exact Heap.load_block _ _ _ _ _ (Heap.blocks_fresh_after_free _ _ _ _ hne)
            (full_block_get A _ p n value hlen hB0)
        · simp only [if_true, hz, if_false]; omega
        · right; exact ⟨h.next, Nat.le_refl _, rfl⟩

end SV

namespace SV
variable {α : Type}
open SimpleVector

/-- The loop of `Erase` on a block: the cells `(p, p+n]` move one place down. -/
theorem Erase_loop_shift [ElemType α] (n : Nat) (h : Heap α) (a p fuel : Nat) (A : List α)
    (ha : h.blocks a = some A) (hp : p + n + 1 ≤ A.length) (hf : n ≤ fuel) :
    ∃ R : List α, Erase_loop ⟨⟨some a, 0⟩⟩ (p + n + 1) fuel h p = some (h.setBlock a (some R)) ∧
      R.length = A.length ∧ R.take (p + n) = A.take p ++ (A.drop (p + 1)).take n := by
  induction n generalizing h A p fuel with
  | zero =>
    refine ⟨A, ?_, rfl, by simp⟩
    unfold Erase_loop
    simp only [Nat.add_zero, ne_eq, not_true_eq_false, if_false]
    rw [Heap.setBlock_self h a _ ha]
  | succ n ih =>
    obtain ⟨f, hf1⟩ : ∃ f, fuel = f + 1 := ⟨fuel - 1, by omega⟩
    subst hf1
    have hs := assign_elem_same true h a (p + 1) p A (by omega) ha (by omega) (by omega)
    obtain ⟨R, hR, hlen, htake⟩ := ih (h.setBlock a (some (leave true (A.set p A[p + 1]) (p + 1))))
      (p + 1) f _ (Heap.setBlock_blocks_same _ _ _)
      (by rw [leave_length, List.length_set]; omega) (by omega)
    have e : p + 1 + n + 1 = p + (n + 1) + 1 := by omega
    rw [e] at hR
    refine ⟨R, ?_, ?_, ?_⟩
    · unfold Erase_loop
      have hne : p + 1 ≠ p + (n + 1) + 1 := by omega
      simp only [ne_eq, hne, not_false_eq_true, if_true, ArrayPtr.index, Ptr.add, Nat.zero_add,
        hs, hR, Heap.setBlock_setBlock]
    · rw [hlen, leave_length, List.length_set]
    · have e2 : p + (n + 1) = p + 1 + n := by omega
      rw [e2, htake, leave_take true _ _ _ (Nat.le_refl _), take_set_succ _ _ _ (by omega),
        leave_drop true _ _ _ (by omega), List.drop_set_of_lt _ _ (by omega),
        slice_cons A (p + 1) n (by omega)]
      simp

theorem eraseIdx_take (A : List α) (p n : Nat) :
    (A.take (p + n + 1)).eraseIdx p = A.take p ++ (A.drop (p + 1)).take n := by
  rw [List.eraseIdx_eq_take_drop_succ, List.take_take, List.drop_take]
  have e1 : min p (p + n + 1) = p := by omega
  have e2 : p + n + 1 - (p + 1) = n := by omega
  rw [e1, e2]

theorem Erase_eval [ElemType α] (h : Heap α) (a p n cap : Nat) (A : List α)
    (hA : h.blocks a = some A) (hlen : A.length = cap) (hle : p + n + 1 ≤ cap) :
    ∃ R : List α, Erase h ⟨⟨⟨some a, 0⟩⟩, p + n + 1, cap⟩ ⟨some a, p⟩ =
        some (h.setBlock a (some R), ⟨⟨⟨some a, 0⟩⟩, p + n, cap⟩, ⟨some a, p⟩) ∧
      R.length = A.length ∧ R.take (p + n) = A.take p ++ (A.drop (p + 1)).take n := by
  obtain ⟨R, hR, hRlen, htake⟩ := Erase_loop_shift n h a p (p + n + 1) A hA (by omega) (by omega)
  refine ⟨R, ?_, hRlen, htake⟩
  have h1 : p ≤ p + n + 1 := by omega
  simp only [Erase, begin_, end_, ArrayPtr.Get, Ptr.add, Ptr.distance, Nat.zero_add,
    Nat.zero_le, and_self, if_true, Nat.sub_zero, h1, hR, ArrayPtr.index, ne_eq,
    Nat.add_one_ne_zero, not_false_eq_true, Nat.add_sub_cancel]

end SV

namespace SV
variable {α : Type}
open SimpleVector

theorem Erase_spec [ElemType α] (h : Heap α) (v : SimpleVector) (p : Nat)
    (hv : Valid h v) (hp : p < v.size_) :
    ∃ h1 v1 r, Erase h v (v.begin_.add p) = some (h1, v1, r) ∧ Valid h1 v1 ∧
      v1.toList h1 = (v.toList h).eraseIdx p ∧ v1.size_ + 1 = v.size_ ∧
      v1.capacity_ = v.capacity_ ∧ r = v1.begin_.add p ∧
      (p + 1 < v.size_ → h1.load r = (v.toList h)[p + 1]?) ∧
      Frame h h1 v ∧ Rehomed h v v1 := by
  obtain ⟨array_, size, cap⟩ := v
  rcases hv.cases with ⟨e1, e2, e3⟩ | ⟨a, A, e1, ha, hA, hlen, hle⟩
  · simp only at e3 hp
    omega
  · simp only at e1 hlen hle hp
    subst e1
    obtain ⟨n, hn⟩ : ∃ n, size = p + n + 1 := ⟨size - p - 1, by omega⟩
    subst hn
    obtain ⟨R, hR, hRlen, htake⟩ := Erase_eval h a p n cap A hA hlen hle
    rw [begin_add]
    refine ⟨_, _, _, hR, ?_, ?_, rfl, rfl, (begin_add _ _ _ _).symm, ?_,
      Frame_same _ _ _ _ rfl, Or.inl rfl⟩
    · exact Valid_of_block _ _ _ _ _ (by simpa using ha) (Heap.setBlock_blocks_same _ _ _)
        (by rw [hRlen, hlen]) (by omega)
    · rw [toList_eq _ _ _ _ _ (Heap.setBlock_blocks_same _ _ _), toList_eq _ _ _ _ _ hA,
        htake, eraseIdx_take]
    · intro hp1
      have hn : 0 < n := by
        have : p + 1 < p + n + 1 := hp1
        omega
      clear hp1
      rw [toList_eq _ _ _ _ _ hA, Heap.load_eq _ a p R (Heap.setBlock_blocks_same _ _ _)]
      have h1 : R[p]? = (R.take (p + n))[p]? := by
        rw [List.getElem?_take, if_pos (by omega)]
      have hl : (A.take p).length = p := by rw [List.length_take]; omega
      rw [h1, htake, List.getElem?_append_right (by omega), hl, List.getElem?_take,
        List.getElem?_take]
      have h2 : p - p < n := by omega
      have h3 : p + 1 < p + n + 1 := by omega
      simp [h2, h3]
      omega

/-- C3: on a vector satisfying the representation invariant, with logical
sequence `s`, `Erase(begin() + p)` for `p < size` returns (the loop ends
within `size` iterations), makes the logical sequence `s` without its element
of index `p`, decreases the size by exactly 1, keeps the capacity, and returns
the position of index `p`, which holds the old element of index `p + 1` when
there was one. -/
theorem C3_Erase_at_position [ElemType α] (h : Heap α) (v : SimpleVector) (p : Nat)
    (hv : Valid h v) (hp : p < v.GetSize) :
    ∃ h1 v1 r, Erase h v (v.begin_.add p) = some (h1, v1, r) ∧
      v1.toList h1 = (v.toList h).eraseIdx p ∧ v1.GetSize + 1 = v.GetSize ∧
      v1.GetCapacity = v.GetCapacity ∧ r = v1.begin_.add p ∧
      (p + 1 < v.GetSize → h1.load r = (v.toList h)[p + 1]?) ∧ Valid h1 v1 := by
  obtain ⟨h1, v1, r, e, hv1, hl, hs, hc, hr, hload, -⟩ := Erase_spec h v p hv hp
  exact ⟨h1, v1, r, e, hl, hs, hc, hr, hload, hv1⟩

/-- Witness for C3: `Erase` at position 0 of `[1, 9, 2, 3]` gives `[9, 2, 3]`, size 3. -/
theorem C3_Erase_at_position_witness :
    Valid (heap_one [1, 9, 2, 3]) (vec_zero 4 4) ∧ 0 < (vec_zero 4 4).GetSize ∧
    ∃ h1 v1 r, Erase (heap_one [1, 9, 2, 3]) (vec_zero 4 4) ((vec_zero 4 4).begin_.add 0)
        = some (h1, v1, r) ∧
      v1.toList h1 = [9, 2, 3] ∧ v1.GetSize = 3 ∧ h1.load r = some 9 := by
  refine ⟨by decide, by decide, ?_⟩
  obtain ⟨h1, v1, r, e, hl, hs, -, -, hload, -⟩ :=
    C3_Erase_at_position (heap_one [1, 9, 2, 3]) (vec_zero 4 4) 0 (by decide) (by decide)
  refine ⟨h1, v1, r, e, hl, ?_, hload (by decide)⟩
  have : v1.GetSize + 1 = 4 := hs
  omega

end SV

namespace SV
variable {α : Type}
open SimpleVector

theorem toList_getElem? (h : Heap α) (v : SimpleVector) (i : Nat) (hv : Valid h v)
    (hi : i < v.size_) :
    ∃ x, h.load (v.array_.index i) = some x ∧ (v.toList h)[i]? = some x := by
  obtain ⟨array_, size, cap⟩ := v
  rcases hv.cases with ⟨e1, e2, e3⟩ | ⟨a, A, e1, ha, hA, hlen, hle⟩
  · simp only at e3 hi
    omega
  · simp only at e1 hlen hle hi
    subst e1
    have hiA : i < A.length := by omega
    refine ⟨A[i], ?_, ?_⟩
    · simp only [ArrayPtr.index, Ptr.add, Nat.zero_add]
      rw [Heap.load_eq h a i A hA]
      exact List.getElem?_eq_getElem hiA
    · rw [toList_eq _ _ _ _ _ hA, List.getElem?_take, if_pos hi]
      exact List.getElem?_eq_getElem hiA

/-- C4: `At(i)` (both the const and the non-const overload have this body)
throws `std::out_of_range` if and only if `i >= GetSize()`; for `i < GetSize()`
it does not throw and returns the reference `array_[i]`, which on a vector
satisfying the representation invariant is the element of logical index `i`;
in both cases the heap and the vector (size, capacity, elements) are unchanged. -/
theorem C4_At_checked (h : Heap α) (v : SimpleVector) (i : Nat) :
    ((At h v i).2 = Outcome.out_of_range ↔ i ≥ v.GetSize) ∧
    (i < v.GetSize → (At h v i).2 = Outcome.ok (v.array_.index i)) ∧
    (Valid h v → i < v.GetSize → ∃ r x, (At h v i).2 = Outcome.ok r ∧ h.load r = some x ∧
      (v.toList h)[i]? = some x) ∧
    (At h v i).1 = (h, v) := by
  refine ⟨?_, ?_, ?_, ?_⟩
  · by_cases hi : i ≥ v.size_
    · simp [At, GetSize, hi]
    · simp [At, GetSize, hi]
  · intro hi
    have hi1 : ¬ i ≥ v.size_ := Nat.not_le.mpr hi
    simp [At, hi1]
  · intro hv hi
    have hi1 : ¬ i ≥ v.size_ := Nat.not_le.mpr hi
    obtain ⟨x, hx1, hx2⟩ := toList_getElem? h v i hv hi
    exact ⟨v.array_.index i, x, by simp [At, hi1], hx1, hx2⟩
  · by_cases hi : i ≥ v.size_
    · simp [At, hi]
    · simp [At, hi]

/-- Witness for C4: index 1 of `[1, 9, 2]` (capacity 4) is 9, index 3 throws. -/
theorem C4_At_checked_witness :
    Valid (heap_one [1, 9, 2, 0]) (vec_zero 3 4) ∧
    (∃ r, (At (heap_one [1, 9, 2, 0]) (vec_zero 3 4) 1).2 = Outcome.ok r ∧
      (heap_one [1, 9, 2, 0]).load r = some 9) ∧
    (At (heap_one [1, 9, 2, 0]) (vec_zero 3 4) 3).2 = Outcome.out_of_range := by
  refine ⟨by decide, ?_, ?_⟩
  · obtain ⟨r, x, e, hload, hx⟩ :=
      (C4_At_checked (heap_one [1, 9, 2, 0]) (vec_zero 3 4) 1).2.2.1 (by decide) (by decide)
    have hx9 : x = 9 := by
      have h9 : ((vec_zero 3 4).toList (heap_one [1, 9, 2, 0]))[1]? = some 9 := by decide
      rw [h9] at hx
      exact (Option.some.inj hx).symm
    exact ⟨r, e, by rw [hload, hx9]⟩
  · exact (C4_At_checked (heap_one [1, 9, 2, 0]) (vec_zero 3 4) 3).1.mpr (by decide)

end SV

namespace SV
variable {α : Type}
open SimpleVector

theorem leave_fwd_false [ElemType α] (n : Nat) (A : List α) (i : Nat) :
    leave_fwd false n A i = A := by
  induction n generalizing A i with
  | zero => rfl
  | succ n ih => simp [leave_fwd, leave, ih]

theorem leave_bwd_false [ElemType α] (n : Nat) (A : List α) (i : Nat) :
    leave_bwd false n A i = A := by
  induction n generalizing A i with
  | zero => rfl
  | succ n ih => simp [leave_bwd, leave, ih]

theorem Heap.load_of_blocks_eq (h h1 : Heap α) (b o : Nat) (e : h1.blocks b = h.blocks b) :
    h1.load ⟨some b, o⟩ = h.load ⟨some b, o⟩ := by
  simp [Heap.load, e]

theorem assign_from_cell_false [ElemType α] (h : Heap α) (d q : Ptr) (y : α)
    (hl : h.load q = some y) :
    assign_from false h d (Ref.cell q) = assign_from false h d (Ref.obj y) := by
  simp only [assign_from, assign_elem, hl]
  cases h.store d y <;> simp

/-- The reallocating branch of `Insert(ConstIterator, const Type&)` reads its
argument before any cell of a live block is overwritten: a reference to a
cell holding `x` inserts `x`. -/
theorem Insert_cell_full [ElemType α] (h : Heap α) (a p n : Nat) (A : List α) (b o : Nat) (x : α)
    (ha : a < h.next) (hA : h.blocks a = some A) (hlen : A.length = p + n) (hpos : p + n ≠ 0)
    (hb : b < h.next) (hx : h.load ⟨some b, o⟩ = some x) :
    SimpleVector.Insert h ⟨⟨⟨some a, 0⟩⟩, p + n, p + n⟩ ⟨some a, p⟩ (Ref.cell ⟨some b, o⟩) =
      SimpleVector.Insert h ⟨⟨⟨some a, 0⟩⟩, p + n, p + n⟩ ⟨some a, p⟩ (Ref.obj x) := by
  have hcap : max p ((p + n) * 2) ≠ 0 := by omega
  have hne : a ≠ h.next := Nat.ne_of_lt ha
  have hbne : b ≠ h.next := Nat.ne_of_lt hb
  have hc1 := copy_loop_cross false p
    (h.setBlock h.next (some (default_init α (max p ((p + n) * 2))))).bump a h.next 0 0 A
    (default_init α (max p ((p + n) * 2))) hne
    (by simp [Heap.setBlock_blocks, hne, hA]) (by simp) (by omega)
    (by rw [default_init_length]; omega)
  rw [leave_fwd_false] at hc1
  have hl := Heap.load_of_blocks_eq h _ b o
    (show ((((h.setBlock h.next (some (default_init α (max p ((p + n) * 2))))).bump.setBlock h.next
      (some (splice (default_init α (max p ((p + n) * 2))) 0 ((A.drop 0).take p)))).setBlock a
        (some A)).blocks b = h.blocks b) by
      simp only [Heap.setBlock_blocks, Heap.bump_blocks, hbne, if_false]
      split_ifs with c1
      · rw [c1, hA]
      · rfl)
  rw [hx] at hl
  simp only [SimpleVector.Insert, begin_, end_, ArrayPtr.Get, Ptr.add, Ptr.distance,
    Nat.zero_add, Nat.zero_le, and_self, if_true, Nat.sub_zero, Nat.le_add_right, hpos, if_false,
    std_copy, Nat.add_sub_cancel_left, ArrayPtr.index,
    ArrayPtr.ctor_size_pos h _ hcap, hc1, assign_from_cell_false _ _ _ x hl]

/-- The branch of `Insert(ConstIterator, const Type&)` for a vector without
capacity: a reference to a cell holding `x` inserts `x`. -/
theorem Insert_cell_zero [ElemType α] (h : Heap α) (blk : Option Nat) (b o : Nat) (x : α)
    (hb : b < h.next) (hx : h.load ⟨some b, o⟩ = some x) :
    SimpleVector.Insert h ⟨⟨⟨blk, 0⟩⟩, 0, 0⟩ ⟨blk, 0⟩ (Ref.cell ⟨some b, o⟩) =
      SimpleVector.Insert h ⟨⟨⟨blk, 0⟩⟩, 0, 0⟩ ⟨blk, 0⟩ (Ref.obj x) := by
  obtain ⟨e1, -⟩ := Insert_zero_steps h x
  have hbne : b ≠ h.next := Nat.ne_of_lt hb
  have hcap : 0 + 1 ≠ 0 := by decide
  have hl := Heap.load_of_blocks_eq h (h.setBlock h.next (some [(ElemType.dflt : α)])).bump b o
    (by simp [Heap.setBlock_blocks, hbne])
  rw [hx] at hl
  cases blk <;>
  simp only [SimpleVector.Insert, begin_, end_, ArrayPtr.Get, Ptr.add, Ptr.distance,
    Nat.zero_add, Nat.zero_le, and_self, if_true, Nat.sub_zero, Nat.le_refl,
    std_fill, ArrayPtr.index, ArrayPtr.ctor_size_pos h _ hcap, e1,
    assign_from_cell_false _ _ _ x hl]

/-- The branch of `Insert(ConstIterator, const Type&)` that does not
reallocate reads its argument after the elements from `pos` on have been
shifted: a reference to a cell holding `x` inserts the value `y` the cell
holds after the shift.  That is `x` unless the cell is one of the shifted
ones, where it is the element that was in front of it. -/
theorem Insert_cell_room [ElemType α] (h : Heap α) (a p n cap : Nat) (A : List α) (b o : Nat)
    (x : α) (hA : h.blocks a = some A) (hlen : A.length = cap) (hlt : p + n < cap)
    (hx : h.load ⟨some b, o⟩ = some x) :
    ∃ y, SimpleVector.Insert h ⟨⟨⟨some a, 0⟩⟩, p + n, cap⟩ ⟨some a, p⟩ (Ref.cell ⟨some b, o⟩) =
        SimpleVector.Insert h ⟨⟨⟨some a, 0⟩⟩, p + n, cap⟩ ⟨some a, p⟩ (Ref.obj y) ∧
      (b ≠ a ∨ o < p ∨ p + n < o → y = x) ∧
      (b = a → p < o → o ≤ p + n → A[o - 1]? = some y) := by
  obtain ⟨R, hR, hRlen, htake, hdrop⟩ :=
    copy_backward_loop_shift false n h a p A hA (by omega)
  have hne : p + n ≠ cap := Nat.ne_of_lt hlt
  have key : ∀ y, (h.setBlock a (some R)).load ⟨some b, o⟩ = some y →
      SimpleVector.Insert h ⟨⟨⟨some a, 0⟩⟩, p + n, cap⟩ ⟨some a, p⟩ (Ref.cell ⟨some b, o⟩) =
        SimpleVector.Insert h ⟨⟨⟨some a, 0⟩⟩, p + n, cap⟩ ⟨some a, p⟩ (Ref.obj y) := by
    intro y hl
    simp only [SimpleVector.Insert, begin_, end_, ArrayPtr.Get, Ptr.add, Ptr.distance,
      Nat.zero_add, Nat.zero_le, and_self, if_true, Nat.sub_zero, Nat.le_add_right, hne, if_false,
      std_copy_backward, Nat.add_sub_cancel_left, hR, ArrayPtr.index,
      assign_from_cell_false _ _ _ y hl]
  by_cases hba : b = a
  · subst hba
    rw [Heap.load_eq h b o A hA] at hx
    have ho : o < A.length := by
      rcases Nat.lt_or_ge o A.length with c | c
      · exact c
      · rw [List.getElem?_eq_none c] at hx; cases hx
    have hRo : (h.setBlock b (some R)).load ⟨some b, o⟩ = R[o]? :=
      Heap.load_eq _ b o R (Heap.setBlock_blocks_same _ _ _)
    have hoR : o < R.length := by omega
    have hRget : R[o]? = some R[o] := List.getElem?_eq_getElem hoR
    refine ⟨R[o], key _ (by rw [hRo, hRget]), fun hc => ?_, fun _ h1 h2 => ?_⟩
    · have : some R[o] = some x := by
        rw [← hRget, ← hx]
        rcases hc with c | c | c
        · exact absurd rfl c
        · have e1 : (R.take p)[o]? = (A.take p)[o]? := by rw [htake]
          rwa [List.getElem?_take_of_lt c, List.getElem?_take_of_lt c] at e1
        · have e1 : (R.drop (p + 1))[o - (p + 1)]? =
              ((A.drop p).take n ++ A.drop (p + n + 1))[o - (p + 1)]? := by rw [hdrop]
          rw [List.getElem?_drop, List.getElem?_append_right (by
            rw [List.length_take, List.length_drop]; omega), List.getElem?_drop] at e1
          rw [List.length_take, List.length_drop] at e1
          have i1 : p + 1 + (o - (p + 1)) = o := by omega
          have i2 : p + n + 1 + (o - (p + 1) - min n (A.length - p)) = o := by omega
          rwa [i1, i2] at e1
      exact Option.some.inj this
    · have e1 : (R.drop (p + 1))[o - (p + 1)]? =
          ((A.drop p).take n ++ A.drop (p + n + 1))[o - (p + 1)]? := by rw [hdrop]
      rw [List.getElem?_drop, List.getElem?_append_left (by
        rw [List.length_take, List.length_drop]; omega), List.getElem?_take_of_lt (by omega),
        List.getElem?_drop] at e1
      have i1 : p + 1 + (o - (p + 1)) = o := by omega
      have i2 : p + (o - (p + 1)) = o - 1 := by omega
      rw [i1, i2, hRget] at e1
      exact e1.symm
  · have hl := Heap.load_of_blocks_eq h (h.setBlock a (some R)) b o
      (Heap.setBlock_blocks_ne h a b _ hba)
    rw [hx] at hl
    exact ⟨x, key x hl, fun _ => rfl, fun e => absurd e hba⟩

/-- `Insert(ConstIterator, const Type&)` with an argument that refers to a
cell of a live block, holding `x` at the call: the call is the call with an
object holding `y`, the value the cell holds when the code assigns from it.
That is `x` when the vector is full (the reallocating branches), when the
cell is in another block, in front of `pos` or behind the last element; when
the cell is one of the shifted ones, `y` is the element in front of it. -/
theorem Insert_cell_spec [ElemType α] (h : Heap α) (v : SimpleVector) (p b o : Nat) (x : α)
    (hv : Valid h v) (hp : p ≤ v.size_) (hb : b < h.next)
    (hx : h.load ⟨some b, o⟩ = some x) :
    ∃ y, SimpleVector.Insert h v (v.begin_.add p) (Ref.cell ⟨some b, o⟩) =
        SimpleVector.Insert h v (v.begin_.add p) (Ref.obj y) ∧
      (v.size_ = v.capacity_ ∨ v.array_.raw_ptr_.block ≠ some b ∨ o < p ∨ v.size_ < o →
        y = x) ∧
      (v.size_ < v.capacity_ → v.array_.raw_ptr_.block = some b → p < o → o ≤ v.size_ →
        (v.toList h)[o - 1]? = some y) := by
  obtain ⟨array_, size, cap⟩ := v
  rcases hv.cases with ⟨e1, e2, e3⟩ | ⟨a, A, e1, ha, hA, hlen, hle⟩
  · simp only at e1 e2 e3 hp
    subst e1 e2 e3
    have hp0 : p = 0 := by omega
    subst hp0
    rw [begin_add]
    exact ⟨x, Insert_cell_zero h none b o x hb hx, fun _ => rfl,
      fun hc => absurd hc (Nat.lt_irrefl 0)⟩
  · simp only at e1 hlen hle hp
    subst e1
    obtain ⟨n, hn⟩ := Nat.exists_eq_add_of_le hp
    subst hn
    rw [begin_add]
    rcases Nat.lt_or_ge (p + n) cap with hlt | hge
    · obtain ⟨y, e, h1, h2⟩ := Insert_cell_room h a p n cap A b o x hA hlen hlt hx
      refine ⟨y, e, fun hc => ?_, fun _ hba hpo hos => ?_⟩
      · simp only at hc
        rcases hc with c | c | c | c
        · omega
        · exact h1 (Or.inl (fun e => c (by rw [e])))
        · exact h1 (Or.inr (Or.inl c))
        · exact h1 (Or.inr (Or.inr c))
      · simp only at hba hpo hos
        have hba1 : b = a := (Option.some.inj hba).symm
        rw [toList_eq _ _ _ _ _ hA, List.getElem?_take_of_lt (by omega)]
        exact h2 hba1 hpo hos
    · have hsc : p + n = cap := Nat.le_antisymm hle hge
      subst hsc
      refine ⟨x, ?_, fun _ => rfl, fun hc => absurd hc (Nat.lt_irrefl _)⟩
      by_cases hz : p + n = 0
      · have hp0 : p = 0 := by omega
        have hn0 : n = 0 := by omega
        subst hp0 hn0
        exact Insert_cell_zero h (some a) b o x hb hx
      · exact Insert_cell_full h a p n A b o x ha hA hlen hz hb hx

/-- The defect in general: on a vector with room, `Insert(begin() + p, v[k])`
for an element `k` behind `pos` (`p < k < size`) inserts element `k - 1`,
the value the cell of index `k` holds after the shift, not element `k`. -/
theorem Insert_of_element_behind_pos [ElemType α] (h : Heap α) (v : SimpleVector) (p k : Nat)
    (q : Ptr) (hv : Valid h v) (hroom : v.size_ < v.capacity_) (hpk : p < k)
    (hk : v.operator_index k = some q) :
    ∃ y h1 v1 r, (v.toList h)[k - 1]? = some y ∧
      SimpleVector.Insert h v (v.begin_.add p) (Ref.cell q) = some (h1, v1, r) ∧
      v1.toList h1 = (v.toList h).take p ++ [y] ++ (v.toList h).drop p ∧
      h1.load r = some y := by
  have hks : k < v.size_ := by
    unfold SimpleVector.operator_index at hk
    split at hk
    · assumption
    · cases hk
  have hq : q = v.array_.index k := by
    unfold SimpleVector.operator_index at hk
    rw [if_pos hks] at hk
    exact (Option.some.inj hk).symm
  obtain ⟨x, hx, -⟩ := toList_getElem? h v k hv hks
  obtain ⟨array_, size, cap⟩ := v
  rcases hv.cases with ⟨e1, e2, e3⟩ | ⟨a, A, e1, ha, hA, hlen, hle⟩
  · simp only at e3 hks
    omega
  · simp only at e1 hks hroom
    subst e1
    have hq1 : q = ⟨some a, k⟩ := by
      rw [hq]; simp [ArrayPtr.index, Ptr.add]
    subst hq1
    have hx1 : h.load ⟨some a, k⟩ = some x := by
      rw [← hx]; simp [ArrayPtr.index, Ptr.add]
    obtain ⟨y, e, -, hy⟩ := Insert_cell_spec h ⟨⟨⟨some a, 0⟩⟩, size, cap⟩ p a k x hv
      (by simp only; omega) ha hx1
    obtain ⟨h1, v1, r, i1, -, -, -, hl, -, hload, -⟩ :=
      Insert_spec h ⟨⟨⟨some a, 0⟩⟩, size, cap⟩ p y hv (by simp only; omega)
    exact ⟨y, h1, v1, r, hy hroom rfl hpk (by simp only; omega), e.trans i1, hl, hload⟩

end SV

namespace SV
variable {α : Type}
open SimpleVector

/-- When the argument is an object of its own (not an element in the free
store), `Insert(begin() + p, value)` for `p <= size` (either overload,
whichever branch is taken) returns, makes the logical sequence
`s.take p ++ [value] ++ s.drop p`, increases the size by exactly 1, and returns
the position of index `p`, which holds `value`. -/
theorem Insert_of_object_at_position [ElemType α] (h : Heap α) (v : SimpleVector) (p : Nat)
    (value : α) (hv : Valid h v) (hp : p ≤ v.GetSize) :
    (∃ h1 v1 r, SimpleVector.Insert h v (v.begin_.add p) (Ref.obj value) = some (h1, v1, r) ∧
      v1.toList h1 = (v.toList h).take p ++ [value] ++ (v.toList h).drop p ∧
      v1.GetSize = v.GetSize + 1 ∧ r = v1.begin_.add p ∧ h1.load r = some value ∧
      Valid h1 v1) ∧
    (∃ h1 v1 r, Insert_rvalue h v (v.begin_.add p) (Ref.obj value) = some (h1, v1, r) ∧
      v1.toList h1 = (v.toList h).take p ++ [value] ++ (v.toList h).drop p ∧
      v1.GetSize = v.GetSize + 1 ∧ r = v1.begin_.add p ∧ h1.load r = some value ∧
      Valid h1 v1) := by
  obtain ⟨h1, v1, r, e1, e2, hv1, hs, hl, hr, hload, -⟩ := Insert_spec h v p value hv hp
  exact ⟨⟨h1, v1, r, e1, hl, hs, hr, hload, hv1⟩, ⟨h1, v1, r, e2, hl, hs, hr, hload, hv1⟩⟩

/-- The spec's example: `[1, 2, 3]` with `Insert` of 9 at position 1 gives
`[1, 9, 2, 3]`, size 4 (the vector is full, so this is the reallocating branch). -/
theorem Insert_example :
    (SimpleVector.Insert (heap_one [1, 2, 3]) (vec_zero 3 3) ((vec_zero 3 3).begin_.add 1)
        (Ref.obj 9)).map (fun r => (r.2.1.toList r.1, r.2.1.GetSize)) =
      some ([1, 9, 2, 3], 4) := by
  decide

/-- C2 (defect in the code): `Insert` takes its argument by reference and, in
the branch that does not reallocate, assigns from it after
`std::copy_backward` / `std::move_backward` has shifted the elements.  On
`v = [1, 2, 3]` with capacity 6, `v.Insert(v.begin(), v[2])` passes a
reference to the cell of index 2, which holds 3 at the call and 2 after the
shift: both overloads yield `[2, 1, 2, 3]` and return a position holding 2,
where inserting the value 3 at position 0 is `[3, 1, 2, 3]` with the position
holding 3 (what the same call does for an argument that is an object of its
own).  The reallocating branch of the `const Type&` overload reads the
argument before any element is overwritten: on the full vector `[1, 2, 3]`
(capacity 3) the same call yields `[3, 1, 2, 3]`. -/
theorem C2_Insert_reads_argument_after_shift :
    (vec_zero 3 6).toList (heap_one [1, 2, 3, 0, 0, 0]) = [1, 2, 3] ∧
    (vec_zero 3 6).operator_index 2 = some ⟨some 0, 2⟩ ∧
    (heap_one [1, 2, 3, 0, 0, 0]).load ⟨some 0, 2⟩ = some 3 ∧
    (SimpleVector.Insert (heap_one [1, 2, 3, 0, 0, 0]) (vec_zero 3 6) (vec_zero 3 6).begin_
        (Ref.cell ⟨some 0, 2⟩)).map
        (fun r => (r.2.1.toList r.1, r.2.1.GetSize, r.2.2, r.1.load r.2.2)) =
      some ([2, 1, 2, 3], 4, ⟨some 0, 0⟩, some 2) ∧
    (Insert_rvalue (heap_one [1, 2, 3, 0, 0, 0]) (vec_zero 3 6) (vec_zero 3 6).begin_
        (Ref.cell ⟨some 0, 2⟩)).map
        (fun r => (r.2.1.toList r.1, r.2.1.GetSize, r.2.2, r.1.load r.2.2)) =
      some ([2, 1, 2, 3], 4, ⟨some 0, 0⟩, some 2) ∧
    (SimpleVector.Insert (heap_one [1, 2, 3, 0, 0, 0]) (vec_zero 3 6) (vec_zero 3 6).begin_
        (Ref.obj 3)).map
        (fun r => (r.2.1.toList r.1, r.2.1.GetSize, r.2.2, r.1.load r.2.2)) =
      some ([3, 1, 2, 3], 4, ⟨some 0, 0⟩, some 3) ∧
    (SimpleVector.Insert (heap_one [1, 2, 3]) (vec_zero 3 3) (vec_zero 3 3).begin_
        (Ref.cell ⟨some 0, 2⟩)).map
        (fun r => (r.2.1.toList r.1, r.2.1.GetSize, r.2.2, r.1.load r.2.2)) =
      some ([3, 1, 2, 3], 4, ⟨some 1, 0⟩, some 3) := by
  refine ⟨by decide, by decide, by decide, by decide, by decide, by decide, by decide⟩

end SV

namespace SV
variable {α : Type}
open SimpleVector

theorem Resize_shrink [ElemType α] (h : Heap α) (v : SimpleVector) (new_size : Nat)
    (hle : new_size ≤ v.size_) :
    Resize h v new_size = some (h, { v with size_ := new_size }) := by
  have : ¬ v.size_ < new_size := Nat.not_lt.mpr hle
  simp [Resize, this]

theorem Resize_room [ElemType α] (h : Heap α) (a size k cap : Nat) (A : List α)
    (hA : h.blocks a = some A) (hlen : A.length = cap) (hk : 0 < k) (hle : size + k ≤ cap) :
    Resize h ⟨⟨⟨some a, 0⟩⟩, size, cap⟩ (size + k) =
      some (h.setBlock a (some (splice A size (List.replicate k (ElemType.dflt : α)))),
        ⟨⟨⟨some a, 0⟩⟩, size + k, cap⟩) := by
  have h1 : size < size + k := by omega
  have hf := fill_loop_eq k h a size (ElemType.dflt : α) A hA (by omega)
  simp only [Resize, h1, if_true, hle, ArrayPtr.Get, Ptr.add, Nat.zero_add,
    Nat.add_sub_cancel_left, hf]

theorem Resize_full_null [ElemType α] (h : Heap α) (k : Nat) (hk : 0 < k) :
    Resize h ⟨⟨⟨none, 0⟩⟩, 0, 0⟩ k =
      some ((h.setBlock h.next (some (splice (default_init α (max k (0 * 2))) 0
          (List.replicate k (ElemType.dflt : α))))).bump,
        ⟨⟨⟨some h.next, 0⟩⟩, k, max k (0 * 2)⟩) := by
  have h2 : ¬ k ≤ 0 := by omega
  have hcap : max k (0 * 2) ≠ 0 := by omega
  have hf := fill_loop_eq k (h.setBlock h.next (some (default_init α (max k (0 * 2))))).bump
    h.next 0 (ElemType.dflt : α) _ (Heap.bump_setBlock_blocks_same _ _ _)
    (by rw [default_init_length]; omega)
  simp only [Resize, hk, if_true, h2, if_false, ArrayPtr.ctor_size_pos h _ hcap, std_copy,
    begin_, end_, ArrayPtr.Get, Ptr.add, Ptr.distance, Nat.zero_add, Nat.sub_zero, Nat.zero_le,
    and_self, Nat.le_refl, copy_loop, hf, ArrayPtr.swap, ArrayPtr.dtor, Heap.delete_array_null,
    Heap.setBlock_bump, Heap.setBlock_setBlock]

theorem Resize_full_block [ElemType α] (h : Heap α) (a size k cap : Nat) (A : List α)
    (ha : a < h.next) (hA : h.blocks a = some A) (hlen : A.length = cap) (hle : size ≤ cap)
    (hgt : cap < size + k) :
    Resize h ⟨⟨⟨some a, 0⟩⟩, size, cap⟩ (size + k) =
      some (((h.setBlock h.next (some (splice (splice (default_init α (max (size + k) (cap * 2)))
          0 (A.take size)) size (List.replicate k (ElemType.dflt : α))))).setBlock a none).bump,
        ⟨⟨⟨some h.next, 0⟩⟩, size + k, max (size + k) (cap * 2)⟩) := by
  have hne : a ≠ h.next := Nat.ne_of_lt ha
  have h1 : size < size + k := by omega
  have h2 : ¬ size + k ≤ cap := by omega
  have hcap : max (size + k) (cap * 2) ≠ 0 := by omega
  have hB0 : (default_init α (max (size + k) (cap * 2))).length = max (size + k) (cap * 2) :=
    default_init_length _
  have hc := copy_loop_cross true size
    (h.setBlock h.next (some (default_init α (max (size + k) (cap * 2))))).bump a h.next 0 0 A
    (default_init α (max (size + k) (cap * 2))) hne
    (by simp [Heap.setBlock_blocks, hne, hA]) (by simp) (by omega) (by rw [hB0]; omega)
  have hAs : (A.drop 0).take size = A.take size := by simp
  rw [hAs] at hc
  have hB1 : (splice (default_init α (max (size + k) (cap * 2))) 0 (A.take size)).length
      = max (size + k) (cap * 2) := by
    rw [splice_length _ _ _ (by rw [hB0, List.length_take]; omega), hB0]
  have hf := fill_loop_eq k
    (((h.setBlock h.next (some (default_init α (max (size + k) (cap * 2))))).bump.setBlock h.next
      (some (splice (default_init α (max (size + k) (cap * 2))) 0 (A.take size)))).setBlock a
        (some (leave_fwd true size A 0)))
    h.next size (ElemType.dflt : α)
    (splice (default_init α (max (size + k) (cap * 2))) 0 (A.take size))
    (by simp [Heap.setBlock_blocks, Ne.symm hne]) (by rw [hB1]; omega)
  have hd := Heap.delete_array_eq
    ((((h.setBlock h.next (some (default_init α (max (size + k) (cap * 2))))).bump.setBlock h.next
      (some (splice (default_init α (max (size + k) (cap * 2))) 0 (A.take size)))).setBlock a
        (some (leave_fwd true size A 0))).setBlock h.next
          (some (splice (splice (default_init α (max (size + k) (cap * 2))) 0 (A.take size)) size
            (List.replicate k (ElemType.dflt : α)))))
    a (leave_fwd true size A 0) (by simp [Heap.setBlock_blocks, hne])
  simp only [Resize, h1, if_true, h2, if_false, ArrayPtr.ctor_size_pos h _ hcap, std_copy,
    begin_, end_, ArrayPtr.Get, Ptr.add, Ptr.distance, Nat.zero_add, Nat.sub_zero, Nat.zero_le,
    and_self, Nat.le_add_right, Nat.add_sub_cancel_left, hc, hf, ArrayPtr.swap, ArrayPtr.dtor, hd]
  congr 2
  refine Heap.ext_blocks (fun c => ?_) rfl
  simp only [Heap.setBlock_blocks, Heap.bump_blocks]
  split_ifs <;> first | rfl | omega

end SV
namespace SV
variable {α : Type}
open SimpleVector

theorem splice_take (B xs : List α) (j : Nat) (h : j + xs.length ≤ B.length) :
    (splice B j xs).take (j + xs.length) = B.take j ++ xs := by
  unfold splice
  rw [List.take_left' (by rw [List.length_append, List.length_take]; omega)]

theorem Resize_spec [ElemType α] (h : Heap α) (v : SimpleVector) (m : Nat) (hv : Valid h v) :
    ∃ h1 v1, Resize h v m = some (h1, v1) ∧ Valid h1 v1 ∧ v1.size_ = m ∧
      v1.toList h1 = (v.toList h).take m ++ List.replicate (m - v.size_) (ElemType.dflt : α) ∧
      v1.capacity_ = (if m ≤ v.capacity_ then v.capacity_ else max m (v.capacity_ * 2)) ∧
      Frame h h1 v ∧ Rehomed h v v1 := by
  rcases Nat.lt_or_ge v.size_ m with hms | hms
  rotate_left
  · have hmc : m ≤ v.capacity_ := Nat.le_trans hms hv.1
    refine ⟨_, _, Resize_shrink h v m hms, ?_, rfl, ?_, by simp [hmc],
      ⟨Nat.le_refl _, fun _ _ _ => rfl⟩, Or.inl rfl⟩
    · obtain ⟨h1, h2, h3⟩ := hv
      exact ⟨hmc, h2, h3⟩
    · have e : m - v.size_ = 0 := by omega
      rw [e]
      simp only [SimpleVector.toList, SimpleVector.cells, List.replicate_zero, List.append_nil]
      cases hb : v.array_.raw_ptr_.block with
      | none => simp
      | some b =>
        cases hc : h.blocks b with
        | none => simp [hc]
        | some cells => simp [hc, List.take_take, Nat.min_eq_left hms]
  · obtain ⟨array_, size, cap⟩ := v
    simp only at hms
    rcases hv.cases with ⟨e1, e2, e3⟩ | ⟨a, A, e1, ha, hA, hlen, hle⟩
    · simp only at e1 e2 e3
      subst e1 e2 e3
      have e := Resize_full_null h m hms
      have hB0 : 0 + (List.replicate m (ElemType.dflt : α)).length
          ≤ (default_init α (max m (0 * 2))).length := by
        rw [default_init_length, List.length_replicate]; omega
      refine ⟨_, _, e, ?_, rfl, ?_, ?_, Frame_fresh_null _ _ _,
        Or.inr ⟨h.next, Nat.le_refl _, rfl⟩⟩
      · exact Valid_of_block _ _ _ _ _ (by simp) (Heap.bump_setBlock_blocks_same _ _ _)
          (by rw [splice_length _ _ _ hB0, default_init_length]) (by omega)
      · rw [toList_eq _ _ _ _ _ (Heap.bump_setBlock_blocks_same _ _ _), toList_null]
        have := splice_take _ _ 0 hB0
        rw [List.length_replicate, Nat.zero_add] at this
        rw [this]
        simp
      · have : ¬ m ≤ 0 := by omega
        simp [this]
    obtain ⟨k, hk⟩ : ∃ k, m = size + k := ⟨m - size, by omega⟩
    subst hk
    have hk0 : 0 < k := by omega
    have hsub : size + k - size = k := by omega
    simp only [hsub]
    · simp only at e1 hlen hle
      subst e1
      have hne : a ≠ h.next := Nat.ne_of_lt ha
      rcases Nat.lt_or_ge cap (size + k) with hc | hc
      rotate_left
      · have hB : size + (List.replicate k (ElemType.dflt : α)).length ≤ A.length := by
          rw [List.length_replicate]; omega
        refine ⟨_, _, Resize_room h a size k cap A hA hlen hk0 hc, ?_, rfl, ?_, by simp [hc],
          Frame_same _ _ _ _ rfl, Or.inl rfl⟩
        · exact Valid_of_block _ _ _ _ _ (by simpa using ha) (Heap.setBlock_blocks_same _ _ _)
            (by rw [splice_length _ _ _ hB, hlen]) hc
        · rw [toList_eq _ _ _ _ _ (Heap.setBlock_blocks_same _ _ _), toList_eq _ _ _ _ _ hA]
          have := splice_take _ _ size hB
          rw [List.length_replicate] at this
          rw [this, List.take_take, Nat.min_eq_right (Nat.le_add_right size k)]
      · have hB1 : (splice (default_init α (max (size + k) (cap * 2))) 0 (A.take size)).length
            = max (size + k) (cap * 2) := by
          rw [splice_length _ _ _ (by rw [default_init_length, List.length_take]; omega),
            default_init_length]
        have hB : size + (List.replicate k (ElemType.dflt : α)).length ≤
            (splice (default_init α (max (size + k) (cap * 2))) 0 (A.take size)).length := by
          rw [List.length_replicate, hB1]; omega
        refine ⟨_, _, Resize_full_block h a size k cap A ha hA hlen hle hc, ?_, rfl, ?_, ?_,
          Frame_fresh _ _ _ _ rfl, Or.inr ⟨h.next, Nat.le_refl _, rfl⟩⟩
        · exact Valid_of_block _ _ _ _ _ (by simp) (Heap.blocks_fresh_after_free _ _ _ _ hne)
            (by rw [splice_length _ _ _ hB, hB1]) (by omega)
        · rw [toList_eq _ _ _ _ _ (Heap.blocks_fresh_after_free _ _ _ _ hne),
            toList_eq _ _ _ _ _ hA]
          have := splice_take _ _ size hB
          rw [List.length_replicate] at this
          have hts : (A.take size).length = size := by rw [List.length_take]; omega
          have h2 := splice_zero_take (default_init α (max (size + k) (cap * 2))) (A.take size)
            (by rw [default_init_length, hts]; omega)
          rw [hts] at h2
          rw [this, h2, List.take_take, Nat.min_eq_right (Nat.le_add_right size k)]
        · have : ¬ size + k ≤ cap := by omega
          simp [this]

end SV

namespace SV
variable {α : Type}
open SimpleVector

/-- C5: growth rule.  On a vector satisfying the representation invariant,
with capacity `c`: `PushBack` and `Insert` (both overloads of each) reallocate
exactly when `size == c`, and then the new capacity is the specified growth
for `required = size + 1` (which is `2 * c`, or 1 when `c = 0`);
`Resize(m)` reallocates exactly when `m > c`, and then the new capacity is the
specified growth for `required = m`; otherwise the capacity is unchanged.  The
specified growth is at least `max(required, 2 * c)` and at least 1.  The
argument of `Insert` is an object of its own and, for the `const Type&`
overload, also any cell of a live block, an element of the vector included. -/
theorem C5_growth_rule [ElemType α] (h : Heap α) (v : SimpleVector) (item : α) (p m : Nat)
    (hv : Valid h v) (hp : p ≤ v.GetSize) :
    (∃ h1 v1, PushBack h v item = some (h1, v1) ∧
      v1.GetCapacity = if v.GetSize = v.GetCapacity
        then spec_growth v.GetCapacity (v.GetSize + 1) else v.GetCapacity) ∧
    (∃ h1 v1, PushBack_rvalue h v item = some (h1, v1) ∧
      v1.GetCapacity = if v.GetSize = v.GetCapacity
        then spec_growth v.GetCapacity (v.GetSize + 1) else v.GetCapacity) ∧
    (∃ h1 v1 r, SimpleVector.Insert h v (v.begin_.add p) (Ref.obj item) = some (h1, v1, r) ∧
      v1.GetCapacity = if v.GetSize = v.GetCapacity
        then spec_growth v.GetCapacity (v.GetSize + 1) else v.GetCapacity) ∧
    (∃ h1 v1 r, Insert_rvalue h v (v.begin_.add p) (Ref.obj item) = some (h1, v1, r) ∧
      v1.GetCapacity = if v.GetSize = v.GetCapacity
        then spec_growth v.GetCapacity (v.GetSize + 1) else v.GetCapacity) ∧
    (∀ b o x, b < h.next → h.load ⟨some b, o⟩ = some x →
      ∃ h1 v1 r, SimpleVector.Insert h v (v.begin_.add p) (Ref.cell ⟨some b, o⟩) =
          some (h1, v1, r) ∧
        v1.GetCapacity = if v.GetSize = v.GetCapacity
          then spec_growth v.GetCapacity (v.GetSize + 1) else v.GetCapacity) ∧
    (∃ h1 v1, Resize h v m = some (h1, v1) ∧
      v1.GetCapacity = if m > v.GetCapacity
        then spec_growth v.GetCapacity m else v.GetCapacity) ∧
    (v.GetSize = v.GetCapacity → spec_growth v.GetCapacity (v.GetSize + 1) =
      if v.GetCapacity = 0 then 1 else 2 * v.GetCapacity) ∧
    (∀ required, max required (2 * v.GetCapacity) ≤ spec_growth v.GetCapacity required ∧
      1 ≤ spec_growth v.GetCapacity required) := by
  have hpush : ∀ mv, ∃ h1 v1, PushBack_impl mv h v item = some (h1, v1) ∧
      v1.GetCapacity = if v.GetSize = v.GetCapacity
        then spec_growth v.GetCapacity (v.GetSize + 1) else v.GetCapacity := by
    intro mv
    obtain ⟨h1, v1, e, -, -, -, hc, -⟩ := PushBack_impl_spec mv h v item hv
    refine ⟨h1, v1, e, ?_⟩
    simp only [GetCapacity, GetSize, hc, spec_growth]
    split_ifs <;> omega
  have hcell : ∀ b o x, b < h.next → h.load ⟨some b, o⟩ = some x →
      ∃ h1 v1 r, SimpleVector.Insert h v (v.begin_.add p) (Ref.cell ⟨some b, o⟩) =
          some (h1, v1, r) ∧
        v1.GetCapacity = if v.GetSize = v.GetCapacity
          then spec_growth v.GetCapacity (v.GetSize + 1) else v.GetCapacity := by
    intro b o x hb hx
    obtain ⟨y, ey, -⟩ := Insert_cell_spec h v p b o x hv hp hb hx
    obtain ⟨h1, v1, r, e1, -, -, -, -, -, -, hc, -⟩ := Insert_spec h v p y hv hp
    refine ⟨h1, v1, r, ey.trans e1, ?_⟩
    simp only [GetCapacity, GetSize, hc, spec_growth]
    split_ifs <;> omega
  obtain ⟨h1, v1, r, e1, e2, -, -, -, -, -, hc, -⟩ := Insert_spec h v p item hv hp
  have hins : v1.GetCapacity = if v.GetSize = v.GetCapacity
      then spec_growth v.GetCapacity (v.GetSize + 1) else v.GetCapacity := by
    simp only [GetCapacity, GetSize, hc, spec_growth]
    split_ifs <;> omega
  obtain ⟨h2, v2, e3, -, -, -, hc2, -⟩ := Resize_spec h v m hv
  refine ⟨hpush false, hpush true, ⟨h1, v1, r, e1, hins⟩, ⟨h1, v1, r, e2, hins⟩, hcell,
    ⟨h2, v2, e3, ?_⟩, ?_, ?_⟩
  · simp only [GetCapacity, hc2, spec_growth]
    split_ifs <;> omega
  · intro hsc
    simp only [GetCapacity, GetSize, spec_growth] at hsc ⊢
    split_ifs <;> omega
  · intro required
    simp only [GetCapacity, spec_growth]
    split_ifs <;> omega

/-- Witness for C5: the full vector `[1, 2, 3]` of capacity 3 grows to capacity 6
on `PushBack`, and to capacity 10 on `Resize(10)`. -/
theorem C5_growth_rule_witness :
    Valid (heap_one [1, 2, 3]) (vec_zero 3 3) ∧ 1 ≤ (vec_zero 3 3).GetSize ∧
    (∃ h1 v1, PushBack (heap_one [1, 2, 3]) (vec_zero 3 3) 4 = some (h1, v1) ∧
      v1.GetCapacity = 6) ∧
    (∃ h1 v1, Resize (heap_one [1, 2, 3]) (vec_zero 3 3) 10 = some (h1, v1) ∧
      v1.GetCapacity = 10) := by
  have hw := C5_growth_rule (heap_one [1, 2, 3]) (vec_zero 3 3) 4 1 10 (by decide) (by decide)
  obtain ⟨⟨h1, v1, e1, c1⟩, -, -, -, -, ⟨h2, v2, e2, c2⟩, -, -⟩ := hw
  exact ⟨by decide, by decide, ⟨h1, v1, e1, c1.trans (by decide)⟩,
    ⟨h2, v2, e2, c2.trans (by decide)⟩⟩

end SV

namespace SV
variable {α : Type}
open SimpleVector

theorem value_init_length [ElemType α] (n : Nat) : (value_init α n).length = n := by
  simp [value_init]

/-- The count constructor writes `array_[0]` even when the array has no cell. -/
theorem ctor_fill_rvalue_zero [ElemType α] (h : Heap α) (value : α) :
    ctor_fill_rvalue h 0 value = none := by
  simp [ctor_fill_rvalue, ArrayPtr.ctor_raw, ArrayPtr.index, Ptr.add, Heap.new_array,
    Heap.store, value_init]

theorem ctor_fill_rvalue_pos [ElemType α] (h : Heap α) (n : Nat) (value : α) (hn : 0 < n) :
    ctor_fill_rvalue h n value =
      some ((h.setBlock h.next (some ((value_init α n).set 0 value))).bump,
        ⟨⟨⟨some h.next, 0⟩⟩, n, n⟩) := by
  simp only [ctor_fill_rvalue, ArrayPtr.ctor_raw, ArrayPtr.index, Ptr.add, Heap.new_array_fst,
    Heap.new_array_snd, Nat.zero_add]
  rw [Heap.store_eq _ h.next 0 value (value_init α n) (Heap.bump_setBlock_blocks_same _ _ _)
    (by rw [value_init_length]; exact hn)]
  simp only [Heap.setBlock_bump, Heap.setBlock_setBlock]

theorem ctor_size_pos_spec [ElemType α] (h : Heap α) (n : Nat) (hn : 0 < n) :
    ∃ h1 v1, ctor_size h n = some (h1, v1) ∧ Valid h1 v1 ∧ v1.GetSize = n ∧
      v1.GetCapacity = n ∧ v1.toList h1 = List.replicate n (ElemType.dflt : α) ∧
      Frame h h1 v1 ∧ v1.array_.raw_ptr_.block = some h.next := by
  refine ⟨_, _, ctor_fill_rvalue_pos h n ElemType.dflt hn, ?_, rfl, rfl, ?_,
    ?_, rfl⟩
  · exact Valid_of_block _ _ _ _ _ (by simp) (Heap.bump_setBlock_blocks_same _ _ _)
      (by rw [List.length_set, value_init_length]) (Nat.le_refl _)
  · rw [toList_eq _ _ _ _ _ (Heap.bump_setBlock_blocks_same _ _ _)]
    have hl : ((value_init α n).set 0 (ElemType.dflt : α)).length = n := by
      rw [List.length_set, value_init_length]
    rw [List.take_of_length_le (by omega)]
    apply List.ext_getElem?
    intro i
    simp only [value_init, List.getElem?_set, List.length_replicate]
    by_cases h0 : 0 = i
    · subst h0; simp [hn]
    · simp [h0]
  · refine ⟨by simp, fun c hc _ => ?_⟩
    simp [Heap.setBlock_blocks, Nat.ne_of_lt hc]

/-- The `Type&&` fill constructor stores the value in the first cell only. -/
theorem ctor_fill_rvalue_spec [ElemType α] (h : Heap α) (n : Nat) (value : α) (hn : 0 < n) :
    ∃ h1 v1, ctor_fill_rvalue h n value = some (h1, v1) ∧ v1.GetSize = n ∧
      v1.GetCapacity = n ∧
      v1.toList h1 = value :: List.replicate (n - 1) (ElemType.dflt : α) := by
  refine ⟨_, _, ctor_fill_rvalue_pos h n value hn, rfl, rfl, ?_⟩
  rw [toList_eq _ _ _ _ _ (Heap.bump_setBlock_blocks_same _ _ _)]
  obtain ⟨k, hk⟩ : ∃ k, n = k + 1 := ⟨n - 1, by omega⟩
  subst hk
  simp [value_init, List.replicate_succ]

theorem ctor_fill_spec [ElemType α] (h : Heap α) (n : Nat) (value : α) :
    ∃ h1 v1, ctor_fill h n value = some (h1, v1) ∧ Valid h1 v1 ∧ v1.GetSize = n ∧
      v1.GetCapacity = n ∧ v1.toList h1 = List.replicate n value := by
  rcases Nat.eq_zero_or_pos n with hn | hn
  · subst hn
    refine ⟨h, ⟨⟨⟨none, 0⟩⟩, 0, 0⟩, ?_, ?_, rfl, rfl, rfl⟩
    · simp [ctor_fill, ArrayPtr.ctor_size, std_fill, begin_, end_, ArrayPtr.Get, Ptr.add,
        Ptr.distance, fill_loop, Ptr.null]
    · simp [Valid]
  · have hn0 : n ≠ 0 := by omega
    have hf := fill_loop_eq n (h.setBlock h.next (some (default_init α n))).bump h.next 0 value
      (default_init α n) (Heap.bump_setBlock_blocks_same _ _ _)
      (by rw [default_init_length]; omega)
    have hB : 0 + (List.replicate n value).length ≤ (default_init α n).length := by
      rw [default_init_length, List.length_replicate]; omega
    refine ⟨(h.setBlock h.next (some (splice (default_init α n) 0 (List.replicate n value)))).bump,
      ⟨⟨⟨some h.next, 0⟩⟩, n, n⟩, ?_, ?_, rfl, rfl, ?_⟩
    · simp only [ctor_fill, ArrayPtr.ctor_size_pos h n hn0, std_fill, begin_, end_, ArrayPtr.Get,
        Ptr.add, Ptr.distance, Nat.zero_add, Nat.zero_le, and_self, if_true, Nat.sub_zero, hf,
        Heap.setBlock_bump, Heap.setBlock_setBlock]
    · exact Valid_of_block _ _ _ _ _ (by simp) (Heap.bump_setBlock_blocks_same _ _ _)
        (by rw [splice_length _ _ _ hB, default_init_length]) (Nat.le_refl _)
    · rw [toList_eq _ _ _ _ _ (Heap.bump_setBlock_blocks_same _ _ _)]
      have := splice_take _ _ 0 hB
      rw [List.length_replicate, Nat.zero_add] at this
      rw [this]
      simp

end SV

namespace SV
variable {α : Type}
open SimpleVector

/-- The loop of `std::equal` compares the two ranges cell by cell. -/
theorem equal_loop_eq [DecidableEq α] (n : Nat) (h : Heap α) (a b i j : Nat) (A B : List α)
    (ha : h.blocks a = some A) (hb : h.blocks b = some B)
    (hi : i + n ≤ A.length) (hj : j + n ≤ B.length) :
    equal_loop n h ⟨some a, i⟩ ⟨some b, j⟩ =
      some (decide ((A.drop i).take n = (B.drop j).take n)) := by
  induction n generalizing i j with
  | zero => simp [equal_loop]
  | succ n ih =>
    have hi1 : i < A.length := by omega
    have hj1 : j < B.length := by omega
    have hl1 : h.load ⟨some a, i⟩ = some A[i] := by
      rw [Heap.load_eq h a i A ha]; exact List.getElem?_eq_getElem hi1
    have hl2 : h.load ⟨some b, j⟩ = some B[j] := by
      rw [Heap.load_eq h b j B hb]; exact List.getElem?_eq_getElem hj1
    simp only [equal_loop, hl1, hl2, Ptr.add, slice_cons A i n hi1, slice_cons B j n hj1,
      List.cons.injEq]
    by_cases hx : A[i] = B[j]
    · simp only [hx, if_true, true_and]
      exact ih (i + 1) (j + 1) (by omega) (by omega)
    · simp [hx]

theorem ctor_copy_eval [ElemType α] (h : Heap α) (a size cap : Nat) (A : List α)
    (ha : a < h.next) (hA : h.blocks a = some A) (hlen : A.length = cap) (hle : size ≤ cap)
    (hpos : 0 < size) :
    ctor_copy h ⟨⟨⟨some a, 0⟩⟩, size, cap⟩ =
      some ((h.setBlock h.next (some (A.take size))).bump, ⟨⟨⟨some h.next, 0⟩⟩, size, size⟩) := by
  have hne : a ≠ h.next := Nat.ne_of_lt ha
  have hT : ((value_init α size).set 0 (ElemType.dflt : α)).length = size := by
    rw [List.length_set, value_init_length]
  have hc := copy_loop_cross false size
    (h.setBlock h.next (some ((value_init α size).set 0 (ElemType.dflt : α)))).bump a h.next 0 0 A
    ((value_init α size).set 0 (ElemType.dflt : α)) hne
    (by simp [Heap.setBlock_blocks, hne, hA]) (by simp) (by omega) (by rw [hT]; omega)
  have hAs : (A.drop 0).take size = A.take size := by simp
  have hsp : splice ((value_init α size).set 0 (ElemType.dflt : α)) 0 (A.take size)
      = A.take size := by
    have hts : (A.take size).length = size := by rw [List.length_take]; omega
    unfold splice
    rw [hts, List.drop_of_length_le (by rw [hT]; omega)]
    simp
  rw [hAs, hsp, leave_fwd_false] at hc
  simp only [ctor_copy, ctor_size, GetSize, ctor_fill_rvalue_pos h size ElemType.dflt hpos,
    begin_, end_, ArrayPtr.Get, Ptr.add, Ptr.distance, Nat.zero_add, Nat.zero_le, and_self,
    if_true, Nat.sub_zero, std_copy, hc, SimpleVector.swap, ArrayPtr.swap, ctor_default,
    ArrayPtr.ctor_default, Ptr.null, ArrayPtr.dtor, Heap.delete_array_null]
  congr 2
  refine Heap.ext_blocks (fun c => ?_) rfl
  simp only [Heap.setBlock_blocks, Heap.bump_blocks]
  split_ifs with h1 h2 <;> first | rfl | omega | (subst h1; exact hA.symm)

/-- Copying an empty vector runs the count constructor with size 0, which
writes out of bounds. -/
theorem ctor_copy_empty [ElemType α] (h : Heap α) (other : SimpleVector)
    (hs : other.size_ = 0) : ctor_copy h other = none := by
  simp [ctor_copy, ctor_size, GetSize, hs, ctor_fill_rvalue_zero]

end SV

namespace SV
variable {α : Type}
open SimpleVector

/-- A call that respects the frame of `v` leaves every vector with another
block valid and with the same logical sequence. -/
theorem frame_independent (h h1 : Heap α) (a v : SimpleVector) (ha : Valid h a)
    (hd : Disjoint a v) (hf : Frame h h1 v) : Valid h1 a ∧ a.toList h1 = a.toList h := by
  obtain ⟨array_, size, cap⟩ := a
  rcases ha.cases with ⟨e1, e2, e3⟩ | ⟨aa, A, e1, haa, hA, hlen, hle⟩
  · simp only at e1 e2 e3
    subst e1 e2 e3
    exact ⟨by simp [Valid], rfl⟩
  · simp only at e1 hlen hle
    subst e1
    have hne : v.array_.raw_ptr_.block ≠ some aa := by
      rcases hd with hd | hd
      · simp at hd
      · exact fun e => hd (by simp [e])
    have hb : h1.blocks aa = some A := by rw [hf.2 aa haa hne, hA]
    exact ⟨Valid_of_block _ _ _ _ _ (Nat.lt_of_lt_of_le haa hf.1) hb hlen hle,
      by rw [toList_eq _ _ _ _ _ hb, toList_eq _ _ _ _ _ hA]⟩

theorem ctor_copy_spec [ElemType α] (h : Heap α) (other : SimpleVector) (hv : Valid h other)
    (hpos : 0 < other.size_) :
    ∃ h1 v1, ctor_copy h other = some (h1, v1) ∧ Valid h1 v1 ∧
      v1.toList h1 = other.toList h ∧ v1.size_ = other.size_ ∧ v1.capacity_ = other.size_ ∧
      v1.array_.raw_ptr_ = ⟨some h.next, 0⟩ ∧ h1.next = h.next + 1 ∧
      (∀ c, c < h.next → h1.blocks c = h.blocks c) := by
  obtain ⟨array_, size, cap⟩ := other
  rcases hv.cases with ⟨e1, e2, e3⟩ | ⟨a, A, e1, ha, hA, hlen, hle⟩
  · simp only at e3 hpos
    omega
  · simp only at e1 hlen hle hpos
    subst e1
    have hts : (A.take size).length = size := by rw [List.length_take]; omega
    refine ⟨_, _, ctor_copy_eval h a size cap A ha hA hlen hle hpos, ?_, ?_, rfl, rfl, rfl, rfl,
      fun c hc => ?_⟩
    · exact Valid_of_block _ _ _ _ _ (by simp) (Heap.bump_setBlock_blocks_same _ _ _) hts
        (Nat.le_refl _)
    · rw [toList_eq _ _ _ _ _ (Heap.bump_setBlock_blocks_same _ _ _), toList_eq _ _ _ _ _ hA,
        List.take_take, Nat.min_self]
    · simp [Heap.setBlock_blocks, Nat.ne_of_lt hc]

/-- The whole heap is kept: a special case of `Frame`. -/
theorem Frame_of_old_blocks (h h1 : Heap α) (v : SimpleVector) (hn : h.next ≤ h1.next)
    (hb : ∀ c, c < h.next → h1.blocks c = h.blocks c) : Frame h h1 v :=
  ⟨hn, fun c hc _ => hb c hc⟩

theorem toList_length (h : Heap α) (v : SimpleVector) (hv : Valid h v) :
    (v.toList h).length = v.size_ := by
  obtain ⟨array_, size, cap⟩ := v
  rcases hv.cases with ⟨e1, e2, e3⟩ | ⟨a, A, e1, ha, hA, hlen, hle⟩
  · simp only at e1 e2 e3
    subst e1 e2 e3
    rfl
  · simp only at e1 hlen hle
    subst e1
    rw [toList_eq _ _ _ _ _ hA, List.length_take]
    simp only
    omega

theorem toList_size_zero (h : Heap α) (v : SimpleVector) (hs : v.size_ = 0) :
    v.toList h = [] := by
  unfold SimpleVector.toList
  cases v.cells h <;> simp [hs]

/-- `operator==` decides equality of the two logical sequences. -/
theorem operator_eq_of_toList [DecidableEq α] (h : Heap α) (a b : SimpleVector) (ha : Valid h a)
    (hb : Valid h b) :
    operator_eq h a b = some (decide (a.toList h = b.toList h)) := by
  have hla := toList_length h a ha
  have hlb := toList_length h b hb
  by_cases hs : a.size_ = b.size_
  swap
  · have hne : a.toList h ≠ b.toList h := fun e => hs (by rw [← hla, ← hlb, e])
    simp [operator_eq, GetSize, hs, hne]
  · by_cases hz : a.size_ = 0
    · have hzb : b.size_ = 0 := by omega
      rw [toList_size_zero h a hz, toList_size_zero h b hzb]
      simp [operator_eq, GetSize, hz, hzb, std_equal, begin_, end_, Ptr.add, Ptr.distance,
        equal_loop]
    · obtain ⟨aarr, asize, acap⟩ := a
      obtain ⟨barr, bsize, bcap⟩ := b
      simp only at hs hz
      subst hs
      rcases ha.cases with ⟨e1, e2, e3⟩ | ⟨a, A, e1, haa, hA, hlen, hle⟩
      · simp only at e3; omega
      rcases hb.cases with ⟨f1, f2, f3⟩ | ⟨b, B, f1, hbb, hB, hlenB, hleB⟩
      · simp only at f3; omega
      simp only at e1 f1 hlen hle hlenB hleB
      subst e1 f1
      have he := equal_loop_eq asize h a b 0 0 A B hA hB (by omega) (by omega)
      rw [toList_eq _ _ _ _ _ hA, toList_eq _ _ _ _ _ hB]
      simp only [operator_eq, GetSize, if_true, std_equal, begin_, end_, ArrayPtr.Get, Ptr.add,
        Ptr.distance, Nat.zero_add, Nat.zero_le, and_self, Nat.sub_zero, he, List.drop_zero]

end SV

namespace SV
variable {α : Type}
open SimpleVector

theorem swap_fst (b v : SimpleVector) : (b.swap v).1 = v := by
  obtain ⟨⟨p⟩, s, c⟩ := v
  rfl

theorem swap_snd (b v : SimpleVector) : (b.swap v).2 = b := by
  obtain ⟨⟨p⟩, s, c⟩ := b
  rfl

theorem operator_assign_spec [ElemType α] (h : Heap α) (b a : SimpleVector) (hb : Valid h b)
    (ha : Valid h a) (hd : Disjoint b a) (hpos : 0 < a.size_) :
    ∃ h2 b1, operator_assign h b a false = some (h2, b1, a) ∧ Valid h2 b1 ∧
      b1.toList h2 = a.toList h ∧ b1.size_ = a.size_ ∧ b1.capacity_ = a.size_ ∧
      Valid h2 a ∧ a.toList h2 = a.toList h ∧ Disjoint a b1 := by
  obtain ⟨h1, v1, e1, hv1, hl1, hs1, hc1, hp1, hn1, hold⟩ := ctor_copy_spec h a ha hpos
  have hv1b : v1.array_.raw_ptr_.block = some h.next := by rw [hp1]
  -- the old block of `b` is released
  have hdt : ∃ h2, ArrayPtr.dtor h1 b.array_ = some h2 ∧ h2.next = h1.next ∧
      ∀ c, b.array_.raw_ptr_.block ≠ some c → h2.blocks c = h1.blocks c := by
    obtain ⟨⟨⟨bblk, boff⟩⟩, bsize, bcap⟩ := b
    rcases hb.cases with ⟨f1, f2, f3⟩ | ⟨bb, B, f1, hbb, hB, hlenB, hleB⟩
    · simp only at f1
      rw [f1]
      exact ⟨h1, rfl, rfl, fun _ _ => rfl⟩
    · simp only at f1
      rw [f1]
      have hB1 : h1.blocks bb = some B := by rw [hold bb hbb, hB]
      refine ⟨h1.setBlock bb none, Heap.delete_array_eq h1 bb B hB1, rfl, fun c hc => ?_⟩
      have : c ≠ bb := fun e => hc (by simp [e])
      simp [Heap.setBlock_blocks, this]
  obtain ⟨h2, e2, hn2, hkeep⟩ := hdt
  have hbn : b.array_.raw_ptr_.block ≠ some h.next := by
    obtain ⟨⟨⟨bblk, boff⟩⟩, bsize, bcap⟩ := b
    rcases hb.cases with ⟨f1, f2, f3⟩ | ⟨bb, B, f1, hbb, hB, hlenB, hleB⟩
    · simp only at f1; rw [f1]; simp
    · simp only at f1; rw [f1]; simp; omega
  -- the vector `a` keeps its block
  have hfa : Frame h h2 b :=
    ⟨by rw [hn2, hn1]; omega, fun c hc hbc => by rw [hkeep c hbc, hold c hc]⟩
  have hda : Disjoint a b := by
    obtain ⟨aarr, asize, acap⟩ := a
    rcases ha.cases with ⟨g1, g2, g3⟩ | ⟨aa, A, g1, haa, hA, hlenA, hleA⟩
    · simp only at g3 hpos; omega
    · simp only at g1
      subst g1
      right
      rcases hd with hd | hd
      · rw [hd]; simp
      · exact fun e => hd e.symm
  obtain ⟨hva2, hla2⟩ := frame_independent h h2 a b ha hda hfa
  refine ⟨h2, v1, ?_, ?_, ?_, hs1, hc1, hva2, hla2, ?_⟩
  · simp only [operator_assign, if_true, e1, swap_fst, swap_snd, e2]
  · obtain ⟨w1, w2, w3⟩ := hv1
    refine ⟨w1, w2, ?_⟩
    rw [hv1b] at w3 ⊢
    simp only at w3 ⊢
    rw [hn2, hkeep _ hbn]
    exact w3
  · rw [← hl1]
    simp only [SimpleVector.toList, SimpleVector.cells, hv1b, hkeep _ hbn]
  · obtain ⟨aarr, asize, acap⟩ := a
    rcases ha.cases with ⟨g1, g2, g3⟩ | ⟨aa, A, g1, haa, hA, hlenA, hleA⟩
    · simp only at g3 hpos; omega
    · simp only at g1
      subst g1
      right
      rw [hv1b]
      simp
      omega

end SV

namespace SV
variable {α : Type}
open SimpleVector

/-- C6 (defect in the code): `SimpleVector(0)` delegates to
`SimpleVector(size_t, Type&&)`, which executes `array_[0] = std::move(value)`
on the zero-length array `new Type[0]{}`; the write is out of bounds, so the
call has no defined result instead of producing an empty vector. -/
theorem C6_ctor_size_zero_writes_out_of_bounds [ElemType α] (h : Heap α) :
    ctor_size h 0 = none :=
  ctor_fill_rvalue_zero h ElemType.dflt

/-- C7 (defect in the code): `SimpleVector<int>(3, 5)` selects the overload
`SimpleVector(size_t, Type&&)`, which stores the value in `array_[0]` only:
the result is `[5, 0, 0]`, not `[5, 5, 5]`. -/
theorem C7_ctor_fill_rvalue_fills_first_only :
    (ctor_fill_rvalue heap_empty 3 5).map (fun r => (r.2.toList r.1, r.2.GetSize, r.2.GetCapacity))
      = some ([5, 0, 0], 3, 3) := by
  decide

/-- C8 (defect in the code): copy construction from an empty vector, and copy
assignment from an empty vector to another object, run the count constructor
with size 0, whose write to `array_[0]` is out of bounds; neither call
produces a copy. -/
theorem C8_copy_of_empty_writes_out_of_bounds [ElemType α] (h : Heap α) (b : SimpleVector) :
    ctor_copy h ctor_default = none ∧ operator_assign h b ctor_default false = none := by
  have e : ctor_copy h ctor_default = none := ctor_copy_empty h ctor_default rfl
  exact ⟨e, by simp [operator_assign, e]⟩

end SV

namespace SV
variable {α : Type}
open SimpleVector

theorem drain_loop_eq (fuel : Nat) (v : SimpleVector) (hf : v.size_ ≤ fuel) :
    drain_loop fuel v = some { v with size_ := 0 } := by
  induction fuel generalizing v with
  | zero =>
    have hz : v.size_ = 0 := by omega
    obtain ⟨arr, size, cap⟩ := v
    simp only at hz
    subst hz
    simp [drain_loop, GetSize]
  | succ fuel ih =>
    obtain ⟨arr, size, cap⟩ := v
    simp only at hf
    by_cases hz : size = 0
    · subst hz
      simp [drain_loop, GetSize]
    · have := ih ⟨arr, size - 1, cap⟩ (by simp only; omega)
      simp only [drain_loop, GetSize, ne_eq, hz, not_false_eq_true, if_true, PopBack, this]

theorem Reserve_default_pos [ElemType α] (h : Heap α) (n : Nat) (hn : 0 < n) :
    Reserve h ctor_default n =
      some ((h.setBlock h.next (some (default_init α n))).bump, ⟨⟨⟨some h.next, 0⟩⟩, 0, n⟩) := by
  have hn0 : n ≠ 0 := by omega
  simp only [Reserve, ctor_default, ArrayPtr.ctor_default, Ptr.null, gt_iff_lt, hn, if_true,
    ArrayPtr.ctor_size_pos h n hn0, std_copy, ArrayPtr.Get, Ptr.add, Ptr.distance, Nat.zero_add,
    Nat.le_refl, and_self, Nat.sub_self, copy_loop, ArrayPtr.swap, ArrayPtr.dtor,
    Heap.delete_array_null]

theorem ctor_move_empty [ElemType α] (h : Heap α) (other : SimpleVector)
    (hs : other.size_ = 0) :
    ctor_move h other = some (h, ctor_default, other) := by
  obtain ⟨⟨⟨blk, off⟩⟩, size, cap⟩ := other
  simp only at hs
  subst hs
  simp [ctor_move, Reserve, GetSize, ctor_default, std_copy_backward, begin_, end_,
    ArrayPtr.Get, Ptr.add, Ptr.distance, copy_backward_loop, drain_loop, ArrayPtr.ctor_default,
    Ptr.null]

theorem ctor_move_eval [ElemType α] (h : Heap α) (a size cap : Nat) (A : List α)
    (ha : a < h.next) (hA : h.blocks a = some A) (hlen : A.length = cap) (hle : size ≤ cap)
    (hpos : 0 < size) :
    ctor_move h ⟨⟨⟨some a, 0⟩⟩, size, cap⟩ =
      some (((h.setBlock h.next (some (A.take size))).setBlock a
          (some (leave_bwd true size A size))).bump,
        ⟨⟨⟨some h.next, 0⟩⟩, size, size⟩, ⟨⟨⟨some a, 0⟩⟩, 0, cap⟩) := by
  have hne : a ≠ h.next := Nat.ne_of_lt ha
  have hc := copy_backward_loop_cross true size
    (h.setBlock h.next (some (default_init α size))).bump a h.next 0 0 A
    (default_init α size) hne
    (by simp [Heap.setBlock_blocks, hne, hA]) (by simp) (by omega)
    (by rw [default_init_length]; omega)
  have hAs : (A.drop 0).take size = A.take size := by simp
  have hsp : splice (default_init α size) 0 (A.take size) = A.take size := by
    have hts : (A.take size).length = size := by rw [List.length_take]; omega
    unfold splice
    rw [hts, List.drop_of_length_le (by rw [default_init_length]; omega)]
    simp
  rw [hAs, hsp] at hc
  simp only [Nat.zero_add] at hc
  have hd := drain_loop_eq size ⟨⟨⟨some a, 0⟩⟩, size, cap⟩ (Nat.le_refl _)
  simp only [ctor_move, GetSize, Reserve_default_pos h size hpos, std_copy_backward, begin_, end_,
    ArrayPtr.Get, Ptr.add, Ptr.distance, Nat.zero_le, and_self, if_true, Nat.sub_zero,
    Nat.zero_add, hc, hd]
  simp only [Heap.setBlock_bump, Heap.setBlock_setBlock]

theorem ctor_move_spec [ElemType α] (h : Heap α) (other : SimpleVector) (hv : Valid h other) :
    ∃ h1 v1 other1, ctor_move h other = some (h1, v1, other1) ∧ Valid h1 v1 ∧
      v1.size_ = other.size_ ∧ v1.toList h1 = other.toList h ∧ other1.size_ = 0 ∧
      Valid h1 other1 ∧ other1.capacity_ = other.capacity_ := by
  by_cases hz : other.size_ = 0
  · refine ⟨_, _, _, ctor_move_empty h other hz, Valid_ctor_default h, hz.symm, ?_, hz,
      hv, rfl⟩
    rw [toList_size_zero h other hz]
    rfl
  · obtain ⟨array_, size, cap⟩ := other
    simp only at hz
    rcases hv.cases with ⟨e1, e2, e3⟩ | ⟨a, A, e1, ha, hA, hlen, hle⟩
    · simp only at e3; omega
    · simp only at e1 hlen hle
      subst e1
      have hne : a ≠ h.next := Nat.ne_of_lt ha
      have hts : (A.take size).length = size := by rw [List.length_take]; omega
      refine ⟨_, _, _, ctor_move_eval h a size cap A ha hA hlen hle (by omega), ?_, rfl, ?_, rfl,
        ?_, rfl⟩
      · exact Valid_of_block _ _ _ _ _ (by simp) (by simp [Heap.setBlock_blocks, Ne.symm hne])
          hts (Nat.le_refl _)
      · rw [toList_eq _ _ _ _ (A.take size) (by simp [Heap.setBlock_blocks, Ne.symm hne]),
          toList_eq _ _ _ _ _ hA, List.take_take, Nat.min_self]
      · exact Valid_of_block _ _ _ _ (leave_bwd true size A size) (by simp; omega)
          (by simp [Heap.setBlock_blocks]) (by rw [leave_bwd_length, hlen]) (Nat.zero_le _)

end SV

namespace SV
variable {α : Type}
open SimpleVector

/-- What the copy constructor does on a non-empty source: the copy has the size and elements of the source, capacity equal
to the source's size, compares equal to it, the source is unchanged, and later
calls on the copy (`PushBack`, `Insert`, `Erase`, `Resize`, an element write,
or any call that respects the copy's frame) leave the source's logical
sequence unchanged.  Self-assignment does nothing. -/
theorem ctor_copy_nonempty_independent [ElemType α] [DecidableEq α] (h : Heap α)
    (a : SimpleVector) (hv : Valid h a) (hpos : 0 < a.GetSize) :
    ∃ h1 b, ctor_copy h a = some (h1, b) ∧ Valid h1 b ∧ Valid h1 a ∧
      a.toList h1 = a.toList h ∧ b.toList h1 = a.toList h ∧ b.GetSize = a.GetSize ∧
      b.GetCapacity = a.GetSize ∧ operator_eq h1 a b = some true ∧
      (∀ h2, Frame h1 h2 b → a.toList h2 = a.toList h) ∧
      (∀ item, ∃ h2 b2, PushBack h1 b item = some (h2, b2) ∧ a.toList h2 = a.toList h) ∧
      (∀ p item, p ≤ b.GetSize →
        ∃ h2 b2 r, SimpleVector.Insert h1 b (b.begin_.add p) (Ref.obj item) = some (h2, b2, r) ∧
          a.toList h2 = a.toList h) ∧
      (∀ p, p < b.GetSize →
        ∃ h2 b2 r, Erase h1 b (b.begin_.add p) = some (h2, b2, r) ∧ a.toList h2 = a.toList h) ∧
      (∀ m, ∃ h2 b2, Resize h1 b m = some (h2, b2) ∧ a.toList h2 = a.toList h) ∧
      (∀ i x, i < b.GetSize →
        ∃ h2, h1.store (b.array_.index i) x = some h2 ∧ a.toList h2 = a.toList h) ∧
      operator_assign h a a true = some (h, a, a) := by
  obtain ⟨h1, b, e1, hvb, hlb, hsb, hcb, hpb, hn1, hold⟩ := ctor_copy_spec h a hv hpos
  have hbb : b.array_.raw_ptr_.block = some h.next := by rw [hpb]
  have hfr : Frame h h1 b := Frame_of_old_blocks h h1 b (by omega) hold
  have hdab : Disjoint a b := by
    obtain ⟨aarr, asize, acap⟩ := a
    rcases hv.cases with ⟨g1, g2, g3⟩ | ⟨aa, A, g1, haa, hA, hlenA, hleA⟩
    · left; simp only at g1; rw [g1]
    · simp only at g1
      subst g1
      right
      rw [hbb]
      simp
      omega
  have hdab0 : Disjoint a ctor_default := by
    obtain ⟨aarr, asize, acap⟩ := a
    rcases hv.cases with ⟨g1, g2, g3⟩ | ⟨aa, A, g1, haa, hA, hlenA, hleA⟩
    · left; simp only at g1; rw [g1]
    · simp only at g1; subst g1; right; simp [ctor_default, ArrayPtr.ctor_default, Ptr.null]
  have hfr0 : Frame h h1 ctor_default := Frame_of_old_blocks h h1 _ (by omega) hold
  obtain ⟨hva1, hla1⟩ := frame_independent h h1 a ctor_default hv hdab0 hfr0
  have hkeep : ∀ h2, Frame h1 h2 b → a.toList h2 = a.toList h := fun h2 hf =>
    ((frame_independent h1 h2 a b hva1 hdab hf).2).trans hla1
  refine ⟨h1, b, e1, hvb, hva1, hla1, hlb, hsb, hcb, ?_, hkeep, ?_, ?_, ?_, ?_, ?_, rfl⟩
  · rw [operator_eq_of_toList h1 a b hva1 hvb, hla1, hlb]
    simp
  · intro item
    obtain ⟨h2, b2, e2, -, -, -, -, hf, -⟩ := PushBack_impl_spec false h1 b item hvb
    exact ⟨h2, b2, e2, hkeep h2 hf⟩
  · intro p item hp
    obtain ⟨h2, b2, r, e2, -, -, -, -, -, -, -, hf, -⟩ := Insert_spec h1 b p item hvb hp
    exact ⟨h2, b2, r, e2, hkeep h2 hf⟩
  · intro p hp
    obtain ⟨h2, b2, r, e2, -, -, -, -, -, -, hf, -⟩ := Erase_spec h1 b p hvb hp
    exact ⟨h2, b2, r, e2, hkeep h2 hf⟩
  · intro m
    obtain ⟨h2, b2, e2, -, -, -, -, hf, -⟩ := Resize_spec h1 b m hvb
    exact ⟨h2, b2, e2, hkeep h2 hf⟩
  · intro i x hi
    obtain ⟨barr, bsize, bcap⟩ := b
    rcases hvb.cases with ⟨g1, g2, g3⟩ | ⟨bb, B, g1, hbb1, hB, hlenB, hleB⟩
    · simp only [GetSize] at g3 hi; omega
    · simp only at g1 hlenB hleB
      subst g1
      simp only [GetSize] at hi
      refine ⟨h1.setBlock bb (some (B.set i x)), ?_, hkeep _ (Frame_same _ _ _ _ rfl)⟩
      simp only [ArrayPtr.index, Ptr.add, Nat.zero_add]
      exact Heap.store_eq h1 bb i x B hB (by omega)

end SV

namespace SV
variable {α : Type}
open SimpleVector

/-- C9 (defect in the code): the class declares a move constructor and a copy
assignment operator but no move assignment operator, so `b = std::move(a)`
binds `a` to `const SimpleVector& rhs` and runs the copy assignment.  With
`a = [1]` and `b` empty: after the assignment `b` is `[1]` and `a.GetSize()`
is still 1, not 0, so no outcome of the call leaves the source empty.  The
move constructor, given the same source, does leave it with `GetSize() == 0`. -/
theorem C9_move_assignment_source_not_emptied :
    (operator_assign (heap_one [1]) ctor_default (vec_zero 1 1) false).map
        (fun r => (r.2.2.GetSize, r.2.2.toList r.1, r.2.1.toList r.1)) = some (1, [1], [1]) ∧
    (¬ ∃ h1 b1 a1, operator_assign (heap_one [1]) ctor_default (vec_zero 1 1) false
        = some (h1, b1, a1) ∧ a1.GetSize = 0 ∧ b1.toList h1 = [1]) ∧
    (ctor_move (heap_one [1]) (vec_zero 1 1)).map
        (fun r => (r.2.2.GetSize, r.2.1.toList r.1)) = some (0, [1]) := by
  have e : (operator_assign (heap_one [1]) ctor_default (vec_zero 1 1) false).map
      (fun r => (r.2.2.GetSize, r.2.2.toList r.1, r.2.1.toList r.1)) = some (1, [1], [1]) := by
    decide
  refine ⟨e, ?_, by decide⟩
  rintro ⟨h1, b1, a1, e1, hs, -⟩
  rw [e1] at e
  simp only [Option.map_some', Option.some.injEq, Prod.mk.injEq] at e
  omega

/-- What `b = std::move(a)` does for every non-empty source: for distinct
objects `a` and `b` satisfying the representation invariant and owning
different blocks, the call (the copy assignment operator, with `rhs` bound to
`a`) returns, makes the logical sequence of `b` the sequence `a` held, and
leaves `a` as it was: same members, same size, same elements. -/
theorem move_assignment_runs_copy_assignment [ElemType α] (h : Heap α) (b a : SimpleVector)
    (hb : Valid h b) (ha : Valid h a) (hd : Disjoint b a) (hpos : 0 < a.GetSize) :
    ∃ h1 b1 a1, operator_assign h b a false = some (h1, b1, a1) ∧
      b1.toList h1 = a.toList h ∧ a1 = a ∧ a1.GetSize = a.GetSize ∧
      a1.toList h1 = a.toList h ∧ Valid h1 b1 ∧ Valid h1 a1 := by
  obtain ⟨h1, b1, e, hvb, hlb, -, -, hva, hla, -⟩ := operator_assign_spec h b a hb ha hd hpos
  exact ⟨h1, b1, a, e, hlb, rfl, rfl, hla, hvb, hva⟩

/-- C10: for a vector `a` satisfying the representation invariant, move
construction of `b` from `a` returns (the drain loop ends within
`a.GetSize()` iterations), `b` has the size and the logical sequence `a` had,
with `size <= capacity`, and `a` is left with `GetSize() == 0`. -/
theorem C10_move_construction [ElemType α] (h : Heap α) (a : SimpleVector) (hv : Valid h a) :
    ∃ h1 b a1, ctor_move h a = some (h1, b, a1) ∧ b.GetSize = a.GetSize ∧
      b.toList h1 = a.toList h ∧ b.GetSize ≤ b.GetCapacity ∧ a1.GetSize = 0 ∧
      Valid h1 b ∧ Valid h1 a1 := by
  obtain ⟨h1, b, a1, e, hvb, hs, hl, hz, hva, -⟩ := ctor_move_spec h a hv
  exact ⟨h1, b, a1, e, hs, hl, hvb.1, hz, hvb, hva⟩

/-- Witness for C10: `a = [1, 9, 2]` with capacity 4. -/
theorem C10_move_construction_witness :
    Valid (heap_one [1, 9, 2, 0]) (vec_zero 3 4) ∧
    ∃ h1 b a1, ctor_move (heap_one [1, 9, 2, 0]) (vec_zero 3 4) = some (h1, b, a1) ∧
      b.GetSize = 3 ∧ b.toList h1 = [1, 9, 2] ∧ a1.GetSize = 0 := by
  obtain ⟨h1, b, a1, e, hs, hl, -, hz, -, -⟩ :=
    C10_move_construction (heap_one [1, 9, 2, 0]) (vec_zero 3 4) (by decide)
  exact ⟨by decide, h1, b, a1, e, hs, hl, hz⟩

end SV

namespace SV
variable {α : Type}
open SimpleVector

/-- C11: on a vector satisfying the representation invariant (size `n`,
capacity `c`, arbitrary stale cells beyond the logical end), `Resize(m)`
returns with `GetSize() == m`; the elements of index below `min(n, m)` are
unchanged; every element of index in `[n, m)` is `Type()`, in the
within-capacity and in the reallocating branch alike; the capacity does not
shrink and is unchanged when `m <= c`. -/
theorem C11_Resize_contents [ElemType α] (h : Heap α) (v : SimpleVector) (m : Nat)
    (hv : Valid h v) :
    ∃ h1 v1, Resize h v m = some (h1, v1) ∧ v1.GetSize = m ∧
      (∀ i, i < min v.GetSize m → (v1.toList h1)[i]? = (v.toList h)[i]?) ∧
      (∀ i, v.GetSize ≤ i → i < m → (v1.toList h1)[i]? = some (ElemType.dflt : α)) ∧
      v.GetCapacity ≤ v1.GetCapacity ∧ (m ≤ v.GetCapacity → v1.GetCapacity = v.GetCapacity) ∧
      Valid h1 v1 := by
  obtain ⟨h1, v1, e, hv1, hs, hl, hc, -, -⟩ := Resize_spec h v m hv
  have hlen := toList_length h v hv
  refine ⟨h1, v1, e, hs, ?_, ?_, ?_, ?_, hv1⟩
  · intro i hi
    simp only [GetSize] at hi
    rw [hl, List.getElem?_append_left (by rw [List.length_take, hlen]; omega),
      List.getElem?_take, if_pos (by omega)]
  · intro i hi1 hi2
    simp only [GetSize] at hi1
    have htl : ((v.toList h).take m).length = v.size_ := by
      rw [List.length_take, hlen]; omega
    rw [hl, List.getElem?_append_right (by rw [htl]; exact hi1), htl,
      List.getElem?_replicate, if_pos (by omega)]
  · simp only [GetCapacity, hc]
    split_ifs <;> omega
  · intro hm
    simp only [GetCapacity] at hm ⊢
    rw [hc, if_pos hm]

/-- Witness for C11: `[1, 9]` with capacity 4 and stale cells `2, 77`;
`Resize(3)` exposes a cell that held 2 and now holds `int()`. -/
theorem C11_Resize_contents_witness :
    Valid (heap_one [1, 9, 2, 77]) (vec_zero 2 4) ∧
    ∃ h1 v1, Resize (heap_one [1, 9, 2, 77]) (vec_zero 2 4) 3 = some (h1, v1) ∧
      v1.GetSize = 3 ∧ (v1.toList h1)[2]? = some 0 ∧ v1.GetCapacity = 4 := by
  obtain ⟨h1, v1, e, hs, -, hd, -, hc, -⟩ :=
    C11_Resize_contents (heap_one [1, 9, 2, 77]) (vec_zero 2 4) 3 (by decide)
  exact ⟨by decide, h1, v1, e, hs, hd 2 (by decide) (by decide), hc (by decide)⟩

/-- C16: on a vector satisfying the representation invariant, with logical
sequence `s`, for `p <= size`: `Insert(begin() + p, value)` (either overload,
reallocating or not) followed by `Erase` of the returned position returns,
and the logical sequence is `s` again and the size is the original size.  The
argument of `Insert` is an object of its own and, for the `const Type&`
overload, also any cell of a live block, an element of the vector included. -/
theorem C16_Erase_undoes_Insert [ElemType α] (h : Heap α) (v : SimpleVector) (p : Nat)
    (value : α) (hv : Valid h v) (hp : p ≤ v.GetSize) :
    (∃ h1 v1 r h2 v2 r2,
      SimpleVector.Insert h v (v.begin_.add p) (Ref.obj value) = some (h1, v1, r) ∧
      Erase h1 v1 r = some (h2, v2, r2) ∧ v2.toList h2 = v.toList h ∧
      v2.GetSize = v.GetSize) ∧
    (∃ h1 v1 r h2 v2 r2,
      Insert_rvalue h v (v.begin_.add p) (Ref.obj value) = some (h1, v1, r) ∧
      Erase h1 v1 r = some (h2, v2, r2) ∧ v2.toList h2 = v.toList h ∧
      v2.GetSize = v.GetSize) ∧
    (∀ b o x, b < h.next → h.load ⟨some b, o⟩ = some x →
      ∃ h1 v1 r h2 v2 r2,
        SimpleVector.Insert h v (v.begin_.add p) (Ref.cell ⟨some b, o⟩) = some (h1, v1, r) ∧
        Erase h1 v1 r = some (h2, v2, r2) ∧ v2.toList h2 = v.toList h ∧
        v2.GetSize = v.GetSize) := by
  have main : ∀ value : α,
      ∃ h1 v1 r h2 v2 r2,
        SimpleVector.Insert h v (v.begin_.add p) (Ref.obj value) = some (h1, v1, r) ∧
        Insert_rvalue h v (v.begin_.add p) (Ref.obj value) = some (h1, v1, r) ∧
        Erase h1 v1 r = some (h2, v2, r2) ∧ v2.toList h2 = v.toList h ∧
        v2.GetSize = v.GetSize := by
    intro value
    obtain ⟨h1, v1, r, e1, e2, hv1, hs1, hl1, hr, -, -, -, -⟩ := Insert_spec h v p value hv hp
    have hp1 : p < v1.size_ := by simp only [GetSize] at hp; omega
    obtain ⟨h2, v2, r2, e3, -, hl2, hs2, -, -, -, -, -⟩ := Erase_spec h1 v1 p hv1 hp1
    rw [← hr] at e3
    have hlen := toList_length h v hv
    have hl : v2.toList h2 = v.toList h := by
      rw [hl2, hl1, List.eraseIdx_eq_take_drop_succ]
      simp only [GetSize] at hp
      have ht : ((v.toList h).take p).length = p := by rw [List.length_take, hlen]; omega
      rw [List.append_assoc, List.take_left' ht, List.drop_append_eq_append_drop, ht,
        List.drop_of_length_le (by rw [ht]; omega)]
      simp
    have hs : v2.GetSize = v.GetSize := by simp only [GetSize]; omega
    exact ⟨h1, v1, r, h2, v2, r2, e1, e2, e3, hl, hs⟩
  refine ⟨?_, ?_, fun b o x hb hx => ?_⟩
  · obtain ⟨h1, v1, r, h2, v2, r2, e1, -, e3, hl, hs⟩ := main value
    exact ⟨h1, v1, r, h2, v2, r2, e1, e3, hl, hs⟩
  · obtain ⟨h1, v1, r, h2, v2, r2, -, e2, e3, hl, hs⟩ := main value
    exact ⟨h1, v1, r, h2, v2, r2, e2, e3, hl, hs⟩
  · obtain ⟨y, ey, -⟩ := Insert_cell_spec h v p b o x hv hp hb hx
    obtain ⟨h1, v1, r, h2, v2, r2, e1, -, e3, hl, hs⟩ := main y
    exact ⟨h1, v1, r, h2, v2, r2, ey.trans e1, e3, hl, hs⟩

/-- Witness for C16: the full vector `[1, 2, 3]` (the `Insert` reallocates). -/
theorem C16_Erase_undoes_Insert_witness :
    Valid (heap_one [1, 2, 3]) (vec_zero 3 3) ∧ 1 ≤ (vec_zero 3 3).GetSize ∧
    ∃ h1 v1 r h2 v2 r2, SimpleVector.Insert (heap_one [1, 2, 3]) (vec_zero 3 3)
        ((vec_zero 3 3).begin_.add 1) (Ref.obj 9) = some (h1, v1, r) ∧
      Erase h1 v1 r = some (h2, v2, r2) ∧ v2.toList h2 = [1, 2, 3] ∧ v2.GetSize = 3 :=
  ⟨by decide, by decide,
    (C16_Erase_undoes_Insert (heap_one [1, 2, 3]) (vec_zero 3 3) 1 9 (by decide) (by decide)).1⟩

/-- C17: on a vector satisfying the representation invariant, with logical
sequence `s` of size `n`, for every `k > n`: `Resize(k)` followed by
`Resize(n)` returns with size `n` and logical sequence `s`, whether or not
`Resize(k)` reallocated. -/
theorem C17_Resize_round_trip [ElemType α] (h : Heap α) (v : SimpleVector) (k : Nat)
    (hv : Valid h v) (hk : v.GetSize < k) :
    ∃ h1 v1 h2 v2, Resize h v k = some (h1, v1) ∧ Resize h1 v1 v.GetSize = some (h2, v2) ∧
      v2.GetSize = v.GetSize ∧ v2.toList h2 = v.toList h := by
  obtain ⟨h1, v1, e1, hv1, hs1, hl1, -, -, -⟩ := Resize_spec h v k hv
  obtain ⟨h2, v2, e2, -, hs2, hl2, -, -, -⟩ := Resize_spec h1 v1 v.GetSize hv1
  have hlen := toList_length h v hv
  refine ⟨h1, v1, h2, v2, e1, e2, hs2, ?_⟩
  simp only [GetSize] at hk hl2
  have e0 : v.size_ - v1.size_ = 0 := by omega
  rw [hl2, hl1, e0, List.take_of_length_le (by omega : (v.toList h).length ≤ k),
    List.take_left' hlen]
  simp

/-- Witness for C17: the full vector `[1, 2, 3]`, so that `Resize(5)` reallocates. -/
theorem C17_Resize_round_trip_witness :
    Valid (heap_one [1, 2, 3]) (vec_zero 3 3) ∧ (vec_zero 3 3).GetSize < 5 ∧
    ∃ h1 v1 h2 v2, Resize (heap_one [1, 2, 3]) (vec_zero 3 3) 5 = some (h1, v1) ∧
      Resize h1 v1 (vec_zero 3 3).GetSize = some (h2, v2) ∧
      v2.GetSize = (vec_zero 3 3).GetSize ∧
      v2.toList h2 = (vec_zero 3 3).toList (heap_one [1, 2, 3]) :=
  ⟨by decide, by decide,
    C17_Resize_round_trip (heap_one [1, 2, 3]) (vec_zero 3 3) 5 (by decide) (by decide)⟩

end SV

namespace SV
variable {α : Type}
open SimpleVector

theorem Reserve_noop [ElemType α] (h : Heap α) (v : SimpleVector) (n : Nat)
    (hn : n ≤ v.capacity_) : Reserve h v n = some (h, v) := by
  have : ¬ n > v.capacity_ := Nat.not_lt.mpr hn
  simp [Reserve, this]

theorem Reserve_grow_block [ElemType α] (h : Heap α) (a size cap n : Nat) (A : List α)
    (ha : a < h.next) (hA : h.blocks a = some A) (hlen : A.length = cap) (hle : size ≤ cap)
    (hn : cap < n) :
    Reserve h ⟨⟨⟨some a, 0⟩⟩, size, cap⟩ n =
      some (((h.setBlock h.next (some (splice (default_init α n) 0 (A.take size)))).setBlock a
          none).bump, ⟨⟨⟨some h.next, 0⟩⟩, size, n⟩) := by
  have hne : a ≠ h.next := Nat.ne_of_lt ha
  have hn0 : n ≠ 0 := by omega
  have hc := copy_loop_cross true size (h.setBlock h.next (some (default_init α n))).bump a
    h.next 0 0 A (default_init α n) hne
    (by simp [Heap.setBlock_blocks, hne, hA]) (by simp) (by omega)
    (by rw [default_init_length]; omega)
  have hAs : (A.drop 0).take size = A.take size := by simp
  rw [hAs] at hc
  have hd := Heap.delete_array_eq
    (((h.setBlock h.next (some (default_init α n))).bump.setBlock h.next
      (some (splice (default_init α n) 0 (A.take size)))).setBlock a
        (some (leave_fwd true size A 0)))
    a (leave_fwd true size A 0) (Heap.setBlock_blocks_same _ _ _)
  simp only [Reserve, gt_iff_lt, hn, if_true, ArrayPtr.ctor_size_pos h n hn0, std_copy,
    ArrayPtr.Get, Ptr.add, Ptr.distance, Nat.zero_add, Nat.zero_le, and_self, Nat.sub_zero, hc,
    ArrayPtr.swap, ArrayPtr.dtor, hd]
  congr 2
  refine Heap.ext_blocks (fun c => ?_) rfl
  simp only [Heap.setBlock_blocks, Heap.bump_blocks]
  split_ifs <;> first | rfl | omega

theorem Reserve_spec [ElemType α] (h : Heap α) (v : SimpleVector) (n : Nat) (hv : Valid h v) :
    ∃ h1 v1, Reserve h v n = some (h1, v1) ∧ Valid h1 v1 ∧
      v1.capacity_ = max v.capacity_ n ∧ v1.size_ = v.size_ ∧ v1.toList h1 = v.toList h ∧
      (n ≤ v.capacity_ → h1 = h ∧ v1 = v) ∧ Frame h h1 v ∧ Rehomed h v v1 := by
  rcases Nat.lt_or_ge v.capacity_ n with hn | hn
  swap
  · exact ⟨h, v, Reserve_noop h v n hn, hv, (Nat.max_eq_left hn).symm, rfl, rfl,
      fun _ => ⟨rfl, rfl⟩, ⟨Nat.le_refl _, fun _ _ _ => rfl⟩, Or.inl rfl⟩
  · obtain ⟨array_, size, cap⟩ := v
    simp only at hn
    have hmax : max cap n = n := Nat.max_eq_right (Nat.le_of_lt hn)
    rcases hv.cases with ⟨e1, e2, e3⟩ | ⟨a, A, e1, ha, hA, hlen, hle⟩
    · simp only at e1 e2 e3
      subst e1 e2 e3
      refine ⟨_, _, Reserve_default_pos h n hn, ?_, hmax.symm, rfl, ?_, fun hc => ?_,
        Frame_fresh_null _ _ _, Or.inr ⟨h.next, Nat.le_refl _, rfl⟩⟩
      · exact Valid_of_block _ _ _ _ _ (by simp) (Heap.bump_setBlock_blocks_same _ _ _)
          (default_init_length n) (Nat.zero_le _)
      · rw [toList_eq _ _ _ _ _ (Heap.bump_setBlock_blocks_same _ _ _), toList_null]
        simp
      · simp only at hc; omega
    · simp only at e1 hlen hle
      subst e1
      have hne : a ≠ h.next := Nat.ne_of_lt ha
      have hts : (A.take size).length = size := by rw [List.length_take]; omega
      have hB : 0 + (A.take size).length ≤ (default_init α n).length := by
        rw [hts, default_init_length]; omega
      refine ⟨_, _, Reserve_grow_block h a size cap n A ha hA hlen hle hn, ?_, hmax.symm, rfl,
        ?_, fun hc => ?_, Frame_fresh _ _ _ _ rfl, Or.inr ⟨h.next, Nat.le_refl _, rfl⟩⟩
      · exact Valid_of_block _ _ _ _ _ (by simp) (Heap.blocks_fresh_after_free _ _ _ _ hne)
          (by rw [splice_length _ _ _ hB, default_init_length]) (by omega)
      · rw [toList_eq _ _ _ _ _ (Heap.blocks_fresh_after_free _ _ _ _ hne),
          toList_eq _ _ _ _ _ hA]
        have := splice_zero_take (default_init α n) (A.take size)
          (by rw [hts, default_init_length]; omega)
        rw [hts] at this
        exact this
      · simp only at hc; omega

/-- Pushing into spare capacity never reallocates. -/
theorem push_all_capacity [ElemType α] (calls : List (Bool × α)) (h : Heap α)
    (v : SimpleVector) (hv : Valid h v) (hroom : v.size_ + calls.length ≤ v.capacity_) :
    ∃ h1 v1, push_all h v calls = some (h1, v1) ∧ v1.capacity_ = v.capacity_ ∧
      v1.toList h1 = v.toList h ++ calls.map Prod.snd := by
  induction calls generalizing h v with
  | nil => exact ⟨h, v, rfl, rfl, by simp⟩
  | cons c calls ih =>
    obtain ⟨rvalue, item⟩ := c
    simp only [List.length_cons] at hroom
    obtain ⟨h1, v1, e1, hv1, hs1, hl1, hc1, -, -⟩ := PushBack_impl_spec rvalue h v item hv
    have hne : v.size_ ≠ v.capacity_ := by omega
    rw [if_neg hne] at hc1
    obtain ⟨h2, v2, e2, hc2, hl2⟩ := ih h1 v1 hv1 (by omega)
    refine ⟨h2, v2, ?_, by omega, ?_⟩
    · cases rvalue <;> simp [push_all, PushBack, PushBack_rvalue, e1, e2]
    · rw [hl2, hl1]; simp

/-- C12: on a vector satisfying the representation invariant, with capacity
`c`, `Reserve(n)` returns with `GetCapacity() == max(c, n)`, the same size and
the same elements, and changes nothing when `n <= c`; a vector constructed
from the reservation token `Reserve(n)` has size 0 and capacity `n`, and up
to `n` subsequent `PushBack` calls (either overload) leave the capacity `n`. -/
theorem C12_Reserve_capacity [ElemType α] (h : Heap α) (v : SimpleVector) (n : Nat)
    (hv : Valid h v) :
    (∃ h1 v1, Reserve h v n = some (h1, v1) ∧ v1.GetCapacity = max v.GetCapacity n ∧
      v1.GetSize = v.GetSize ∧ v1.toList h1 = v.toList h ∧
      (n ≤ v.GetCapacity → h1 = h ∧ v1 = v) ∧ Valid h1 v1) ∧
    (∃ h1 v1, ctor_reserve h (Reserve_proxy n) = some (h1, v1) ∧ v1.GetSize = 0 ∧
      v1.GetCapacity = n ∧
      ∀ calls : List (Bool × α), calls.length ≤ n →
        ∃ h2 v2, push_all h1 v1 calls = some (h2, v2) ∧ v2.GetCapacity = n ∧
          v2.toList h2 = calls.map Prod.snd) := by
  constructor
  · obtain ⟨h1, v1, e, hv1, hc, hs, hl, hno, -, -⟩ := Reserve_spec h v n hv
    exact ⟨h1, v1, e, hc, hs, hl, hno, hv1⟩
  · obtain ⟨h1, v1, e, hv1, hc, hs, hl, -, -, -⟩ :=
      Reserve_spec h ctor_default n (Valid_ctor_default h)
    have hc0 : v1.capacity_ = n := by rw [hc]; exact Nat.max_eq_right (Nat.zero_le n)
    have hs0 : v1.size_ = 0 := hs
    refine ⟨h1, v1, e, hs0, hc0, fun calls hcalls => ?_⟩
    obtain ⟨h2, v2, e2, hc2, hl2⟩ := push_all_capacity calls h1 v1 hv1 (by omega)
    refine ⟨h2, v2, e2, by simp only [GetCapacity]; omega, ?_⟩
    rw [hl2, hl, toList_ctor_default]
    simp

/-- Witness for C12: `[1, 9]` with capacity 2, `Reserve(5)`. -/
theorem C12_Reserve_capacity_witness :
    Valid (heap_one [1, 9]) (vec_zero 2 2) ∧
    ∃ h1 v1, Reserve (heap_one [1, 9]) (vec_zero 2 2) 5 = some (h1, v1) ∧
      v1.GetCapacity = 5 ∧ v1.GetSize = 2 ∧ v1.toList h1 = [1, 9] := by
  obtain ⟨h1, v1, e, hc, hs, hl, -, -⟩ :=
    (C12_Reserve_capacity (heap_one [1, 9]) (vec_zero 2 2) 5 (by decide)).1
  exact ⟨by decide, h1, v1, e, hc, hs, hl⟩

end SV

namespace SV
variable {α : Type}
open SimpleVector

theorem elem_eq_toList (h : Heap α) (v : SimpleVector) (i : Nat) (hv : Valid h v)
    (hi : i < v.size_) : v.elem h i = (v.toList h)[i]? := by
  obtain ⟨x, hx1, hx2⟩ := toList_getElem? h v i hv hi
  simp [SimpleVector.elem, operator_index, hi, hx1, hx2]

theorem elem_isSome (h : Heap α) (v : SimpleVector) (i : Nat) (hv : Valid h v)
    (hi : i < v.size_) : ∃ x, v.elem h i = some x := by
  obtain ⟨x, hx1, hx2⟩ := toList_getElem? h v i hv hi
  exact ⟨x, by simp [SimpleVector.elem, operator_index, hi, hx1]⟩

/-- C14: for vectors `a` and `b` satisfying the representation invariant
(whatever their capacities and the cells beyond their logical ends),
`a == b` returns, and is true if and only if the sizes are equal and
`a[i]` equals `b[i]` for every `i` below the size; `a != b` is its negation. -/
theorem C14_equality_operators [DecidableEq α] (h : Heap α) (a b : SimpleVector)
    (ha : Valid h a) (hb : Valid h b) :
    ∃ r, operator_eq h a b = some r ∧ operator_ne h a b = some (!r) ∧
      (r = true ↔ a.GetSize = b.GetSize ∧ ∀ i, i < a.GetSize → a.elem h i = b.elem h i) := by
  have hla := toList_length h a ha
  have hlb := toList_length h b hb
  refine ⟨decide (a.toList h = b.toList h), operator_eq_of_toList h a b ha hb, ?_, ?_⟩
  · simp [operator_ne, operator_eq_of_toList h a b ha hb]
  · simp only [decide_eq_true_eq, GetSize]
    constructor
    · intro e
      have hs : a.size_ = b.size_ := by rw [← hla, ← hlb, e]
      refine ⟨hs, fun i hi => ?_⟩
      rw [elem_eq_toList h a i ha hi, elem_eq_toList h b i hb (by omega), e]
    · rintro ⟨hs, hall⟩
      apply List.ext_getElem?
      intro i
      by_cases hi : i < a.size_
      · rw [← elem_eq_toList h a i ha hi, ← elem_eq_toList h b i hb (by omega)]
        exact hall i hi
      · rw [List.getElem?_eq_none (by omega), List.getElem?_eq_none (by omega)]

/-- Witness for C14: `[1, 9]` with capacity 2 equals `[1, 9]` with capacity 4
and stale cells, and differs from `[1, 9, 2]`. -/
theorem C14_equality_operators_witness :
    Valid (heap_two [1, 9] [1, 9, 2, 77]) (vec_zero 2 2) ∧
    Valid (heap_two [1, 9] [1, 9, 2, 77]) (vec_one 2 4) ∧
    operator_eq (heap_two [1, 9] [1, 9, 2, 77]) (vec_zero 2 2) (vec_one 2 4) = some true ∧
    operator_ne (heap_two [1, 9] [1, 9, 2, 77]) (vec_zero 2 2) (vec_one 2 4) = some false ∧
    operator_eq (heap_two [1, 9] [1, 9, 2, 77]) (vec_zero 2 2) (vec_one 3 4) = some false := by
  obtain ⟨r, e1, e2, hr⟩ := C14_equality_operators (heap_two [1, 9] [1, 9, 2, 77])
    (vec_zero 2 2) (vec_one 2 4) (by decide) (by decide)
  have hrt : r = true := hr.mpr ⟨by decide, by decide⟩
  subst hrt
  exact ⟨by decide, by decide, e1, e2, by decide⟩

end SV

namespace SV
variable {α : Type}
open SimpleVector

theorem lex_loop_zero_left [LT α] [∀ x y : α, Decidable (x < y)] (n2 : Nat) (h : Heap α)
    (p q : Ptr) : lexicographical_compare_loop 0 n2 h p q = some (decide (n2 ≠ 0)) := by
  cases n2 <;> simp [lexicographical_compare_loop]

theorem lex_loop_zero_right [LT α] [∀ x y : α, Decidable (x < y)] (n1 : Nat) (h : Heap α)
    (p q : Ptr) : lexicographical_compare_loop n1 0 h p q = some false := by
  cases n1 <;> simp [lexicographical_compare_loop]

theorem lex_less_nil_left [LT α] [∀ x y : α, Decidable (x < y)] (l : List α) :
    lex_less [] l = decide (l.length ≠ 0) := by
  cases l <;> simp [lex_less]

theorem lex_less_nil_right [LT α] [∀ x y : α, Decidable (x < y)] (l : List α) :
    lex_less l [] = false := by
  cases l <;> simp [lex_less]

/-- The loop of `std::lexicographical_compare` compares the two ranges
lexicographically. -/
theorem lex_loop_eq [LT α] [∀ x y : α, Decidable (x < y)] (n1 n2 : Nat) (h : Heap α)
    (a b i j : Nat) (A B : List α) (ha : h.blocks a = some A) (hb : h.blocks b = some B)
    (hi : i + n1 ≤ A.length) (hj : j + n2 ≤ B.length) :
    lexicographical_compare_loop n1 n2 h ⟨some a, i⟩ ⟨some b, j⟩ =
      some (lex_less ((A.drop i).take n1) ((B.drop j).take n2)) := by
  induction n1 generalizing n2 i j with
  | zero =>
    rw [lex_loop_zero_left, List.take_zero, lex_less_nil_left, slice_length B j n2 hj]
  | succ n1 ih =>
    cases n2 with
    | zero => rw [lex_loop_zero_right, List.take_zero, lex_less_nil_right]
    | succ n2 =>
      have hi1 : i < A.length := by omega
      have hj1 : j < B.length := by omega
      have hl1 : h.load ⟨some a, i⟩ = some A[i] := by
        rw [Heap.load_eq h a i A ha]; exact List.getElem?_eq_getElem hi1
      have hl2 : h.load ⟨some b, j⟩ = some B[j] := by
        rw [Heap.load_eq h b j B hb]; exact List.getElem?_eq_getElem hj1
      simp only [lexicographical_compare_loop, hl1, hl2, Ptr.add, slice_cons A i n1 hi1,
        slice_cons B j n2 hj1, lex_less]
      by_cases hxy : A[i] < B[j]
      · simp [hxy]
      · by_cases hyx : B[j] < A[i]
        · simp [hxy, hyx]
        · simp only [hxy, hyx, if_false]
          exact ih n2 (i + 1) (j + 1) (by omega) (by omega)

/-- `operator<` is the lexicographic comparison of the two logical sequences. -/
theorem operator_lt_of_toList [LT α] [∀ x y : α, Decidable (x < y)] (h : Heap α)
    (a b : SimpleVector) (ha : Valid h a) (hb : Valid h b) :
    operator_lt h a b = some (lex_less (a.toList h) (b.toList h)) := by
  have hla := toList_length h a ha
  have hlb := toList_length h b hb
  obtain ⟨aarr, asize, acap⟩ := a
  obtain ⟨barr, bsize, bcap⟩ := b
  simp only at hla hlb
  rcases ha.cases with ⟨e1, e2, e3⟩ | ⟨a, A, e1, haa, hA, hlen, hle⟩
  · simp only at e1 e2 e3
    subst e1 e2 e3
    rw [toList_null, lex_less_nil_left, hlb]
    obtain ⟨⟨bblk, boff⟩⟩ := barr
    have hoff : boff = 0 := hb.2.1
    subst hoff
    simp only [operator_lt, std_lexicographical_compare, begin_, end_, ArrayPtr.Get, Ptr.add,
      Ptr.distance, Nat.zero_add, Nat.le_refl, and_self, if_true, Nat.sub_self, Nat.zero_le,
      Nat.sub_zero, lex_loop_zero_left]
  · simp only at e1 hlen hle
    subst e1
    rcases hb.cases with ⟨f1, f2, f3⟩ | ⟨b, B, f1, hbb, hB, hlenB, hleB⟩
    · simp only at f1 f2 f3
      subst f1 f2 f3
      rw [toList_null, lex_less_nil_right]
      simp only [operator_lt, std_lexicographical_compare, begin_, end_, ArrayPtr.Get, Ptr.add,
        Ptr.distance, Nat.zero_add, Nat.le_refl, and_self, if_true, Nat.sub_self, Nat.zero_le,
        Nat.sub_zero, lex_loop_zero_right]
    · simp only at f1 hlenB hleB
      subst f1
      have hl := lex_loop_eq asize bsize h a b 0 0 A B hA hB (by omega) (by omega)
      rw [toList_eq _ _ _ _ _ hA, toList_eq _ _ _ _ _ hB]
      simp only [operator_lt, std_lexicographical_compare, begin_, end_, ArrayPtr.Get, Ptr.add,
        Ptr.distance, Nat.zero_add, Nat.zero_le, and_self, if_true, Nat.sub_zero, hl,
        List.drop_zero]

theorem lex_less_iff_Lex [LinearOrder α] (a b : List α) :
    lex_less a b = true ↔ List.Lex (· < ·) a b := by
  induction a generalizing b with
  | nil =>
    cases b with
    | nil => simp [lex_less]
    | cons y ys => simp [lex_less, List.Lex.nil]
  | cons x xs ih =>
    cases b with
    | nil => simp [lex_less]
    | cons y ys =>
      simp only [lex_less]
      by_cases hxy : x < y
      · simp only [hxy, if_true, true_iff]
        exact List.Lex.rel hxy
      · by_cases hyx : y < x
        · simp only [hxy, hyx, if_false, if_true, Bool.false_eq_true, false_iff]
          intro hl
          cases hl with
          | cons hl => exact lt_irrefl _ hyx
          | rel hr => exact hxy hr
        · have hxe : x = y := le_antisymm (not_lt.mp hyx) (not_lt.mp hxy)
          subst hxe
          simp only [hxy, if_false, ih]
          constructor
          · exact fun hl => List.Lex.cons hl
          · intro hl
            cases hl with
            | cons hl => exact hl
            | rel hr => exact absurd hr hxy

/-- Exactly one of `a < b`, `a = b`, `b < a` holds for the lexicographic comparison. -/
theorem lex_less_trichotomy [LinearOrder α] (a b : List α) :
    (lex_less a b = true ∧ a ≠ b ∧ lex_less b a = false) ∨
    (lex_less a b = false ∧ a = b ∧ lex_less b a = false) ∨
    (lex_less a b = false ∧ a ≠ b ∧ lex_less b a = true) := by
  induction a generalizing b with
  | nil =>
    cases b with
    | nil => simp [lex_less]
    | cons y ys => simp [lex_less]
  | cons x xs ih =>
    cases b with
    | nil => simp [lex_less]
    | cons y ys =>
      simp only [lex_less, List.cons.injEq, ne_eq]
      by_cases hxy : x < y
      · have hyx : ¬ y < x := lt_asymm hxy
        have hne : x ≠ y := ne_of_lt hxy
        simp [hxy, hyx, hne]
      · by_cases hyx : y < x
        · have hne : x ≠ y := (ne_of_lt hyx).symm
          simp [hxy, hyx, hne]
        · have hxe : x = y := le_antisymm (not_lt.mp hyx) (not_lt.mp hxy)
          subst hxe
          simp only [hxy, if_false, true_and]
          exact ih ys

end SV
namespace SV
variable {α : Type}
open SimpleVector

theorem lex_less_proper_beginning [LinearOrder α] (l : List α) (x : α) (xs : List α) :
    lex_less l (l ++ x :: xs) = true := by
  induction l with
  | nil => simp [lex_less]
  | cons y ys ih => simp [lex_less, ih]

/-- C15: for vectors `a` and `b` satisfying the representation invariant, over
a linearly ordered element type, the six comparisons return; `a < b` is true
if and only if the logical sequence of `a` is lexicographically less than
that of `b` (in particular when it is a proper beginning of it); `a > b` is
`b < a`, `a <= b` is the negation of `b < a`, `a >= b` is the negation of
`a < b`; exactly one of `a < b`, `a == b`, `a > b` is true; and `a <= b` is
true if and only if `a < b` or `a == b` is. -/
theorem C15_ordering_operators [LinearOrder α] (h : Heap α) (a b : SimpleVector)
    (ha : Valid h a) (hb : Valid h b) :
    ∃ lt gt eq : Bool, operator_lt h a b = some lt ∧ operator_lt h b a = some gt ∧
      operator_eq h a b = some eq ∧ operator_gt h a b = some gt ∧
      operator_le h a b = some (!gt) ∧ operator_ge h a b = some (!lt) ∧
      (lt = true ↔ List.Lex (· < ·) (a.toList h) (b.toList h)) ∧
      (gt = true ↔ List.Lex (· < ·) (b.toList h) (a.toList h)) ∧
      (∀ x xs, b.toList h = a.toList h ++ x :: xs → lt = true) ∧
      ((lt = true ∧ eq = false ∧ gt = false) ∨ (lt = false ∧ eq = true ∧ gt = false) ∨
        (lt = false ∧ eq = false ∧ gt = true)) ∧
      ((!gt) = true ↔ lt = true ∨ eq = true) := by
  have hlt := operator_lt_of_toList h a b ha hb
  have hgt := operator_lt_of_toList h b a hb ha
  have heq := operator_eq_of_toList h a b ha hb
  have hgt2 : operator_gt h a b = some (lex_less (b.toList h) (a.toList h)) := hgt
  have hle : operator_le h a b = some (!lex_less (b.toList h) (a.toList h)) := by
    have : operator_le h a b = (operator_lt h b a).map not := rfl
    rw [this, hgt]; rfl
  have hge : operator_ge h a b = some (!lex_less (a.toList h) (b.toList h)) := by
    have : operator_ge h a b = (operator_lt h a b).map not := rfl
    rw [this, hlt]; rfl
  refine ⟨_, _, _, hlt, hgt, heq, hgt2, hle, hge, lex_less_iff_Lex _ _, lex_less_iff_Lex _ _,
    ?_, ?_, ?_⟩
  · intro x xs e
    rw [e]
    exact lex_less_proper_beginning _ x xs
  · rcases lex_less_trichotomy (a.toList h) (b.toList h) with ⟨h1, h2, h3⟩ | ⟨h1, h2, h3⟩ |
      ⟨h1, h2, h3⟩
    · exact Or.inl ⟨h1, by simp [h2], h3⟩
    · exact Or.inr (Or.inl ⟨h1, by simp [h2], h3⟩)
    · exact Or.inr (Or.inr ⟨h1, by simp [h2], h3⟩)
  · rcases lex_less_trichotomy (a.toList h) (b.toList h) with ⟨h1, h2, h3⟩ | ⟨h1, h2, h3⟩ |
      ⟨h1, h2, h3⟩
    · simp [h1, h3]
    · simp only [h3, Bool.not_false, true_iff]
      exact Or.inr (decide_eq_true h2)
    · simp [h1, h2, h3]

/-- Witness for C15: `{1,2} < {1,2,3}`; `{1,3} > {1,2,9}`; `{} < {1}`; equal
sequences are neither `<` nor `>`. -/
theorem C15_ordering_operators_witness :
    Valid (heap_two [1, 2] [1, 2, 3]) (vec_zero 2 2) ∧
    Valid (heap_two [1, 2] [1, 2, 3]) (vec_one 3 3) ∧
    operator_lt (heap_two [1, 2] [1, 2, 3]) (vec_zero 2 2) (vec_one 3 3) = some true ∧
    operator_gt (heap_two [1, 3] [1, 2, 9]) (vec_zero 2 2) (vec_one 3 3) = some true ∧
    operator_lt (heap_one [1]) ctor_default (vec_zero 1 1) = some true ∧
    operator_lt (heap_two [1, 2] [1, 2, 3]) (vec_zero 2 2) (vec_one 2 3) = some false ∧
    operator_gt (heap_two [1, 2] [1, 2, 3]) (vec_zero 2 2) (vec_one 2 3) = some false := by
  obtain ⟨lt, gt, eq, e1, -, -, -, -, -, -, -, hp, -, -⟩ :=
    C15_ordering_operators (heap_two [1, 2] [1, 2, 3]) (vec_zero 2 2) (vec_one 3 3)
      (by decide) (by decide)
  have hlt : lt = true := hp 3 [] (by decide)
  subst hlt
  exact ⟨by decide, by decide, e1, by decide, by decide, by decide, by decide⟩

end SV

namespace SV
variable {α : Type}
open SimpleVector

/-- `Release` hands the pointer over and leaves the object empty; `swap`
exchanges the two pointers; a default-constructed object is empty. -/
theorem ArrayPtr_Release_swap (a b : ArrayPtr) :
    (ArrayPtr.Release a).1 = a.Get ∧ (ArrayPtr.Release a).2.Get = Ptr.null ∧
    (ArrayPtr.Release a).2.operator_bool = false ∧
    (a.swap b).1.Get = b.Get ∧ (a.swap b).2.Get = a.Get ∧
    ArrayPtr.ctor_default.operator_bool = false :=
  ⟨rfl, rfl, rfl, rfl, rfl, rfl⟩

/-- After either move operation the destination holds the source's pointer
and the source still holds it too. -/
theorem ArrayPtr_move_copies_pointer (a other : ArrayPtr) :
    (ArrayPtr.ctor_move other).1.Get = other.Get ∧ (ArrayPtr.ctor_move other).2 = other ∧
    (ArrayPtr.operator_assign_move a other).1.Get = other.Get ∧
    (ArrayPtr.operator_assign_move a other).2 = other :=
  ⟨rfl, rfl, rfl, rfl⟩

/-- C18 (defect in the code): the move constructor and the move assignment of
`ArrayPtr` copy `other.Get()` and never write `other.raw_ptr_`.  With the
source holding the block at address 0: after the move the source is not
empty (its pointer is still the block, its boolean conversion is `true`),
source and destination hold the same non-null pointer, and destroying both
deletes the block twice. -/
theorem C18_ArrayPtr_move_leaves_source_owning :
    (ArrayPtr.ctor_move ⟨⟨some 0, 0⟩⟩).2.Get = ⟨some 0, 0⟩ ∧
    (ArrayPtr.ctor_move ⟨⟨some 0, 0⟩⟩).2.operator_bool = true ∧
    (ArrayPtr.ctor_move ⟨⟨some 0, 0⟩⟩).1.Get = (ArrayPtr.ctor_move ⟨⟨some 0, 0⟩⟩).2.Get ∧
    (ArrayPtr.operator_assign_move ArrayPtr.ctor_default ⟨⟨some 0, 0⟩⟩).2.operator_bool = true ∧
    (ArrayPtr.operator_assign_move ArrayPtr.ctor_default ⟨⟨some 0, 0⟩⟩).1.Get =
      (ArrayPtr.operator_assign_move ArrayPtr.ctor_default ⟨⟨some 0, 0⟩⟩).2.Get ∧
    (match ArrayPtr.dtor (heap_one [1, 2, 3]) (ArrayPtr.ctor_move ⟨⟨some 0, 0⟩⟩).1 with
      | none => none
      | some h1 => ArrayPtr.dtor h1 (ArrayPtr.ctor_move ⟨⟨some 0, 0⟩⟩).2) = none := by
  refine ⟨rfl, rfl, rfl, rfl, rfl, ?_⟩
  simp [ArrayPtr.dtor, ArrayPtr.ctor_move, ArrayPtr.Get, Heap.delete_array, heap_one,
    Heap.setBlock]

end SV

namespace SV
variable {α : Type}
open SimpleVector

/-- With a successful allocation the calls end as in the model without
allocation failure. -/
theorem alloc_ok_is_run [ElemType α] (h : Heap α) (v rhs : SimpleVector) (mv flag : Bool)
    (item : α) (value : Ref α) (n : Nat) (pos : Ptr) :
    PushBack_alloc true mv h v item = Ending.of_run (PushBack_impl mv h v item) ∧
    Resize_alloc true h v n = Ending.of_run (Resize h v n) ∧
    Reserve_alloc true h v n = Ending.of_run (Reserve h v n) ∧
    operator_assign_alloc true h v rhs flag = Ending.of_run (operator_assign h v rhs flag) ∧
    Insert_alloc true mv h v pos value =
      Ending.of_run (if mv then Insert_rvalue h v pos value
        else SimpleVector.Insert h v pos value) := by
  refine ⟨?_, ?_, ?_, ?_, ?_⟩
  · simp [PushBack_alloc]
  · simp [Resize_alloc]
  · simp [Reserve_alloc]
  · simp [operator_assign_alloc]
  · cases hp : v.begin_.distance pos with
    | none => cases mv <;> simp [Insert_alloc, SimpleVector.Insert, Insert_rvalue, hp, Ending.of_run]
    | some p =>
      cases he : v.begin_.distance v.end_ with
      | none =>
        cases mv <;> simp [Insert_alloc, SimpleVector.Insert, Insert_rvalue, hp, he, Ending.of_run]
      | some e =>
        by_cases hle : p ≤ v.size_
        · simp [Insert_alloc, hp, he, hle]
        · cases mv <;>
            simp [Insert_alloc, SimpleVector.Insert, Insert_rvalue, hp, he, hle, Ending.of_run]

/-- When the allocation fails, `PushBack`, `Resize`, `Reserve` and copy
assignment end with `std::bad_alloc` and leave the heap and the vector as they
were; when they need no allocation they are not affected. -/
theorem bad_alloc_keeps_state [ElemType α] (h : Heap α) (v rhs : SimpleVector) (mv : Bool)
    (item : α) (n : Nat) :
    (PushBack_alloc false mv h v item =
      if v.size_ = v.capacity_ then Ending.bad_alloc (h, v)
      else Ending.of_run (PushBack_impl mv h v item)) ∧
    (Resize_alloc false h v n =
      if v.size_ < n ∧ v.capacity_ < n then Ending.bad_alloc (h, v)
      else Ending.of_run (Resize h v n)) ∧
    (Reserve_alloc false h v n =
      if v.capacity_ < n then Ending.bad_alloc (h, v) else Ending.of_run (Reserve h v n)) ∧
    (operator_assign_alloc false h v rhs false = Ending.bad_alloc (h, v, rhs)) ∧
    (operator_assign_alloc false h v v true = Ending.returned (h, v, v)) := by
  refine ⟨?_, ?_, ?_, ?_, ?_⟩
  · simp [PushBack_alloc]
  · by_cases h1 : v.size_ < n
    · by_cases h2 : n ≤ v.capacity_
      · have : ¬ v.capacity_ < n := by omega
        simp [Resize_alloc, h1, h2, this]
      · have : v.capacity_ < n := by omega
        simp [Resize_alloc, h1, h2, this]
    · simp [Resize_alloc, h1]
  · by_cases h1 : v.capacity_ < n
    · simp [Reserve_alloc, h1]
    · simp [Reserve_alloc, h1]
  · simp [operator_assign_alloc]
  · simp [operator_assign_alloc, operator_assign, Ending.of_run]

/-- On a full vector, a failed allocation in `Insert` leaves the member
`capacity_` changed. -/
theorem Insert_bad_alloc_state [ElemType α] (mv : Bool) (h : Heap α) (v : SimpleVector)
    (p : Nat) (value : Ref α) (hv : Valid h v) (hp : p ≤ v.size_)
    (hfull : v.size_ = v.capacity_) :
    Insert_alloc false mv h v (v.begin_.add p) value =
      Ending.bad_alloc (h, { v with capacity_ :=
        if v.size_ = 0 then p + 1 else max p (v.capacity_ * 2) }) ∧
    v.capacity_ < (if v.size_ = 0 then p + 1 else max p (v.capacity_ * 2)) := by
  obtain ⟨⟨⟨blk, off⟩⟩, size, cap⟩ := v
  have hoff : off = 0 := hv.2.1
  subst hoff
  simp only at hp hfull
  subst hfull
  constructor
  · by_cases hz : size = 0
    · have hp0 : p = 0 := by omega
      simp [Insert_alloc, begin_, end_, ArrayPtr.Get, Ptr.add, Ptr.distance, hz, hp0]
    · simp [Insert_alloc, begin_, end_, ArrayPtr.Get, Ptr.add, Ptr.distance, hp, hz]
  · simp only
    split_ifs <;> omega

/-- C19 (defect in the code): on the full vector `[1]` (capacity 1),
`Insert(begin(), 9)` with the allocation of `buff` failing ends with
`std::bad_alloc` and leaves `GetCapacity() == 2` instead of 1, over the same
one-cell buffer; the next `PushBack` then takes the within-capacity branch
and writes `array_[1]`, out of bounds. -/
theorem C19_Insert_bad_alloc_changes_capacity :
    Insert_alloc false false (heap_one [1]) (vec_zero 1 1) (vec_zero 1 1).begin_ (Ref.obj 9) =
      Ending.bad_alloc (heap_one [1], vec_zero 1 2) ∧
    (vec_zero 1 2).GetCapacity ≠ (vec_zero 1 1).GetCapacity ∧
    (vec_zero 1 2).cells (heap_one [1]) = some [1] ∧
    PushBack (heap_one [1]) (vec_zero 1 2) 5 = none := by
  refine ⟨rfl, by decide, rfl, rfl⟩

end SV

namespace SV
variable {α : Type}
open SimpleVector

theorem copy_from_list_eq (xs : List α) (h : Heap α) (b j : Nat) (B : List α)
    (hb : h.blocks b = some B) (hj : j + xs.length ≤ B.length) :
    copy_from_list xs h ⟨some b, j⟩ = some (h.setBlock b (some (splice B j xs))) := by
  induction xs generalizing h B j with
  | nil =>
    simp only [copy_from_list, splice_nil]
    rw [Heap.setBlock_self h b _ hb]
  | cons x xs ih =>
    simp only [List.length_cons] at hj
    have hj1 : j < B.length := by omega
    simp only [copy_from_list, Heap.store_eq h b j x B hb hj1, Ptr.add]
    rw [ih _ (j + 1) (B.set j x) (Heap.setBlock_blocks_same _ _ _)
      (by rw [List.length_set]; omega), Heap.setBlock_setBlock, splice_cons B j x xs hj1]

/-- The initializer-list constructor on a non-empty list. -/
theorem ctor_init_list_spec [ElemType α] (h : Heap α) (init : List α) (hne : init ≠ []) :
    ∃ h1 v1, ctor_init_list h init = some (h1, v1) ∧ Valid h1 v1 ∧
      v1.GetSize = init.length ∧ v1.GetCapacity = init.length ∧ v1.toList h1 = init := by
  have hpos : 0 < init.length := List.length_pos.mpr hne
  have hT : ((value_init α init.length).set 0 (ElemType.dflt : α)).length = init.length := by
    rw [List.length_set, value_init_length]
  have hc := copy_from_list_eq init
    (h.setBlock h.next (some ((value_init α init.length).set 0 (ElemType.dflt : α)))).bump
    h.next 0 _ (Heap.bump_setBlock_blocks_same _ _ _) (by rw [hT]; omega)
  have hsp : splice ((value_init α init.length).set 0 (ElemType.dflt : α)) 0 init = init := by
    unfold splice
    rw [List.drop_of_length_le (by rw [hT]; omega)]
    simp
  rw [hsp] at hc
  refine ⟨(h.setBlock h.next (some init)).bump, ⟨⟨⟨some h.next, 0⟩⟩, init.length, init.length⟩,
    ?_, ?_, rfl, rfl, ?_⟩
  · simp only [ctor_init_list, ctor_size, ctor_fill_rvalue_pos h init.length ElemType.dflt hpos,
      begin_, ArrayPtr.Get, hc, Heap.setBlock_bump, Heap.setBlock_setBlock]
  · exact Valid_of_block _ _ _ _ _ (by simp) (Heap.bump_setBlock_blocks_same _ _ _) rfl
      (Nat.le_refl _)
  · rw [toList_eq _ _ _ _ _ (Heap.bump_setBlock_blocks_same _ _ _)]
    simp

/-- C20 (defect in the code): for `n = 0` the buffer `new Type[0]{}` has no
cell, yet the constructor `SimpleVector(size_t, Type&&)`, to which the count
constructor delegates, indexes `array_[0]`: index 0 is not below `n = 0` and
the checked store fails.  The initializer-list constructor on an empty list
and the copy constructor on an empty source delegate to it and fail with it. -/
theorem C20_construction_indexes_cell_zero_of_empty_buffer [ElemType α] (h : Heap α)
    (value : α) :
    (h.new_array (value_init α 0)).1.blocks h.next = some [] ∧
    (ArrayPtr.ctor_raw (h.new_array (value_init α 0)).2).index 0 = ⟨some h.next, 0⟩ ∧
    (h.new_array (value_init α 0)).1.store ⟨some h.next, 0⟩ value = none ∧
    ctor_fill_rvalue h 0 value = none ∧
    ctor_size h 0 = none ∧
    ctor_init_list h ([] : List α) = none ∧
    ctor_copy h ctor_default = none := by
  have e0 : (h.new_array (value_init α 0)).1.blocks h.next = some [] := by
    simp [Heap.new_array, value_init]
  refine ⟨e0, rfl, ?_, ctor_fill_rvalue_zero h value, ctor_fill_rvalue_zero h ElemType.dflt, ?_,
    ctor_copy_empty h ctor_default rfl⟩
  · simp [Heap.store, e0]
  · simp [ctor_init_list, ctor_size, ctor_fill_rvalue_zero]

end SV

namespace SV
variable {α : Type}
open SimpleVector

theorem PopBack_size_le (v v1 : SimpleVector) (e : v.PopBack = some v1)
    (hv : v.size_ ≤ v.capacity_) : v1.size_ ≤ v1.capacity_ := by
  unfold PopBack at e
  split at e
  · cases e; simp only; omega
  · contradiction

theorem drain_loop_size_le (fuel : Nat) : ∀ (v v1 : SimpleVector),
    drain_loop fuel v = some v1 → v.size_ ≤ v.capacity_ → v1.size_ ≤ v1.capacity_ := by
  induction fuel with
  | zero =>
    intro v v1 e hv
    unfold drain_loop at e
    split at e
    · contradiction
    · cases e; exact hv
  | succ k ih =>
    intro v v1 e hv
    unfold drain_loop at e
    split at e
    · dsimp only at e
      split at e
      · contradiction
      · rename_i o1 e2
        exact ih _ _ e (PopBack_size_le _ _ e2 hv)
    · cases e; exact hv

theorem ctor_fill_rvalue_size_le [ElemType α] (h h1 : Heap α) (v1 : SimpleVector) (n : Nat)
    (value : α) (e : ctor_fill_rvalue h n value = some (h1, v1)) : v1.size_ ≤ v1.capacity_ := by
  unfold ctor_fill_rvalue at e
  dsimp only at e
  repeat' split at e
  all_goals first
    | contradiction
    | (simp only [Option.some.injEq, Prod.mk.injEq] at e; obtain ⟨-, rfl⟩ := e; simp only; omega)

theorem ctor_fill_size_le [ElemType α] (h h1 : Heap α) (v1 : SimpleVector) (n : Nat)
    (value : α) (e : ctor_fill h n value = some (h1, v1)) : v1.size_ ≤ v1.capacity_ := by
  unfold ctor_fill at e
  dsimp only at e
  repeat' split at e
  all_goals first
    | contradiction
    | (simp only [Option.some.injEq, Prod.mk.injEq] at e; obtain ⟨-, rfl⟩ := e; simp only; omega)

theorem ctor_init_list_size_le [ElemType α] (h h1 : Heap α) (v1 : SimpleVector) (init : List α)
    (e : ctor_init_list h init = some (h1, v1)) : v1.size_ ≤ v1.capacity_ := by
  unfold ctor_init_list at e
  split at e
  · contradiction
  · rename_i h2 v e2
    split at e
    · contradiction
    · simp only [Option.some.injEq, Prod.mk.injEq] at e
      obtain ⟨-, rfl⟩ := e
      exact ctor_fill_rvalue_size_le _ _ _ _ _ e2

theorem Reserve_size_le [ElemType α] (h h1 : Heap α) (v v1 : SimpleVector) (n : Nat)
    (e : Reserve h v n = some (h1, v1)) (hv : v.size_ ≤ v.capacity_) :
    v1.size_ ≤ v1.capacity_ ∧ n ≤ v1.capacity_ ∧ v1.size_ = v.size_ := by
  unfold Reserve at e
  dsimp only at e
  repeat' split at e
  all_goals first
    | contradiction
    | (simp only [Option.some.injEq, Prod.mk.injEq] at e; obtain ⟨-, rfl⟩ := e
       exact ⟨by first | omega | (dsimp only; omega), by first | omega | (dsimp only; omega), rfl⟩)

theorem ctor_copy_size_le [ElemType α] (h h1 : Heap α) (other v1 : SimpleVector)
    (e : ctor_copy h other = some (h1, v1)) : v1.size_ ≤ v1.capacity_ := by
  unfold ctor_copy at e
  split at e
  · contradiction
  · rename_i h2 tmp e2
    have := ctor_fill_rvalue_size_le _ _ _ _ _ e2
    repeat' split at e
    all_goals first
      | contradiction
      | (simp only [Option.some.injEq, Prod.mk.injEq] at e; obtain ⟨-, rfl⟩ := e
         simp only [SimpleVector.swap]; omega)

theorem ctor_move_size_le [ElemType α] (h h1 : Heap α) (other v1 other1 : SimpleVector)
    (e : ctor_move h other = some (h1, v1, other1)) (hv : other.size_ ≤ other.capacity_) :
    v1.size_ ≤ v1.capacity_ ∧ other1.size_ ≤ other1.capacity_ := by
  unfold ctor_move at e
  split at e
  · contradiction
  · rename_i h2 this1 e2
    have hr := (Reserve_size_le _ _ _ _ _ e2 (Nat.le_refl _)).2.1
    dsimp only at e
    split at e
    · contradiction
    · split at e
      · contradiction
      · rename_i o1 e3
        simp only [Option.some.injEq, Prod.mk.injEq] at e
        obtain ⟨-, rfl, rfl⟩ := e
        exact ⟨hr, drain_loop_size_le _ _ _ e3 hv⟩

theorem Resize_size_le [ElemType α] (h h1 : Heap α) (v v1 : SimpleVector) (m : Nat)
    (e : Resize h v m = some (h1, v1)) (hv : v.size_ ≤ v.capacity_) :
    v1.size_ ≤ v1.capacity_ := by
  unfold Resize at e
  dsimp only at e
  repeat' split at e
  all_goals first
    | contradiction
    | (simp only [Option.some.injEq, Prod.mk.injEq] at e; obtain ⟨-, rfl⟩ := e; simp only; omega)

theorem PushBack_impl_size_le [ElemType α] (mv : Bool) (h h1 : Heap α) (v v1 : SimpleVector)
    (item : α) (e : PushBack_impl mv h v item = some (h1, v1)) (hv : v.size_ ≤ v.capacity_) :
    v1.size_ ≤ v1.capacity_ := by
  unfold PushBack_impl at e
  dsimp only at e
  repeat' split at e
  all_goals first
    | contradiction
    | (simp only [Option.some.injEq, Prod.mk.injEq] at e; obtain ⟨-, rfl⟩ := e; simp only; omega)

theorem Insert_size_le [ElemType α] (h h1 : Heap α) (v v1 : SimpleVector) (pos r : Ptr)
    (value : Ref α) (e : SimpleVector.Insert h v pos value = some (h1, v1, r))
    (hv : v.size_ ≤ v.capacity_) : v1.size_ ≤ v1.capacity_ := by
  unfold SimpleVector.Insert at e
  dsimp only at e
  repeat' split at e
  all_goals first
    | contradiction
    | (simp only [Option.some.injEq, Prod.mk.injEq] at e; obtain ⟨-, rfl, -⟩ := e; simp only; omega)

theorem Insert_rvalue_size_le [ElemType α] (h h1 : Heap α) (v v1 : SimpleVector) (pos r : Ptr)
    (value : Ref α) (e : Insert_rvalue h v pos value = some (h1, v1, r))
    (hv : v.size_ ≤ v.capacity_) : v1.size_ ≤ v1.capacity_ := by
  unfold Insert_rvalue at e
  dsimp only at e
  repeat' split at e
  all_goals first
    | contradiction
    | (simp only [Option.some.injEq, Prod.mk.injEq] at e; obtain ⟨-, rfl, -⟩ := e; simp only; omega)

theorem Erase_size_le [ElemType α] (h h1 : Heap α) (v v1 : SimpleVector) (pos r : Ptr)
    (e : Erase h v pos = some (h1, v1, r)) (hv : v.size_ ≤ v.capacity_) :
    v1.size_ ≤ v1.capacity_ := by
  unfold Erase at e
  repeat' split at e
  all_goals first
    | contradiction
    | (simp only [Option.some.injEq, Prod.mk.injEq] at e; obtain ⟨-, rfl, -⟩ := e; simp only; omega)

theorem operator_assign_size_le [ElemType α] (h h1 : Heap α) (b a b1 a1 : SimpleVector)
    (s : Bool) (e : operator_assign h b a s = some (h1, b1, a1))
    (hb : b.size_ ≤ b.capacity_) (ha : a.size_ ≤ a.capacity_) :
    b1.size_ ≤ b1.capacity_ ∧ a1.size_ ≤ a1.capacity_ := by
  unfold operator_assign at e
  split at e
  · split at e
    · contradiction
    · rename_i h2 rhs_copy e2
      have := ctor_copy_size_le _ _ _ _ e2
      split at e
      · contradiction
      · simp only [Option.some.injEq, Prod.mk.injEq] at e
        obtain ⟨-, rfl, rfl⟩ := e
        exact ⟨by simp only [SimpleVector.swap]; omega, ha⟩
  · simp only [Option.some.injEq, Prod.mk.injEq] at e
    obtain ⟨-, rfl, rfl⟩ := e
    exact ⟨hb, ha⟩

/-- Every vector produced from vectors with `size_ <= capacity_` has
`size_ <= capacity_`. -/
theorem Reachable_size_le [ElemType α] (start : SimpleVector → Prop)
    (hs : ∀ v, start v → v.size_ ≤ v.capacity_) (v : SimpleVector)
    (hr : Reachable α start v) : v.size_ ≤ v.capacity_ := by
  induction hr with
  | start hv => exact hs _ hv
  | ctor_default => exact Nat.le_refl _
  | ctor_size n e => exact ctor_fill_rvalue_size_le _ _ _ _ _ e
  | ctor_fill n x e => exact ctor_fill_size_le _ _ _ _ _ e
  | ctor_fill_rvalue n x e => exact ctor_fill_rvalue_size_le _ _ _ _ _ e
  | ctor_init_list init e => exact ctor_init_list_size_le _ _ _ _ e
  | ctor_reserve objc e => exact (Reserve_size_le _ _ _ _ _ e (Nat.le_refl _)).1
  | ctor_copy _ e _ => exact ctor_copy_size_le _ _ _ _ e
  | ctor_move _ e ih => exact (ctor_move_size_le _ _ _ _ _ e ih).1
  | moved_from _ e ih => exact (ctor_move_size_le _ _ _ _ _ e ih).2
  | Clear _ ih => exact Nat.zero_le _
  | Resize m _ e ih => exact Resize_size_le _ _ _ _ _ e ih
  | PushBack x _ e ih => exact PushBack_impl_size_le _ _ _ _ _ _ e ih
  | PushBack_rvalue x _ e ih => exact PushBack_impl_size_le _ _ _ _ _ _ e ih
  | Insert p x _ e ih => exact Insert_size_le _ _ _ _ _ _ _ e ih
  | Insert_rvalue p x _ e ih => exact Insert_rvalue_size_le _ _ _ _ _ _ _ e ih
  | PopBack _ e ih => exact PopBack_size_le _ _ e ih
  | Erase p _ e ih => exact Erase_size_le _ _ _ _ _ _ e ih
  | Reserve n _ e ih => exact (Reserve_size_le _ _ _ _ _ e ih).1
  | swap_this _ _ _ ih2 => exact ih2
  | swap_other _ _ ih1 _ => exact ih1
  | assign s _ _ e ih1 ih2 => exact (operator_assign_size_le _ _ _ _ _ _ _ e ih1 ih2).1
  | assigned_from s _ _ e ih1 ih2 => exact (operator_assign_size_le _ _ _ _ _ _ _ e ih1 ih2).2

/-- C13: size/capacity invariant (`size <= capacity`).  First part: whatever
set `start` of vectors satisfying `GetSize() <= GetCapacity()` one begins with,
every vector produced from them by the constructors (default, count, fill,
initializer-list, reservation-token, copy, move) and the mutators (`Clear`,
`Resize`, `PushBack`, `Insert`, `PopBack`, `Erase`, `Reserve`, `swap`, copy
assignment) satisfies it again: the object the call was made on and every
other vector involved.  With `start` empty this is the invariant in every
state reachable from a constructed vector; with `start` all vectors
satisfying the invariant it is its preservation by each single call.  Second
part: on a vector satisfying the representation invariant each mutator called
within its precondition (`Insert` with `pos <= size`, `PopBack` with
`size > 0`, `Erase` with `pos < size`) returns, with `size <= capacity`; the
argument of `Insert` is an object of its own or, for the `const Type&`
overload, a cell of a live block.
Third part: the constructors return, with `size <= capacity`: the fill and
reservation-token constructors for every argument, the count constructor for
`n > 0`, the initializer-list constructor for a non-empty list, the copy
constructor and copy assignment for a non-empty source, the move constructor
for every source.  (The count constructor with `n = 0`, and with it the
initializer-list constructor on an empty list and the copy of an empty
vector, writes outside its buffer and produces no state.) -/
theorem C13_size_le_capacity_invariant [ElemType α] :
    (∀ start : SimpleVector → Prop, (∀ v, start v → v.GetSize ≤ v.GetCapacity) →
      ∀ v, Reachable α start v → v.GetSize ≤ v.GetCapacity) ∧
    (∀ (h : Heap α) (v : SimpleVector), Valid h v →
      (∀ m, ∃ h1 v1, Resize h v m = some (h1, v1) ∧ v1.GetSize ≤ v1.GetCapacity) ∧
      (∀ x, ∃ h1 v1, PushBack h v x = some (h1, v1) ∧ v1.GetSize ≤ v1.GetCapacity) ∧
      (∀ x, ∃ h1 v1, PushBack_rvalue h v x = some (h1, v1) ∧ v1.GetSize ≤ v1.GetCapacity) ∧
      (∀ p x, p ≤ v.GetSize → ∃ h1 v1 r,
        SimpleVector.Insert h v (v.begin_.add p) (Ref.obj x) = some (h1, v1, r) ∧
        v1.GetSize ≤ v1.GetCapacity) ∧
      (∀ p x, p ≤ v.GetSize → ∃ h1 v1 r,
        Insert_rvalue h v (v.begin_.add p) (Ref.obj x) = some (h1, v1, r) ∧
        v1.GetSize ≤ v1.GetCapacity) ∧
      (∀ p b o x, p ≤ v.GetSize → b < h.next → h.load ⟨some b, o⟩ = some x → ∃ h1 v1 r,
        SimpleVector.Insert h v (v.begin_.add p) (Ref.cell ⟨some b, o⟩) = some (h1, v1, r) ∧
        v1.GetSize ≤ v1.GetCapacity) ∧
      (0 < v.GetSize → ∃ v1, v.PopBack = some v1 ∧ v1.GetSize ≤ v1.GetCapacity) ∧
      (∀ p, p < v.GetSize → ∃ h1 v1 r, Erase h v (v.begin_.add p) = some (h1, v1, r) ∧
        v1.GetSize ≤ v1.GetCapacity) ∧
      (∀ n, ∃ h1 v1, Reserve h v n = some (h1, v1) ∧ v1.GetSize ≤ v1.GetCapacity)) ∧
    (∀ h : Heap α,
      (∀ n, 0 < n → ∃ h1 v, ctor_size h n = some (h1, v) ∧ v.GetSize ≤ v.GetCapacity) ∧
      (∀ n x, ∃ h1 v, ctor_fill h n x = some (h1, v) ∧ v.GetSize ≤ v.GetCapacity) ∧
      (∀ n x, 0 < n → ∃ h1 v, ctor_fill_rvalue h n x = some (h1, v) ∧
        v.GetSize ≤ v.GetCapacity) ∧
      (∀ init : List α, init ≠ [] → ∃ h1 v, ctor_init_list h init = some (h1, v) ∧
        v.GetSize ≤ v.GetCapacity) ∧
      (∀ objc, ∃ h1 v, ctor_reserve h objc = some (h1, v) ∧ v.GetSize ≤ v.GetCapacity) ∧
      (∀ other, Valid h other → 0 < other.GetSize → ∃ h1 v,
        ctor_copy h other = some (h1, v) ∧ v.GetSize ≤ v.GetCapacity) ∧
      (∀ other, Valid h other → ∃ h1 v other1, ctor_move h other = some (h1, v, other1) ∧
        v.GetSize ≤ v.GetCapacity ∧ other1.GetSize ≤ other1.GetCapacity) ∧
      (∀ b a, Valid h b → Valid h a → Disjoint b a → 0 < a.GetSize → ∃ h1 b1,
        operator_assign h b a false = some (h1, b1, a) ∧ b1.GetSize ≤ b1.GetCapacity ∧
        a.GetSize ≤ a.GetCapacity)) := by
  refine ⟨fun start hs v hr => Reachable_size_le start hs v hr, fun h v hv => ?_, fun h => ?_⟩
  · refine ⟨fun m => ?_, fun x => ?_, fun x => ?_, fun p x hp => ?_, fun p x hp => ?_,
      fun p b o x hp hb hx => ?_, fun hp => ?_, fun p hp => ?_, fun n => ?_⟩
    · obtain ⟨h1, v1, e, hv1, -⟩ := Resize_spec h v m hv
      exact ⟨h1, v1, e, hv1.1⟩
    · obtain ⟨h1, v1, e, hv1, -⟩ := PushBack_impl_spec false h v x hv
      exact ⟨h1, v1, e, hv1.1⟩
    · obtain ⟨h1, v1, e, hv1, -⟩ := PushBack_impl_spec true h v x hv
      exact ⟨h1, v1, e, hv1.1⟩
    · obtain ⟨h1, v1, r, e, -, hv1, -⟩ := Insert_spec h v p x hv hp
      exact ⟨h1, v1, r, e, hv1.1⟩
    · obtain ⟨h1, v1, r, -, e, hv1, -⟩ := Insert_spec h v p x hv hp
      exact ⟨h1, v1, r, e, hv1.1⟩
    · obtain ⟨y, ey, -⟩ := Insert_cell_spec h v p b o x hv hp hb hx
      obtain ⟨h1, v1, r, e, -, hv1, -⟩ := Insert_spec h v p y hv hp
      exact ⟨h1, v1, r, ey.trans e, hv1.1⟩
    · have hne : v.size_ ≠ 0 := Nat.pos_iff_ne_zero.mp hp
      refine ⟨_, if_pos hne, ?_⟩
      exact Nat.le_trans (Nat.sub_le _ _) hv.1
    · obtain ⟨h1, v1, r, e, hv1, -⟩ := Erase_spec h v p hv hp
      exact ⟨h1, v1, r, e, hv1.1⟩
    · obtain ⟨h1, v1, e, hv1, -⟩ := Reserve_spec h v n hv
      exact ⟨h1, v1, e, hv1.1⟩
  · refine ⟨fun n hn => ?_, fun n x => ?_, fun n x hn => ?_, fun init hne => ?_, fun objc => ?_,
      fun other hv hpos => ?_, fun other hv => ?_, fun b a hb ha hd hpos => ?_⟩
    · obtain ⟨h1, v1, e, hv1, -⟩ := ctor_size_pos_spec h n hn
      exact ⟨h1, v1, e, hv1.1⟩
    · obtain ⟨h1, v1, e, hv1, -⟩ := ctor_fill_spec h n x
      exact ⟨h1, v1, e, hv1.1⟩
    · obtain ⟨h1, v1, e, hs, hc, -⟩ := ctor_fill_rvalue_spec h n x hn
      exact ⟨h1, v1, e, by rw [hs, hc]⟩
    · obtain ⟨h1, v1, e, hv1, -⟩ := ctor_init_list_spec h init hne
      exact ⟨h1, v1, e, hv1.1⟩
    · obtain ⟨h1, v1, e, hv1, -⟩ := Reserve_spec h ctor_default objc.capacity_
        (Valid_ctor_default h)
      exact ⟨h1, v1, e, hv1.1⟩
    · obtain ⟨h1, v1, e, hv1, -⟩ := ctor_copy_spec h other hv hpos
      exact ⟨h1, v1, e, hv1.1⟩
    · obtain ⟨h1, v1, o1, e, hv1, -, -, -, ho1, -⟩ := ctor_move_spec h other hv
      exact ⟨h1, v1, o1, e, hv1.1, ho1.1⟩
    · obtain ⟨h1, b1, e, hv1, -⟩ := operator_assign_spec h b a hb ha hd hpos
      exact ⟨h1, b1, e, hv1.1, ha.1⟩

/-- C13 witness: the vector left by `PushBack(5); PushBack(6); PopBack()` on a
default-constructed vector (size 1, capacity 2, in its second block) is
reachable from a constructed vector and has `size <= capacity`. -/
theorem C13_size_le_capacity_invariant_witness :
    Reachable Int (fun _ => False) (vec_one 1 2) ∧
      (vec_one 1 2).GetSize ≤ (vec_one 1 2).GetCapacity :=
  have hr : Reachable Int (fun _ => False) (vec_one 1 2) :=
    @Reachable.PopBack Int _ _ (vec_one 2 2) _
      (@Reachable.PushBack Int _ _ (heap_one [5]) _ (vec_zero 1 1) (vec_one 2 2) 6
        (@Reachable.PushBack Int _ _ heap_empty _ ctor_default (vec_zero 1 1) 5
          Reachable.ctor_default rfl) rfl) rfl
  ⟨hr, (@C13_size_le_capacity_invariant Int _).1 _ (fun _ hf => hf.elim) _ hr⟩

end SV
